import Mathlib

/-!
# Verification of the llm-gateway translator and stream transcoder

Shallow embedding of the pure core of the `llm-gateway` repository
(`src/translate.rs`, `src/streaming.rs`, `src/audit_log.rs`, `src/config.rs`)
together with proofs about the embedded functions.

Modelling conventions:
* Rust `String` is Lean `String`; Rust `Option<T>` is `Option T`.
* Rust `u32`/`u64` indices and counters are `Nat` (no arithmetic in the
  embedded code can overflow a `u32`/`u64` on the inputs the theorems range
  over, and indices only ever grow by 1 from 0).
* Rust `i64` is `Int`; `i64` division truncates toward zero, modelled with
  `Int.tdiv`.
* `serde_json::Value` payloads that the code only inspects through a fixed
  set of shapes are modelled by inductives enumerating those shapes.
* `HashMap` state whose iteration order the code observes is modelled as an
  association list in insertion order (one fixed admissible iteration order
  of the real `HashMap`).
* Emitting an SSE event over the channel is modelled by appending the event
  to an output list; channel-send failures (client disconnect) are
  concurrency behaviour outside this embedding.
-/

namespace LlmGateway

/-- Error value, from `TranslateError` in `src/translate.rs` and `AppError`
in `src/error.rs` (the HTTP status is not needed by any claim). -/
structure AppError where
  error_type : String
  message : String
  deriving Repr, DecidableEq

def AppError.invalid_request (message : String) : AppError :=
  ⟨"invalid_request_error", message⟩

def AppError.api_error (message : String) : AppError :=
  ⟨"api_error", message⟩

/-! ## Finish-reason mappings (`src/streaming.rs` 927-934, `src/translate.rs` 132-138) -/

/-- `map_finish_reason` from `src/streaming.rs`. -/
def map_finish_reason (reason : String) : String :=
  if reason = "stop" then "end_turn"
  else if reason = "length" then "max_tokens"
  else if reason = "tool_calls" then "tool_use"
  else "end_turn"

/-- The `stop_reason` match inside `openai_to_anthropic`
(`src/translate.rs` lines 132-138): `Some("stop") | None => "end_turn"`,
`Some("length") => "max_tokens"`, `Some("tool_calls") => "tool_use"`,
`_ => "end_turn"`. -/
def translateStopReason (finish : Option String) : String :=
  match finish with
  | none => "end_turn"
  | some s =>
    if s = "stop" then "end_turn"
    else if s = "length" then "max_tokens"
    else if s = "tool_calls" then "tool_use"
    else "end_turn"

/-- The finish-reason mapping as the spec states it (§4.2): a single total
function on optional finish reasons. Written from the spec's words, for the
refinement claim C5. -/
def specStopReason (finish : Option String) : String :=
  match finish with
  | none => "end_turn"
  | some "stop" => "end_turn"
  | some "length" => "max_tokens"
  | some "tool_calls" => "tool_use"
  | some _ => "end_turn"

/-! ## Model-list translation (`src/translate.rs` 167-243) -/

/-- Rust `str::split('-')` over the characters: `"a--b"` yields
`["a", "", "b"]` and the empty string yields `[""]` (the same semantics as
`String.splitOn "-"`, defined structurally so that it evaluates in the
kernel). -/
def splitOnDash : List Char → List (List Char)
  | [] => [[]]
  | c :: rest =>
    if c = '-' then [] :: splitOnDash rest
    else
      match splitOnDash rest with
      | t :: ts => (c :: t) :: ts
      | [] => [[c]]

/-- Per-token transformation inside `titleize_model_id`
(`src/translate.rs` 224-243): tokens of length ≤ 3 that are all ASCII
alphanumeric are uppercased, otherwise the first char is ASCII-uppercased
and the rest ASCII-lowercased.  Rust's byte length and `to_uppercase` agree
with `String.length` and per-char `Char.toUpper` here because the short
branch is guarded by `is_ascii_alphanumeric`. -/
def titleizePart (part : String) : String :=
  if part.length ≤ 3 ∧ part.toList.all (fun c => c.isAlphanum) then
    String.mk (part.toList.map Char.toUpper)
  else
    match part.toList with
    | [] => ""
    | c :: rest => String.mk (c.toUpper :: rest.map Char.toLower)

/-- `titleize_model_id` from `src/translate.rs`: split the id on `-`,
transform each token with `titleizePart`, join with single spaces (the
source pushes a space before every token except the first). -/
def titleize_model_id (id : String) : String :=
  String.intercalate " "
    ((splitOnDash id.toList).map (fun tok => titleizePart (String.mk tok)))

/-! ## Reasoning-effort derivation (`src/translate.rs` 485-493, `src/config.rs` 274-283) -/

/-- `thinking` directive of an Anthropic request (`AnthropicThinking` in
`src/models.rs`). -/
structure AnthropicThinking where
  thinking_type : String
  budget_tokens : Option Nat
  deriving Repr

/-- `Config::thinking_map_pairs` (`src/config.rs` 274-283): collect the
`thinking_map` entries and sort them by ascending threshold
(`sort_by_key`).  The map itself is modelled as an association list with
distinct keys. -/
def thinking_map_pairs (thinking_map : List (Nat × String)) : List (Nat × String) :=
  List.insertionSort (fun a b => a.1 ≤ b.1) thinking_map

/-- `map_reasoning_effort` from `src/translate.rs` 485-493: take the budget
(absent budget → `None`), then scan the sorted pairs in reverse and return
the effort of the first threshold that is ≤ budget. -/
def map_reasoning_effort (thinking : AnthropicThinking)
    (thinking_map : List (Nat × String)) : Option String :=
  match thinking.budget_tokens with
  | none => none
  | some budget =>
    ((thinking_map_pairs thinking_map).reverse.find?
      (fun p => budget ≥ p.1)).map (fun p => p.2)

/-- The reasoning-effort derivation at request level
(`anthropic_to_openai`, `src/translate.rs` 29-32): absent directive → no
effort. -/
def reasoning_effort_of (thinking : Option AnthropicThinking)
    (thinking_map : List (Nat × String)) : Option String :=
  thinking.bind (fun t => map_reasoning_effort t thinking_map)

/-! ## Unix-seconds to ISO-8601 (`src/translate.rs` 191-222) -/

/-- Rust's `as i32` cast: two's-complement wrap-around into
`[-2^31, 2^31)`. -/
def wrap32 (x : Int) : Int := (x + 2147483648) % 4294967296 - 2147483648

/-- `civil_from_days` from `src/translate.rs` 210-222 (Howard Hinnant's
`civil_from_days` algorithm).  Rust `i64` division truncates toward zero,
which is `Int.tdiv`.  Returns `(year, month, day)`; the computed year is
cast `as i32` (`translate.rs` 220), which wraps for days far enough from
the epoch, while `m` and `d` always lie in `1..=12` and `1..=31`, so
their `as u32` casts are lossless and they are kept as `Int`. -/
def civil_from_days (days : Int) : Int × Int × Int :=
  let z := days + 719468
  let era := (if z ≥ 0 then z else z - 146096).tdiv 146097
  let doe := z - era * 146097
  let yoe := (doe - doe.tdiv 1460 + doe.tdiv 36524 - doe.tdiv 146096).tdiv 365
  let y := yoe + era * 400
  let doy := doe - (365 * yoe + yoe.tdiv 4 - yoe.tdiv 100)
  let mp := (5 * doy + 2).tdiv 153
  let d := doy - (153 * mp + 2).tdiv 5 + 1
  let m := mp + (if mp < 10 then 3 else -9)
  let year := wrap32 (y + (if m ≤ 2 then 1 else 0))
  (year, m, d)

/-- The same algorithm restricted to nonnegative day counts and without
the final `as i32` cast, expressed over `Nat` (every intermediate
quantity is nonnegative there; the relation to `civil_from_days` — equal
up to `wrap32` on the year — is proved below). -/
def civil_from_days_nat (days : Nat) : Nat × Nat × Nat :=
  let z := days + 719468
  let era := z / 146097
  let doe := z % 146097
  let yoe := (doe - doe / 1460 + doe / 36524 - doe / 146096) / 365
  let doy := doe - (365 * yoe + yoe / 4 - yoe / 100)
  let mp := (5 * doy + 2) / 153
  let d := doy - (153 * mp + 2) / 5 + 1
  let m := if mp < 10 then mp + 3 else mp - 9
  let year := yoe + era * 400 + (if m ≤ 2 then 1 else 0)
  (year, m, d)

/-- Zero-padding decimal rendering, as Rust's `{:04}` / `{:02}` format
specifiers on nonnegative integers. -/
def padNat (w : Nat) (n : Nat) : String :=
  let s := toString n
  String.mk (List.replicate (w - s.length) '0') ++ s

/-- Rust's `{:04}` format specifier on a signed integer: the minus sign
counts toward the width and the zero padding goes between the sign and
the digits. -/
def padInt (w : Nat) (n : Int) : String :=
  if n < 0 then
    let s := toString n.natAbs
    "-" ++ String.mk (List.replicate (w - 1 - s.length) '0') ++ s
  else padNat w n.toNat

/-- `unix_to_iso8601` from `src/translate.rs` 191-208: negative timestamps
fail with `invalid_request`; otherwise split seconds into days and
time-of-day and format `YYYY-MM-DDTHH:MM:SSZ` from `civil_from_days`.
The year is an `i32` (possibly negative after the wrapping cast) rendered
with `{:04}`, so `padInt`; month and day always lie in `1..=12`/`1..=31`,
so their `as u32` casts and the `Int.toNat` coercions below are faithful
to Rust's `{:02}` rendering of `u32`. -/
def unix_to_iso8601 (ts : Int) : Except AppError String :=
  if ts < 0 then .error (AppError.invalid_request "invalid created timestamp")
  else
    let secs := ts.toNat
    let days := secs / 86400
    let rem := secs % 86400
    let hour := rem / 3600
    let rem2 := rem % 3600
    let minute := rem2 / 60
    let sec := rem2 % 60
    let ymd := civil_from_days (Int.ofNat days)
    .ok (padInt 4 ymd.1 ++ "-" ++ padNat 2 ymd.2.1.toNat ++ "-" ++
      padNat 2 ymd.2.2.toNat ++ "T" ++ padNat 2 hour ++ ":" ++
      padNat 2 minute ++ ":" ++ padNat 2 sec ++ "Z")

/-! ### Reference proleptic-Gregorian calendar (spec §4.3)

The reference against which `civil_from_days` is checked: the calendar is
defined by its leap-year rule and month lengths, and day number `n` denotes
the date reached from 1970-01-01 by `n` single-day successor steps. -/

/-- Proleptic-Gregorian leap-year rule. -/
def gregLeap (y : Nat) : Bool :=
  y % 4 = 0 && (y % 100 ≠ 0 || y % 400 = 0)

/-- Days in a month of the proleptic-Gregorian calendar (month in 1..12). -/
def gregMonthLen (y m : Nat) : Nat :=
  if m = 1 then 31 else if m = 2 then (if gregLeap y then 29 else 28)
  else if m = 3 then 31 else if m = 4 then 30 else if m = 5 then 31
  else if m = 6 then 30 else if m = 7 then 31 else if m = 8 then 31
  else if m = 9 then 30 else if m = 10 then 31 else if m = 11 then 30
  else 31

/-- Calendar successor: the day after `(y, m, d)`. -/
def gregNextDay : Nat × Nat × Nat → Nat × Nat × Nat
  | (y, m, d) =>
    if d < gregMonthLen y m then (y, m, d + 1)
    else if m < 12 then (y, m + 1, 1)
    else (y + 1, 1, 1)

/-- Reference civil-date conversion: `n` successor steps from 1970-01-01. -/
def gregCivilOfDays (n : Nat) : Nat × Nat × Nat :=
  gregNextDay^[n] (1970, 1, 1)

/-! ### Proof-side decomposition of `civil_from_days_nat` (claim C8) -/

/-- Day-of-era of March 1 of era-year `y` in Hinnant's algorithm:
`365 y + y/4 - y/100` (the year-start offsets inside one 400-year era). -/
def fEra (y : Nat) : Nat := 365 * y + y / 4 - y / 100

/-- Year-of-era recovered from a day-of-era, exactly as computed inside
`civil_from_days_nat`. -/
def yoeOf (e : Nat) : Nat := (e - e / 1460 + e / 36524 - e / 146096) / 365

/-- March-based month index (0..11) of a day-of-year, as computed inside
`civil_from_days_nat`. -/
def dayMp (doy : Nat) : Nat := (5 * doy + 2) / 153

/-- Civil month (1..12) of a March-based day-of-year. -/
def dayM (doy : Nat) : Nat :=
  if dayMp doy < 10 then dayMp doy + 3 else dayMp doy - 9

/-- Day of month (1..31) of a March-based day-of-year. -/
def dayD (doy : Nat) : Nat := doy - (153 * dayMp doy + 2) / 5 + 1

/-- Year adjustment of a civil month: January and February belong to the
next civil year in March-based counting. -/
def adjOf (m : Nat) : Nat := if m ≤ 2 then 1 else 0

/-- Date denoted by a day-of-era `e < 146097`: era-relative year, month and
day, with exactly the arithmetic of `civil_from_days_nat`. -/
def eraDate (e : Nat) : Nat × Nat × Nat :=
  (yoeOf e + adjOf (dayM (e - fEra (yoeOf e))), dayM (e - fEra (yoeOf e)),
   dayD (e - fEra (yoeOf e)))

/-- Bounded range checker: `checkRange P fuel lo w = true` only if `P`
holds on `[lo, lo+w)`.  The balanced divide-and-conquer keeps the
recursion depth logarithmic, so ranges of a few hundred points evaluate
by `rfl` without deep recursion. -/
def checkRange (P : Nat → Bool) : Nat → Nat → Nat → Bool
  | 0, lo, w => w = 0 || (w = 1 && P lo)
  | fuel+1, lo, w =>
    if w ≤ 1 then (w = 0 || (w = 1 && P lo))
    else
      checkRange P fuel lo (w / 2) &&
      checkRange P fuel (lo + w / 2) (w - w / 2)

-- ### lemmas

/-! ## Model-list translation (`src/translate.rs` 167-189) -/

/-- One entry of the upstream OpenAI model list (`OpenAIModel` in
`src/models.rs`; `object` and `owned_by` are never read by the
translator). -/
structure OpenAIModel where
  id : String
  created : Option Int
  deriving Repr

/-- One entry of the produced Anthropic model list (`AnthropicModel` in
`src/models.rs`). -/
structure AnthropicModel where
  id : String
  model_type : String
  display_name : String
  created_at : String
  deriving Repr, DecidableEq

/-- `openai_models_to_anthropic` from `src/translate.rs` 167-189: a loop
over the entries, pushing one converted entry each and propagating the
first `unix_to_iso8601` failure.  The `model_display_map` is an
association list with the `HashMap`'s distinct keys; `display_map.get(&id)`
is `find?` on the key. -/
def openai_models_to_anthropic :
    List OpenAIModel → List (String × String) → Except AppError (List AnthropicModel)
  | [], _ => .ok []
  | model :: rest, model_display_map => do
    let display_name :=
      match (model_display_map.find? (fun p => p.1 = model.id)).map (fun p => p.2) with
      | some name => name
      | none => titleize_model_id model.id
    let created_at ← match model.created with
      | some ts => unix_to_iso8601 ts
      | none => pure "1970-01-01T00:00:00Z"
    let others ← openai_models_to_anthropic rest model_display_map
    pure ({ id := model.id, model_type := "model",
            display_name := display_name, created_at := created_at } :: others)

/-! ## Audit header redaction (`src/audit_log.rs` 146-157) -/

/-- Rust `str::eq_ignore_ascii_case`: equal length and pointwise equal up to
ASCII case. -/
def eqIgnoreAsciiCase (a b : String) : Bool :=
  a.toList.length = b.toList.length &&
    (List.zip a.toList b.toList).all (fun p => p.1.toLower = p.2.toLower)

/-- Insertion into the result `HashMap<String,String>`: later inserts with
the same key overwrite earlier ones. -/
def mapInsert (out : List (String × String)) (k v : String) :
    List (String × String) :=
  if out.any (fun p => p.1 = k) then
    out.map (fun p => if p.1 = k then (k, v) else p)
  else
    out ++ [(k, v)]

/-- `headers_to_map` from `src/audit_log.rs` 146-157: every header whose
name equals `authorization` ASCII-case-insensitively is inserted with the
literal value `[redacted]`; every other header is inserted with its value.
Header values are modelled as the strings the code extracts (`to_str`
failures yield the fixed string `[invalid]` and are value-independent, so
they are absorbed into the value). -/
def headers_to_map (headers : List (String × String)) : List (String × String) :=
  headers.foldl
    (fun out h =>
      if eqIgnoreAsciiCase h.1 "authorization" then
        mapInsert out h.1 "[redacted]"
      else
        mapInsert out h.1 h.2)
    []

/-! ## JSON validity (`serde_json::from_str::<Value>`)

The transcoder only ever asks whether a string parses as a JSON value
(`src/streaming.rs` 888, `src/translate.rs` 110).  `jsonValid` is a
recursive-descent recogniser for the grammar accepted by
`serde_json::from_str::<serde_json::Value>` with the crate's default
features: one value, optionally surrounded by whitespace; strict number
syntax whose value must not overflow `f64` to infinity (serde's
"number out of range"); strings with escaped control characters and
paired `\u` surrogates (serde rejects lone surrogates when building a
Rust `String`); and serde's recursion limit (`remaining_depth` starts at
128 and is decremented at every `[` or `{`; reaching zero is the
recursion-limit error, so at most 127 nested containers are accepted).
The fuel argument is an upper bound on the number of recursive steps;
every step first consumes at least one input character, so `length + 1`
fuel never runs out on accepted inputs. -/

def obraceChar : Char := Char.ofNat 123

def cbraceChar : Char := Char.ofNat 125

def skipWs : List Char → List Char
  | c :: rest =>
    if c = ' ' ∨ c = '\t' ∨ c = '\n' ∨ c = '\r' then skipWs rest else c :: rest
  | [] => []

def isHexDigitChar (c : Char) : Bool :=
  c.isDigit || ('a' ≤ c && c ≤ 'f') || ('A' ≤ c && c ≤ 'F')

/-- Numeric value of one hexadecimal digit. -/
def hexDigitVal (c : Char) : Nat :=
  if c.isDigit then c.toNat - 48
  else if 'a' ≤ c && c ≤ 'f' then c.toNat - 87
  else c.toNat - 55

/-- Numeric value of the four hex digits of a `\u` escape. -/
def hexQuadVal (a b c d : Char) : Nat :=
  ((hexDigitVal a * 16 + hexDigitVal b) * 16 + hexDigitVal c) * 16 +
    hexDigitVal d

def parseJsonStringBody (fuel : Nat) : List Char → Option (List Char)
  | [] => none
  | c :: rest =>
    match fuel with
    | 0 => none
    | fuel + 1 =>
      if c = '"' then some rest
      else if c = '\\' then
        match rest with
        | [] => none
        | e :: rest2 =>
          if e = 'u' then
            match rest2 with
            | a :: b :: c2 :: d :: rest3 =>
              if isHexDigitChar a && isHexDigitChar b && isHexDigitChar c2 &&
                  isHexDigitChar d then
                if 0xD800 ≤ hexQuadVal a b c2 d ∧ hexQuadVal a b c2 d ≤ 0xDBFF then
                  match rest3 with
                  | e2 :: u2 :: a2 :: b2 :: c3 :: d2 :: rest4 =>
                    if e2 = '\\' && u2 = 'u' && isHexDigitChar a2 &&
                        isHexDigitChar b2 && isHexDigitChar c3 &&
                        isHexDigitChar d2 &&
                        decide (0xDC00 ≤ hexQuadVal a2 b2 c3 d2) &&
                        decide (hexQuadVal a2 b2 c3 d2 ≤ 0xDFFF) then
                      parseJsonStringBody fuel rest4
                    else none
                  | _ => none
                else if 0xDC00 ≤ hexQuadVal a b c2 d ∧
                    hexQuadVal a b c2 d ≤ 0xDFFF then none
                else parseJsonStringBody fuel rest3
              else none
            | _ => none
          else if e = '"' ∨ e = '\\' ∨ e = '/' ∨ e = 'b' ∨ e = 'f' ∨ e = 'n' ∨
              e = 'r' ∨ e = 't' then
            parseJsonStringBody fuel rest2
          else none
      else if c.toNat < 32 then none
      else parseJsonStringBody fuel rest

/-- Numeric value of one decimal digit. -/
def digitVal (c : Char) : Nat := c.toNat - 48

/-- Numeric value of a run of decimal digits. -/
def natOfDigits (ds : List Char) : Nat :=
  ds.foldl (fun a c => a * 10 + digitVal c) 0

/-- Smallest magnitude at which a correctly rounded decimal-to-`f64`
conversion overflows to infinity: the midpoint between `f64::MAX`
(`(2^53 - 1) * 2^971`) and `2^1024`; the tie rounds to the neighbour
with even mantissa, which is the infinite one. -/
def f64Overflow : Nat :=
  179769313486231580793728971405303415079934132710037826936173778980444968292764750946649017977587207096330286416692887910946555547851940402630657488671505820681908902000708383676273854845817711531764475730270069855571366959622842914819860834936475292719074168444365510704342711559699508093042880177904174497792

/-- Number of decimal digits of `n`. -/
def numDigits (n : Nat) : Nat := (Nat.toDigits 10 n).length

/-- Whether the decimal `m * 10^k` overflows `f64` (what `serde_json`
reports as "number out of range").  Zero never overflows; a magnitude of
at least `10^309` always does, one below `10^308` never does, and in the
one remaining decade the comparison against `f64Overflow` is exact. -/
def decTooBig (m : Nat) (k : Int) : Bool :=
  if m = 0 then false
  else if (numDigits m : Int) + k ≥ 310 then true
  else if (numDigits m : Int) + k ≤ 308 then false
  else if 0 ≤ k then decide (f64Overflow ≤ m * 10 ^ k.toNat)
  else decide (f64Overflow * 10 ^ (-k).toNat ≤ m)

/-- Syntax and range of a JSON number after the optional minus sign:
`0` or a run of digits without a leading zero, an optional fraction, an
optional exponent, and a value that does not overflow `f64`. -/
def parseJsonNumberAfterSign (l : List Char) : Option (List Char) :=
  match l with
  | [] => none
  | c :: rest =>
    if ¬c.isDigit then none
    else if c = '0' && (match rest with
        | d :: _ => d.isDigit
        | [] => false) then none
    else
      let p1 := rest.span Char.isDigit
      let fr : Option (List Char × List Char) :=
        match p1.2 with
        | d :: r2 =>
          if d = '.' then
            let p2 := r2.span Char.isDigit
            if p2.1.isEmpty then none else some (p2.1, p2.2)
          else some ([], p1.2)
        | [] => some ([], p1.2)
      match fr with
      | none => none
      | some (fds, r4) =>
        let ex : Option (Int × List Char) :=
          match r4 with
          | e :: r5 =>
            if e = 'e' ∨ e = 'E' then
              let p3 :=
                match r5 with
                | sg :: r6 =>
                  if sg = '-' then (true, r6)
                  else if sg = '+' then (false, r6)
                  else (false, r5)
                | [] => (false, r5)
              let p4 := p3.2.span Char.isDigit
              if p4.1.isEmpty then none
              else
                some ((if p3.1 then -(natOfDigits p4.1 : Int)
                  else (natOfDigits p4.1 : Int)), p4.2)
            else some (0, r4)
          | [] => some (0, r4)
        match ex with
        | none => none
        | some (ev, r9) =>
          if decTooBig (natOfDigits (c :: p1.1 ++ fds))
              (ev - (fds.length : Int)) then none
          else some r9

mutual

/-- One JSON value.  `fuel` bounds the recursion and is consumed at every
step; `depth` is serde's `remaining_depth`, decremented at every `[` or
`{` and failing when it would reach zero. -/
def parseJsonValue (fuel : Nat) (depth : Nat) (l : List Char) :
    Option (List Char) :=
  match fuel with
  | 0 => none
  | fuel + 1 =>
    match l with
    | [] => none
    | c :: rest =>
      if c = '"' then parseJsonStringBody (fuel + 1) rest
      else if c = '-' then parseJsonNumberAfterSign rest
      else if c.isDigit then parseJsonNumberAfterSign (c :: rest)
      else if c = 't' then
        match rest with
        | 'r' :: 'u' :: 'e' :: rest2 => some rest2
        | _ => none
      else if c = 'f' then
        match rest with
        | 'a' :: 'l' :: 's' :: 'e' :: rest2 => some rest2
        | _ => none
      else if c = 'n' then
        match rest with
        | 'u' :: 'l' :: 'l' :: rest2 => some rest2
        | _ => none
      else if c = '[' then
        if depth - 1 = 0 then none
        else
          match skipWs rest with
          | ']' :: rest2 => some rest2
          | l2 =>
            match parseJsonValue fuel (depth - 1) l2 with
            | some rest2 => parseJsonArrayTail fuel (depth - 1) rest2
            | none => none
      else if c = obraceChar then
        if depth - 1 = 0 then none
        else
          match skipWs rest with
          | c2 :: rest2 =>
            if c2 = cbraceChar then some rest2
            else if c2 = '"' then
              match parseJsonStringBody (fuel + 1) rest2 with
              | some rest3 => parseJsonMember fuel (depth - 1) rest3
              | none => none
            else none
          | [] => none
      else none
termination_by structural fuel

def parseJsonMember (fuel : Nat) (depth : Nat) (l : List Char) :
    Option (List Char) :=
  match fuel with
  | 0 => none
  | fuel + 1 =>
    match skipWs l with
    | ':' :: rest =>
      match parseJsonValue fuel depth (skipWs rest) with
      | some rest2 => parseJsonObjectTail fuel depth rest2
      | none => none
    | _ => none
termination_by structural fuel

def parseJsonObjectTail (fuel : Nat) (depth : Nat) (l : List Char) :
    Option (List Char) :=
  match fuel with
  | 0 => none
  | fuel + 1 =>
    match skipWs l with
    | c :: rest =>
      if c = cbraceChar then some rest
      else if c = ',' then
        match skipWs rest with
        | '"' :: rest2 =>
          match parseJsonStringBody (fuel + 1) rest2 with
          | some rest3 => parseJsonMember fuel depth rest3
          | none => none
        | _ => none
      else none
    | [] => none
termination_by structural fuel

def parseJsonArrayTail (fuel : Nat) (depth : Nat) (l : List Char) :
    Option (List Char) :=
  match fuel with
  | 0 => none
  | fuel + 1 =>
    match skipWs l with
    | c :: rest =>
      if c = ']' then some rest
      else if c = ',' then
        match parseJsonValue fuel depth (skipWs rest) with
        | some rest2 => parseJsonArrayTail fuel depth rest2
        | none => none
      else none
    | [] => none
termination_by structural fuel

end

/-- Whether `serde_json::from_str::<serde_json::Value>` succeeds on `s`:
one value with serde's initial `remaining_depth` of 128, with nothing but
whitespace after it. -/
def jsonValid (s : String) : Bool :=
  match parseJsonValue (s.length + 1) 128 (skipWs s.toList) with
  | some rest => (skipWs rest).isEmpty
  | none => false

/-! ## Stream transcoder data model (`src/streaming.rs` 22-42, `src/models.rs` 365-420) -/

/-- Payload of a `content_block_start` event (only the parts of the JSON
payload the claims mention). -/
inductive BlockKind
  | text
  | thinking
  | tool_use (id : String) (name : String)
  deriving Repr, DecidableEq

/-- Payload of a `content_block_delta` event. -/
inductive DeltaKind
  | text_delta (text : String)
  | thinking_delta (thinking : String)
  | signature_delta (signature : String)
  | input_json_delta (partial_json : String)
  deriving Repr, DecidableEq

/-- One downstream SSE event (`sse_event` / `error_event` calls in
`src/streaming.rs`); the JSON payloads are abstracted to the fields the
code puts in them. -/
inductive Event
  | message_start (id : String)
  | content_block_start (index : Nat) (block : BlockKind)
  | content_block_delta (index : Nat) (delta : DeltaKind)
  | content_block_stop (index : Nat)
  | message_delta (stop_reason : String)
  | message_stop
  | errorEvent (e : AppError)
  deriving Repr, DecidableEq

/-- `ToolCallState` from `src/streaming.rs` 35-42. -/
structure ToolCallState where
  id : Option String
  name : Option String
  arguments : String
  block_index : Nat
  started : Bool
  stopped : Bool
  deriving Repr, DecidableEq

/-- `StreamState` from `src/streaming.rs` 22-33.  `tool_calls` is the
`HashMap<u32, ToolCallState>` as an association list in insertion order
(one admissible iteration order of the `HashMap`). -/
structure StreamState where
  started : Bool
  message_id : Option String
  model : Option String
  next_index : Nat
  text_block_index : Option Nat
  thinking_block_index : Option Nat
  tool_calls : List (Nat × ToolCallState)
  output_text : String
  reasoning_text : String
  reasoning_signature : Option String
  deriving Repr

/-- The initial transcoder state (`src/streaming.rs` 136-147). -/
def initStreamState : StreamState :=
  { started := false, message_id := none, model := none, next_index := 0,
    text_block_index := none, thinking_block_index := none, tool_calls := [],
    output_text := "", reasoning_text := "", reasoning_signature := none }

/-- `OpenAIToolCallFunctionDelta` from `src/models.rs`. -/
structure OpenAIToolCallFunctionDelta where
  name : Option String
  arguments : Option String
  deriving Repr

/-- `OpenAIToolCallDelta` from `src/models.rs`. -/
structure OpenAIToolCallDelta where
  index : Nat
  id : Option String
  call_type : Option String
  function : Option OpenAIToolCallFunctionDelta
  deriving Repr

/-- The shapes of the `reasoning_content: Option<Value>` payload that
`handle_openai_chunk` distinguishes (`src/streaming.rs` 573-620): an
object that deserialises as `OpenAIReasoningContentDelta`, an object that
does not, a JSON string, or any other JSON value. -/
inductive ReasoningValue
  | objOk (thinking : Option String) (signature : Option String)
  | objBad
  | str (s : String)
  | otherKind
  deriving Repr

/-- `OpenAIStreamDelta` from `src/models.rs`. -/
structure OpenAIStreamDelta where
  role : Option String
  content : Option String
  tool_calls : Option (List OpenAIToolCallDelta)
  reasoning_content : Option ReasoningValue
  deriving Repr

/-- `OpenAIStreamChoice` from `src/models.rs`. -/
structure OpenAIStreamChoice where
  index : Nat
  delta : OpenAIStreamDelta
  finish_reason : Option String
  deriving Repr

/-- `OpenAIStreamChunk` from `src/models.rs`. -/
structure OpenAIStreamChunk where
  id : Option String
  model : Option String
  choices : List OpenAIStreamChoice
  deriving Repr

/-! ## Stream transcoder machine (`src/streaming.rs` 530-934) -/

/-- Lookup in the `tool_calls` map. -/
def findTool (tc : List (Nat × ToolCallState)) (k : Nat) : Option ToolCallState :=
  (tc.find? (fun p => p.1 = k)).map (fun p => p.2)

/-- Overwrite the entry for key `k` (the key is present when this is
called). -/
def setTool (tc : List (Nat × ToolCallState)) (k : Nat) (e : ToolCallState) :
    List (Nat × ToolCallState) :=
  tc.map (fun p => if p.1 = k then (k, e) else p)

/-- `ensure_text_block` from `src/streaming.rs` 818-836: returns the state,
the block index and the emitted events. -/
def ensure_text_block (s : StreamState) : StreamState × Nat × List Event :=
  match s.text_block_index with
  | some index => (s, index, [])
  | none =>
    let index := s.next_index
    ({ s with next_index := s.next_index + 1, text_block_index := some index },
     index, [Event.content_block_start index BlockKind.text])

/-- `ensure_thinking_block` from `src/streaming.rs` 838-859. -/
def ensure_thinking_block (s : StreamState) : StreamState × Nat × List Event :=
  match s.thinking_block_index with
  | some index => (s, index, [])
  | none =>
    let index := s.next_index
    ({ s with next_index := s.next_index + 1, thinking_block_index := some index },
     index, [Event.content_block_start index BlockKind.thinking])

/-- The entry-mutation part of the tool-call loop body in
`handle_openai_chunk` (`src/streaming.rs` 636-694): merge `id` and `name`,
append `arguments` (emitting an `input_json_delta` at once when the block
is already started), then start the block if `id` and `name` have both
just become known, emitting the buffered arguments when non-empty. -/
def toolEntryStep (entry : ToolCallState) (call : OpenAIToolCallDelta) :
    ToolCallState × List Event :=
  let entry :=
    match call.id with
    | some i => { entry with id := some i }
    | none => entry
  let (entry, argEvents) :=
    match call.function with
    | none => (entry, [])
    | some f =>
      let entry :=
        match f.name with
        | some n => { entry with name := some n }
        | none => entry
      match f.arguments with
      | none => (entry, [])
      | some args =>
        let entry := { entry with arguments := entry.arguments ++ args }
        if entry.started then
          (entry, [Event.content_block_delta entry.block_index
            (DeltaKind.input_json_delta args)])
        else (entry, [])
  let (entry, startEvents) :=
    if ¬entry.started ∧ entry.id.isSome ∧ entry.name.isSome then
      let entry := { entry with started := true }
      let startEv := Event.content_block_start entry.block_index
        (BlockKind.tool_use (entry.id.getD "") (entry.name.getD ""))
      if entry.arguments ≠ "" then
        (entry, [startEv, Event.content_block_delta entry.block_index
          (DeltaKind.input_json_delta entry.arguments)])
      else (entry, [startEv])
    else (entry, [])
  (entry, argEvents ++ startEvents)

/-- The body of the tool-call loop in `handle_openai_chunk`
(`src/streaming.rs` 622-695) for a single `OpenAIToolCallDelta`: look up
or create the per-index sub-state (a fresh sub-state takes the next block
index), run `toolEntryStep`, and store the updated sub-state. -/
def apply_tool_call_delta (s : StreamState) (call : OpenAIToolCallDelta) :
    StreamState × List Event :=
  let (s, entry) :=
    match findTool s.tool_calls call.index with
    | some e => (s, e)
    | none =>
      let e : ToolCallState :=
        { id := none, name := none, arguments := "",
          block_index := s.next_index, started := false, stopped := false }
      ({ s with
          next_index := s.next_index + 1
          tool_calls := s.tool_calls ++ [(call.index, e)] }, e)
  let (entry, events) := toolEntryStep entry call
  ({ s with tool_calls := setTool s.tool_calls call.index entry }, events)

/-- The tool-call loop of `handle_openai_chunk` (`src/streaming.rs`
623-695): fold `apply_tool_call_delta` over the deltas, concatenating the
emitted events. -/
def toolCallLoop (s : StreamState) (calls : List OpenAIToolCallDelta) :
    StreamState × List Event :=
  calls.foldl
    (fun (acc : StreamState × List Event) call =>
      let (s', evs') := apply_tool_call_delta acc.1 call
      (s', acc.2 ++ evs'))
    (s, [])

/-- The tool loop of `flush_open_blocks` (`src/streaming.rs` 883-901):
walk the sub-states in iteration order; a started sub-state with empty
arguments aborts with `invalid_request "tool_use arguments empty"`, one
with non-JSON arguments aborts with
`invalid_request "tool_use arguments invalid json"`; otherwise emit
`content_block_stop` for every sub-state not yet stopped.  On abort the
stops already emitted stand and the remaining sub-states are untouched. -/
def flushTools : List (Nat × ToolCallState) →
    List (Nat × ToolCallState) × List Event × Option AppError
  | [] => ([], [], none)
  | (k, t) :: rest =>
    if t.started ∧ t.arguments = "" then
      ((k, t) :: rest, [], some (AppError.invalid_request "tool_use arguments empty"))
    else if t.started ∧ ¬jsonValid t.arguments then
      ((k, t) :: rest, [],
       some (AppError.invalid_request "tool_use arguments invalid json"))
    else
      let p :=
        if ¬t.stopped then
          ({ t with stopped := true }, [Event.content_block_stop t.block_index])
        else (t, [])
      let r := flushTools rest
      ((k, p.1) :: r.1, p.2 ++ r.2.1, r.2.2)

/-- The text phase of `flush_open_blocks` (`src/streaming.rs` 863-870):
close the open text block. -/
def textFlush (s : StreamState) : StreamState × List Event :=
  match s.text_block_index with
  | some index => ({ s with text_block_index := none },
      [Event.content_block_stop index])
  | none => (s, [])

/-- The thinking phase of `flush_open_blocks` (`src/streaming.rs`
872-881): close the open thinking block. -/
def thinkFlush (s : StreamState) : StreamState × List Event :=
  match s.thinking_block_index with
  | some index => ({ s with thinking_block_index := none },
      [Event.content_block_stop index])
  | none => (s, [])

/-- `flush_open_blocks` from `src/streaming.rs` 861-904: close the open
text block, close the open thinking block, then run the tool loop. -/
def flush_open_blocks (s : StreamState) : StreamState × List Event × Option AppError :=
  let r1 := textFlush s
  let r2 := thinkFlush r1.1
  let r3 := flushTools r2.1.tool_calls
  ({ r2.1 with tool_calls := r3.1 }, r1.2 ++ r2.2 ++ r3.2.1, r3.2.2)

/-- The message-start phase of `handle_openai_chunk`
(`src/streaming.rs` 536-570): on the first chunk record the id and model
and emit `message_start`. -/
def startStep (parsed : OpenAIStreamChunk) (s : StreamState) :
    StreamState × List Event :=
  if ¬s.started then
    let s := { s with started := true, message_id := parsed.id, model := parsed.model }
    (s, [Event.message_start (parsed.id.getD "msg_stream")])
  else (s, [])

/-- The text-content phase of `handle_openai_chunk`
(`src/streaming.rs` 573-584): a non-empty content delta is accumulated
and emitted as a `text_delta` on the (possibly just started) text
block. -/
def contentStep (content : Option String) (s : StreamState) :
    StreamState × List Event :=
  match content with
  | some delta =>
    if delta ≠ "" then
      let s := { s with output_text := s.output_text ++ delta }
      let r := ensure_text_block s
      (r.1, r.2.2 ++ [Event.content_block_delta r.2.1 (DeltaKind.text_delta delta)])
    else (s, [])
  | none => (s, [])

/-- The reasoning phase of `handle_openai_chunk`
(`src/streaming.rs` 586-620): the four recognised shapes of
`reasoning_content`. -/
def reasoningStep (rc : Option ReasoningValue) (s : StreamState) :
    StreamState × List Event :=
  match rc with
  | some (ReasoningValue.objOk thinking signature) =>
    let r := ensure_thinking_block s
    let p1 :=
      match thinking with
      | some th => ({ r.1 with reasoning_text := r.1.reasoning_text ++ th },
          [Event.content_block_delta r.2.1 (DeltaKind.thinking_delta th)])
      | none => (r.1, [])
    let p2 :=
      match signature with
      | some sig => ({ p1.1 with reasoning_signature := some sig },
          [Event.content_block_delta r.2.1 (DeltaKind.signature_delta sig)])
      | none => (p1.1, [])
    (p2.1, r.2.2 ++ p1.2 ++ p2.2)
  | some (ReasoningValue.str th) =>
    let s := { s with reasoning_text := s.reasoning_text ++ th }
    let r := ensure_thinking_block s
    (r.1, r.2.2 ++ [Event.content_block_delta r.2.1 (DeltaKind.thinking_delta th)])
  | some ReasoningValue.objBad => (s, [])
  | some ReasoningValue.otherKind => (s, [])
  | none => (s, [])

/-- The tool-call phase of `handle_openai_chunk`
(`src/streaming.rs` 622-695). -/
def toolStep (tcs : Option (List OpenAIToolCallDelta)) (s : StreamState) :
    StreamState × List Event :=
  match tcs with
  | some calls => toolCallLoop s calls
  | none => (s, [])

/-- `handle_openai_chunk` from `src/streaming.rs` 530-715, as a pure
function from a parsed chunk and the state to the new state, the emitted
events and the error from a failing flush (events emitted before the
failure have already been sent). -/
def handle_openai_chunk (parsed : OpenAIStreamChunk) (s : StreamState) :
    StreamState × List Event × Option AppError :=
  let r0 := startStep parsed s
  match parsed.choices with
  | [] => (r0.1, r0.2, none)
  | choice :: _ =>
    let r1 := contentStep choice.delta.content r0.1
    let r2 := reasoningStep choice.delta.reasoning_content r1.1
    let r3 := toolStep choice.delta.tool_calls r2.1
    match choice.finish_reason with
    | some finish =>
      let r4 := flush_open_blocks r3.1
      match r4.2.2 with
      | some e => (r4.1, r0.2 ++ r1.2 ++ r2.2 ++ r3.2 ++ r4.2.1, some e)
      | none =>
        (r4.1, r0.2 ++ r1.2 ++ r2.2 ++ r3.2 ++ r4.2.1 ++
          [Event.message_delta (map_finish_reason finish)], none)
    | none => (r3.1, r0.2 ++ r1.2 ++ r2.2 ++ r3.2, none)

/-- The delta phases of `handle_openai_chunk` (`src/streaming.rs` 536-695)
for its first choice: everything the chunk does before any
finish-reason-triggered flush — message start, text content, reasoning
content and tool-call deltas — with the events in emission order.  Used
to state at which state the finish-reason flush of claim C4 runs. -/
def handleDeltas (parsed : OpenAIStreamChunk) (choice : OpenAIStreamChoice)
    (s : StreamState) : StreamState × List Event :=
  let r0 := startStep parsed s
  let r1 := contentStep choice.delta.content r0.1
  let r2 := reasoningStep choice.delta.reasoning_content r1.1
  let r3 := toolStep choice.delta.tool_calls r2.1
  (r3.1, r0.2 ++ r1.2 ++ r2.2 ++ r3.2)

/-- One `data:` frame of the upstream SSE stream, after the line splitting
of `stream_messages` (`src/streaming.rs` 149-301): a frame whose payload
parses as an `OpenAIStreamChunk`, the terminal `[DONE]`, a payload that
fails to parse (detail carries the serde error text), or a transport
error from the byte stream (detail carries the I/O error text). -/
inductive StreamItem
  | chunk (c : OpenAIStreamChunk)
  | done
  | badJson (detail : String)
  | ioError (detail : String)

/-- The per-request event loop of `stream_messages`
(`src/streaming.rs` 149-352): transport errors and unparseable frames emit
a terminal `api_error` event; `[DONE]` flushes and emits `message_stop`
(or the flush error); a chunk is handled by `handle_openai_chunk`, a flush
error from it being terminal.  A stream that ends without `[DONE]` emits
nothing further. -/
def processItems : List StreamItem → StreamState → List Event
  | [], _ => []
  | StreamItem.ioError d :: _, _ =>
    [Event.errorEvent (AppError.api_error ("stream error: " ++ d))]
  | StreamItem.badJson d :: _, _ =>
    [Event.errorEvent (AppError.api_error ("invalid stream chunk: " ++ d))]
  | StreamItem.done :: _, s =>
    let r := flush_open_blocks s
    match r.2.2 with
    | some e => r.2.1 ++ [Event.errorEvent e]
    | none => r.2.1 ++ [Event.message_stop]
  | StreamItem.chunk c :: rest, s =>
    let r := handle_openai_chunk c s
    match r.2.2 with
    | some e => r.2.1 ++ [Event.errorEvent e]
    | none => r.2.1 ++ processItems rest r.1

/-- The downstream event sequence produced for a whole upstream stream. -/
def streamEvents (items : List StreamItem) : List Event :=
  processItems items initStreamState

/-- The state after handling a list of chunks (no terminal item); used to
speak about the transcoder state mid-stream. -/
def runChunks : List OpenAIStreamChunk → StreamState → StreamState
  | [], s => s
  | c :: rest, s => runChunks rest (handle_openai_chunk c s).1

/-! ## Response translation (`src/translate.rs` 82-165) -/

/-- The shapes of the `reasoning_content: Option<Value>` of a non-stream
choice message that `openai_to_anthropic` distinguishes
(`src/translate.rs` 91-106): an object deserialising as
`OpenAIReasoningContent` (whose `thinking` and `signature` fields are
required strings), an object that does not, a JSON string, or any other
value. -/
inductive RespReasoning
  | objOk (thinking : String) (signature : String)
  | objBad
  | str (s : String)
  | otherKind
  deriving Repr

/-- `OpenAIToolCallFunction` from `src/models.rs` (`arguments` is the raw
JSON text). -/
structure OpenAIToolCallFunction where
  name : String
  arguments : String
  deriving Repr, DecidableEq

/-- `OpenAIToolCall` from `src/models.rs`. -/
structure OpenAIToolCall where
  id : String
  call_type : String
  function : OpenAIToolCallFunction
  deriving Repr, DecidableEq

/-- `OpenAIChoiceMessage` from `src/models.rs`. -/
structure OpenAIChoiceMessage where
  role : String
  content : Option String
  tool_calls : Option (List OpenAIToolCall)
  reasoning_content : Option RespReasoning
  deriving Repr

/-- `OpenAIChoice` from `src/models.rs`. -/
structure OpenAIChoice where
  message : OpenAIChoiceMessage
  finish_reason : Option String
  deriving Repr

/-- `OpenAIUsage` from `src/models.rs`. -/
structure OpenAIUsage where
  prompt_tokens : Nat
  completion_tokens : Nat
  total_tokens : Nat
  deriving Repr, DecidableEq

/-- `OpenAIResponse` from `src/models.rs`. -/
structure OpenAIResponse where
  id : String
  model : String
  choices : List OpenAIChoice
  usage : Option OpenAIUsage
  deriving Repr

/-- `AnthropicUsage` from `src/models.rs`. -/
structure AnthropicUsage where
  input_tokens : Nat
  output_tokens : Nat
  cache_creation_input_tokens : Nat
  cache_read_input_tokens : Nat
  deriving Repr, DecidableEq

/-- Anthropic content block (`AnthropicContentBlock` in `src/models.rs`).
JSON-valued payloads (`tool_use.input`, non-string `tool_result.content`)
are represented by their `serde_json` text rendering, which is the only
way the translator consumes them. -/
inductive AnthropicContentBlock
  | text (text : String)
  | image (media_type : Option String) (data : Option String)
  | document
  | tool_result (tool_use_id : String) (isStringContent : Bool) (content : String)
  | tool_use (id : String) (name : String) (input : String)
  | thinking (thinking : String) (signature : String)
  | redacted_thinking
  deriving Repr, DecidableEq

/-- `AnthropicResponse` from `src/models.rs`. -/
structure AnthropicResponse where
  id : String
  response_type : String
  role : String
  model : String
  content : List AnthropicContentBlock
  stop_reason : String
  stop_sequence : Option String
  usage : AnthropicUsage
  deriving Repr

/-- `openai_to_anthropic` from `src/translate.rs` 82-165: read the first
choice (none → `api_error "missing choices in response"`); blocks in order
reasoning, tool calls, text; tool-call arguments must parse as JSON (the
serde error detail in the message is abstracted away); empty block list →
`api_error "missing assistant content"`; stop reason via the
finish-reason match; usage copied or zeroed. -/
def openai_to_anthropic (resp : OpenAIResponse) : Except AppError AnthropicResponse :=
  match resp.choices with
  | [] => .error (AppError.api_error "missing choices in response")
  | choice :: _ => do
    let blocks0 : List AnthropicContentBlock :=
      match choice.message.reasoning_content with
      | some (RespReasoning.objOk thinking signature) =>
        [AnthropicContentBlock.thinking thinking signature]
      | some (RespReasoning.str s) => [AnthropicContentBlock.thinking s "auto"]
      | some RespReasoning.objBad => []
      | some RespReasoning.otherKind => []
      | none => []
    let toolBlocks ← match choice.message.tool_calls with
      | some calls => calls.mapM (fun call =>
          if jsonValid call.function.arguments then
            pure (AnthropicContentBlock.tool_use call.id call.function.name
              call.function.arguments)
          else
            Except.error (AppError.api_error "invalid tool call arguments"))
      | none => pure []
    let textBlocks : List AnthropicContentBlock :=
      match choice.message.content with
      | some content => [AnthropicContentBlock.text content]
      | none => []
    let content_blocks := blocks0 ++ toolBlocks ++ textBlocks
    if content_blocks.isEmpty then
      Except.error (AppError.api_error "missing assistant content")
    else
      pure
        { id := resp.id, response_type := "message", role := "assistant",
          model := resp.model, content := content_blocks,
          stop_reason := translateStopReason choice.finish_reason,
          stop_sequence := none,
          usage :=
            match resp.usage with
            | some u =>
              { input_tokens := u.prompt_tokens, output_tokens := u.completion_tokens,
                cache_creation_input_tokens := 0, cache_read_input_tokens := 0 }
            | none =>
              { input_tokens := 0, output_tokens := 0,
                cache_creation_input_tokens := 0, cache_read_input_tokens := 0 } }

/-! ## Request-side message conversion (`src/translate.rs` 245-418) -/

/-- `OpenAIContentPart` from `src/models.rs`. -/
inductive OpenAIContentPart
  | text (text : String)
  | image_url (url : String)
  deriving Repr, DecidableEq

/-- `OpenAIMessageContent` from `src/models.rs`. -/
inductive OpenAIMessageContent
  | textContent (s : String)
  | parts (parts : List OpenAIContentPart)
  deriving Repr, DecidableEq

/-- `OpenAIMessage` from `src/models.rs`.  `reasoning_content` is a
`Value` in the source but the request translator only ever stores
`Value::String`, modelled as the string. -/
structure OpenAIMessage where
  role : String
  content : Option OpenAIMessageContent
  tool_calls : Option (List OpenAIToolCall)
  tool_call_id : Option String
  reasoning_content : Option String
  deriving Repr, DecidableEq

/-- `AnthropicContent` from `src/models.rs`: a plain string or a sequence
of blocks. -/
inductive AnthropicContent
  | textContent (s : String)
  | blocks (blocks : List AnthropicContentBlock)
  deriving Repr

/-- `DocumentPolicy` from `src/config.rs`. -/
inductive DocumentPolicy
  | reject
  | strip
  | text_only
  deriving Repr, DecidableEq

/-- `Config::document_policy` (`src/config.rs` 265-272). -/
def document_policy (s : String) : Except String DocumentPolicy :=
  if s = "reject" then .ok DocumentPolicy.reject
  else if s = "strip" then .ok DocumentPolicy.strip
  else if s = "text_only" then .ok DocumentPolicy.text_only
  else .error ("DOCUMENT_POLICY invalid: " ++ s)

/-- The slice of `Config` that `convert_message` reads
(`config.models.allow_images`, `config.models.document_policy`). -/
structure ConfigModels where
  allow_images : Bool
  document_policy : String
  deriving Repr

/-- The `flush_parts` closure of `convert_message`
(`src/translate.rs` 274-299): empty part list does nothing; exactly one
text part collapses to a bare string content; otherwise the parts are kept
as a list; `reasoning_content` is attached if a reasoning effort is in
force and the role is `assistant`. -/
def flush_parts (role : String) (include_reasoning : Bool)
    (thinking_text : Option String) (messages : List OpenAIMessage)
    (parts : List OpenAIContentPart) : List OpenAIMessage × List OpenAIContentPart :=
  match parts with
  | [] => (messages, [])
  | _ =>
    let content :=
      match parts with
      | [OpenAIContentPart.text t] => OpenAIMessageContent.textContent t
      | _ => OpenAIMessageContent.parts parts
    let reasoning_content :=
      if include_reasoning ∧ role = "assistant" then
        some (thinking_text.getD "")
      else none
    (messages ++ [{
        role := role
        content := some content
        tool_calls := none
        tool_call_id := none
        reasoning_content := reasoning_content }], [])

/-- The accumulator of the block loop in `convert_message`: produced
messages, pending content parts, buffered thinking text. -/
structure ConvertAcc where
  messages : List OpenAIMessage
  parts : List OpenAIContentPart
  thinking_text : Option String
  deriving Repr

/-- One step of the block loop of `convert_message`
(`src/translate.rs` 301-412). -/
def convert_block (role : String) (config : ConfigModels)
    (include_reasoning : Bool) (policy : DocumentPolicy) (acc : ConvertAcc)
    (block : AnthropicContentBlock) : Except AppError ConvertAcc :=
  match block with
  | AnthropicContentBlock.text text =>
    .ok { acc with parts := acc.parts ++ [OpenAIContentPart.text text] }
  | AnthropicContentBlock.image media_type data =>
    if ¬config.allow_images then
      .error (AppError.invalid_request "image content not allowed")
    else
      match media_type with
      | none => .error (AppError.invalid_request "image media_type missing")
      | some mt =>
        match data with
        | none => .error (AppError.invalid_request "image data missing")
        | some d =>
          .ok { acc with parts := acc.parts ++
            [OpenAIContentPart.image_url ("data:" ++ mt ++ ";base64," ++ d)] }
  | AnthropicContentBlock.document =>
    match policy with
    | DocumentPolicy.reject =>
      .error (AppError.invalid_request "document content not supported")
    | DocumentPolicy.strip => .ok acc
    | DocumentPolicy.text_only =>
      .ok { acc with parts := acc.parts ++ [OpenAIContentPart.text "[document omitted]"] }
  | AnthropicContentBlock.tool_result tool_use_id _ content =>
    let (messages, parts) :=
      flush_parts role include_reasoning acc.thinking_text acc.messages acc.parts
    .ok { acc with
      messages := messages ++ [{
          role := "tool"
          content := some (OpenAIMessageContent.textContent content)
          tool_calls := none
          tool_call_id := some tool_use_id
          reasoning_content := none }]
      parts := parts }
  | AnthropicContentBlock.tool_use id name input =>
    let (messages, parts) :=
      flush_parts role include_reasoning acc.thinking_text acc.messages acc.parts
    if role ≠ "assistant" then
      .error (AppError.invalid_request "tool_use must be in assistant role")
    else
      let arguments := input
      let reasoning_content := some (acc.thinking_text.getD "")
      let call : OpenAIToolCall :=
        { id := id, call_type := "function",
          function := { name := name, arguments := arguments } }
      match messages.getLast? with
      | some last =>
        if last.role = "assistant" ∧ last.tool_calls.isSome ∧ last.content = none then
          let last := { last with
            tool_calls := some ((last.tool_calls.getD []) ++ [call])
            reasoning_content :=
              if last.reasoning_content = none then reasoning_content
              else last.reasoning_content }
          .ok { acc with messages := messages.dropLast ++ [last], parts := parts }
        else
          .ok { acc with
            messages := messages ++ [{
                role := "assistant"
                content := none
                tool_calls := some [call]
                tool_call_id := none
                reasoning_content := reasoning_content }]
            parts := parts }
      | none =>
        .ok { acc with
          messages := messages ++ [{
              role := "assistant"
              content := none
              tool_calls := some [call]
              tool_call_id := none
              reasoning_content := reasoning_content }]
          parts := parts }
  | AnthropicContentBlock.thinking thinking _ =>
    .ok { acc with thinking_text := some thinking }
  | AnthropicContentBlock.redacted_thinking =>
    .ok { acc with thinking_text := some "" }

/-- `convert_message` from `src/translate.rs` 245-418. -/
def convert_message (role : String) (content : AnthropicContent)
    (config : ConfigModels) (include_reasoning : Bool) :
    Except AppError (List OpenAIMessage) :=
  match content with
  | AnthropicContent.textContent s =>
    let reasoning_content :=
      if include_reasoning ∧ role = "assistant" then some "" else none
    .ok [{
        role := role
        content := some (OpenAIMessageContent.textContent s)
        tool_calls := none
        tool_call_id := none
        reasoning_content := reasoning_content }]
  | AnthropicContent.blocks blocks => do
    let policy ← (document_policy config.document_policy).mapError
      AppError.invalid_request
    let acc ← blocks.foldlM (convert_block role config include_reasoning policy)
      { messages := [], parts := [], thinking_text := none }
    let (messages, _) :=
      flush_parts role include_reasoning acc.thinking_text acc.messages acc.parts
    .ok messages

/-! ## Event-sequence specifications (spec §3 invariants, §8, claims C1/C2) -/

/-- The event name alone (payloads ignored), for the grammar of claim C1. -/
inductive EvKind
  | message_start
  | content_block_start
  | content_block_delta
  | content_block_stop
  | message_delta
  | message_stop
  | errorEv
  deriving Repr, DecidableEq

/-- The name of an event. -/
def Event.kind : Event → EvKind
  | Event.message_start _ => EvKind.message_start
  | Event.content_block_start _ _ => EvKind.content_block_start
  | Event.content_block_delta _ _ => EvKind.content_block_delta
  | Event.content_block_stop _ => EvKind.content_block_stop
  | Event.message_delta _ => EvKind.message_delta
  | Event.message_stop => EvKind.message_stop
  | Event.errorEvent _ => EvKind.errorEv

/-- Recogniser for the tail of the claimed grammar
`(content_block_start content_block_delta* content_block_stop)*
message_delta? message_stop`; the flag records being inside a block. -/
def grammarTail : Bool → List EvKind → Bool
  | false, [EvKind.message_stop] => true
  | false, [EvKind.message_delta, EvKind.message_stop] => true
  | false, EvKind.content_block_start :: rest => grammarTail true rest
  | true, EvKind.content_block_delta :: rest => grammarTail true rest
  | true, EvKind.content_block_stop :: rest => grammarTail false rest
  | _, _ => false

/-- Whether the event sequence, ignoring payloads, matches the grammar of
claim C1:
`message_start (content_block_start content_block_delta* content_block_stop)*
message_delta? message_stop`. -/
def matchesClaimGrammar (evs : List Event) : Bool :=
  match evs.map Event.kind with
  | EvKind.message_start :: rest => grammarTail false rest
  | _ => false

/-- Whether the event sequence ends with a terminal `error` event. -/
def endsWithError (evs : List Event) : Bool :=
  match evs.getLast? with
  | some (Event.errorEvent _) => true
  | _ => false

/-- State of the well-formedness scanner for downstream event sequences:
whether `message_start` was seen, the indices with an emitted
`content_block_start` and `content_block_stop`, and whether a terminal
event (`message_stop` or `error`) was seen. -/
structure CheckSt where
  sawStart : Bool
  startedIdx : List Nat
  stoppedIdx : List Nat
  finished : Bool
  deriving Repr, DecidableEq

/-- Initial scanner state. -/
def CheckSt.init : CheckSt :=
  { sawStart := false, startedIdx := [], stoppedIdx := [], finished := false }

/-- One scanner step; `none` means the sequence violates the amended C1
well-formedness discipline: nothing may follow a terminal event
(`message_stop` or `error`); `message_start` is emitted at most once and
precedes every `content_block_*` and `message_delta` event; a
`content_block_start` uses an index not started before; every
`content_block_delta` refers to a started index; a `content_block_stop`
is emitted at most once per index; `message_stop` requires every started
index to have been stopped. -/
def checkStep (c : CheckSt) (e : Event) : Option CheckSt :=
  if c.finished then none
  else
    match e with
    | Event.message_start _ =>
      if c.sawStart = true then none else some { c with sawStart := true }
    | Event.content_block_start i _ =>
      if c.sawStart = true ∧ i ∉ c.startedIdx then
        some { c with startedIdx := i :: c.startedIdx }
      else none
    | Event.content_block_delta i _ =>
      if c.sawStart = true ∧ i ∈ c.startedIdx then some c else none
    | Event.content_block_stop i =>
      if c.sawStart = true ∧ i ∉ c.stoppedIdx then
        some { c with stoppedIdx := i :: c.stoppedIdx }
      else none
    | Event.message_delta _ =>
      if c.sawStart = true then some c else none
    | Event.message_stop =>
      if ∀ i ∈ c.startedIdx, i ∈ c.stoppedIdx then
        some { c with finished := true }
      else none
    | Event.errorEvent _ => some { c with finished := true }

/-- Run the scanner over a sequence. -/
def checkEventsFrom (c : CheckSt) : List Event → Option CheckSt
  | [] => some c
  | e :: rest =>
    match checkStep c e with
    | some c' => checkEventsFrom c' rest
    | none => none

/-- The amended C1 well-formedness of a downstream event sequence. -/
def wellFormedEvents (evs : List Event) : Bool :=
  (checkEventsFrom CheckSt.init evs).isSome

/-- Number of `content_block_start` events with index `i`. -/
def countStarts (i : Nat) (evs : List Event) : Nat :=
  evs.countP (fun e =>
    match e with
    | Event.content_block_start j _ => j = i
    | _ => false)

/-- Number of `content_block_stop` events with index `i`. -/
def countStops (i : Nat) (evs : List Event) : Nat :=
  evs.countP (fun e =>
    match e with
    | Event.content_block_stop j => j = i
    | _ => false)

/-- Number of `message_delta` events. -/
def countMessageDeltas (evs : List Event) : Nat :=
  evs.countP (fun e =>
    match e with
    | Event.message_delta _ => true
    | _ => false)

/-! ## Spec-side characterisations used to state claims C3, C4, C8 -/

/-- Whether a tool sub-state makes the flush verification fail
(claim C4): started with empty or non-JSON accumulated arguments. -/
def toolOffends (t : ToolCallState) : Bool :=
  t.started && (t.arguments = "" || !jsonValid t.arguments)

/-- The error message the flush verification produces for an offending
sub-state. -/
def offenderMessage (t : ToolCallState) : String :=
  if t.arguments = "" then "tool_use arguments empty"
  else "tool_use arguments invalid json"

/-- The first offending tool sub-state in iteration order. -/
def firstOffender (tc : List (Nat × ToolCallState)) : Option ToolCallState :=
  (tc.find? (fun p => toolOffends p.2)).map (fun p => p.2)

/-- Whether a chunk carries no finish reason in its (first) choice. -/
def noFinish (c : OpenAIStreamChunk) : Bool :=
  match c.choices with
  | [] => true
  | ch :: _ => ch.finish_reason.isNone

/-- The evolving view of one tool call in the amended claim C3:
known id, known name, buffered arguments, started flag. -/
structure ToolSpecState where
  id : Option String
  name : Option String
  buffered : String
  started : Bool
  deriving Repr, DecidableEq

/-- One tool-call delta as the amended claim C3 describes it (written from
the claim's words): merge `id` and `name`; append the argument fragment to
the buffer; if the block is already started, the fragment (when present)
flows through as its own `input_json_delta`; otherwise, at the first point
where both `id` and `name` are known, emit `content_block_start` followed
by a single `input_json_delta` carrying the concatenated buffered
arguments if that concatenation is non-empty. -/
def specToolStep (bi : Nat) (st : ToolSpecState) (c : OpenAIToolCallDelta) :
    ToolSpecState × List Event :=
  let id1 := match c.id with | some i => some i | none => st.id
  let name1 :=
    match c.function with
    | some f => (match f.name with | some n => some n | none => st.name)
    | none => st.name
  let frag := c.function.bind (fun f => f.arguments)
  let buf1 := st.buffered ++ frag.getD ""
  if st.started then
    (⟨id1, name1, buf1, true⟩,
     match frag with
     | some f => [Event.content_block_delta bi (DeltaKind.input_json_delta f)]
     | none => [])
  else if id1.isSome ∧ name1.isSome then
    (⟨id1, name1, buf1, true⟩,
     [Event.content_block_start bi (BlockKind.tool_use (id1.getD "") (name1.getD ""))] ++
       (if buf1 ≠ "" then
         [Event.content_block_delta bi (DeltaKind.input_json_delta buf1)]
       else []))
  else (⟨id1, name1, buf1, false⟩, [])

/-- The whole event trace of one tool call under the amended claim C3. -/
def specToolTrace (bi : Nat) (st : ToolSpecState) :
    List OpenAIToolCallDelta → List Event
  | [] => []
  | c :: rest =>
    let (st', evs) := specToolStep bi st c
    evs ++ specToolTrace bi st' rest

/-- The `created_at` rendering as the spec states it (§4.3, claim C8),
written from the spec's words: the ISO-8601 `YYYY-MM-DDTHH:MM:SSZ` string
whose date part is the proleptic-Gregorian date `n / 86400` days after
1970-01-01 and whose time part is `n mod 86400` split into hours, minutes
and seconds. -/
def isoSpecOfUnix (n : Nat) : String :=
  let ymd := gregCivilOfDays (n / 86400)
  let rem := n % 86400
  padNat 4 ymd.1 ++ "-" ++ padNat 2 ymd.2.1 ++ "-" ++ padNat 2 ymd.2.2 ++ "T" ++
    padNat 2 (rem / 3600) ++ ":" ++ padNat 2 (rem % 3600 / 60) ++ ":" ++
    padNat 2 (rem % 3600 % 60) ++ "Z"

/-! ## Concrete inputs used by counterexamples and witnesses -/

/-- A delta carrying only plain text content. -/
def exTextDelta (s : String) : OpenAIStreamDelta :=
  { role := some "assistant", content := some s, tool_calls := none,
    reasoning_content := none }

/-- A chunk with a single choice. -/
def exChunk (d : OpenAIStreamDelta) (fin : Option String) : OpenAIStreamChunk :=
  { id := some "chatcmpl-1", model := some "gpt-4o-mini",
    choices := [{ index := 0, delta := d, finish_reason := fin }] }

/-- A chunk whose delta carries both text content and string-form
reasoning content (counterexample input for C1: it opens two blocks at
once). -/
def exMixedChunk : OpenAIStreamChunk :=
  exChunk
    { role := some "assistant", content := some "a", tool_calls := none,
      reasoning_content := some (ReasoningValue.str "r") }
    none

/-- A tool-call delta carrying id and name for upstream index 0. -/
def exToolIdName (args : Option String) : OpenAIToolCallDelta :=
  { index := 0, id := some "call_1", call_type := some "function",
    function := some { name := some "get_weather", arguments := args } }

/-- Counterexample input for C2: a started tool call with empty arguments
and a finish reason in the same chunk. -/
def exEmptyToolChunk : OpenAIStreamChunk :=
  exChunk
    { role := some "assistant", content := none,
      tool_calls := some [exToolIdName none], reasoning_content := none }
    (some "stop")

/-- Counterexample input for C3: an argument fragment that is the empty
string, received before id and name are known. -/
def exEmptyFragDelta : OpenAIToolCallDelta :=
  { index := 0, id := none, call_type := none,
    function := some { name := none, arguments := some "" } }

/-- Second tool-call delta for the C3 counterexample: id and name arrive
with no further arguments. -/
def exIdNameDelta : OpenAIToolCallDelta :=
  { index := 0, id := some "call_1", call_type := none,
    function := some { name := some "f", arguments := none } }

/-- A chunk carrying only a finish reason. -/
def exFinishChunk (fin : String) : OpenAIStreamChunk :=
  exChunk
    { role := none, content := none, tool_calls := none,
      reasoning_content := none }
    (some fin)

/-- Counterexample input for C4: two tool calls started in one chunk, the
first (in iteration order) with non-empty non-JSON arguments, the second
with empty arguments. -/
def exTwoToolsChunk : OpenAIStreamChunk :=
  exChunk
    { role := none, content := none,
      tool_calls := some
        [{ index := 0, id := some "call_a", call_type := none,
           function := some { name := some "fa", arguments := some "x" } },
         { index := 1, id := some "call_b", call_type := none,
           function := some { name := some "fb", arguments := none } }],
      reasoning_content := none }
    none

/-- The C4 counterexample stream: a successful flush with `message_delta`
first, then the two offending tool calls, then `[DONE]`. -/
def exC4Items : List StreamItem :=
  [StreamItem.chunk (exFinishChunk "stop"), StreamItem.chunk exTwoToolsChunk,
   StreamItem.done]

/-- A chunk that starts a tool call (id and name known) with no argument
fragments and no finish reason; at flush time its sub-state offends with
empty accumulated arguments. -/
def exEmptyArgsNoFinishChunk : OpenAIStreamChunk :=
  exChunk
    { role := some "assistant", content := none,
      tool_calls := some [exToolIdName none], reasoning_content := none }
    none

/-- The tool sub-state `exEmptyArgsNoFinishChunk` leaves behind: started,
with empty accumulated arguments. -/
def exOffenderTool : ToolCallState :=
  { id := some "call_1", name := some "get_weather", arguments := "",
    block_index := 0, started := true, stopped := false }

/-- The single choice of `exFinishChunk "tool_calls"`: no delta content,
a `tool_calls` finish reason. -/
def exFinishChoice : OpenAIStreamChoice :=
  { index := 0,
    delta := { role := none, content := none, tool_calls := none,
               reasoning_content := none },
    finish_reason := some "tool_calls" }

/-- The C3 counterexample stream: an empty argument fragment arrives
before id and name, then id and name arrive. -/
def exC3Items : List StreamItem :=
  [StreamItem.chunk (exChunk
    { role := none, content := none, tool_calls := some [exEmptyFragDelta],
      reasoning_content := none } none),
   StreamItem.chunk (exChunk
    { role := none, content := none, tool_calls := some [exIdNameDelta],
      reasoning_content := none } none)]

/-- Two header maps differ only in the values of `Authorization` headers:
same names in the same order, and equal values wherever the name is not
`authorization` (claim C9). -/
def DifferOnlyInAuth (h1 h2 : List (String × String)) : Prop :=
  List.Forall₂
    (fun p q => p.1 = q.1 ∧
      (eqIgnoreAsciiCase p.1 "authorization" = false → p.2 = q.2))
    h1 h2

/-- The key ordering used by `thinking_map_pairs`. -/
def thresholdLE (a b : Nat × String) : Prop := a.1 ≤ b.1

instance thresholdLE_total : IsTotal (Nat × String) thresholdLE :=
  ⟨fun a b => Nat.le_total a.1 b.1⟩

instance thresholdLE_trans : IsTrans (Nat × String) thresholdLE :=
  ⟨fun _ _ _ hab hbc => Nat.le_trans hab hbc⟩

instance thresholdLE_decidable : DecidableRel thresholdLE :=
  fun a b => Nat.decLe a.1 b.1

/-- All block indices the transcoder state currently holds. -/
def blockIdxList (s : StreamState) : List Nat :=
  s.text_block_index.toList ++ s.thinking_block_index.toList ++
    s.tool_calls.map (fun p => p.2.block_index)

/-- Structural well-formedness of the transcoder state: block indices are
pairwise distinct and below `next_index`, and the upstream tool-call keys
are distinct. -/
def WFStream (s : StreamState) : Prop :=
  (blockIdxList s).Nodup ∧
  (∀ i ∈ blockIdxList s, i < s.next_index) ∧
  (s.tool_calls.map Prod.fst).Nodup

/-- Index `i` denotes a block that is currently open in state `s`. -/
def openIn (s : StreamState) (i : Nat) : Prop :=
  s.text_block_index = some i ∨ s.thinking_block_index = some i ∨
  ∃ p ∈ s.tool_calls, p.2.block_index = i ∧ p.2.started = true ∧
    p.2.stopped = false

/-- Simulation between the transcoder state and the scanner state after
the events emitted so far. -/
def Sim (s : StreamState) (c : CheckSt) : Prop :=
  c.finished = false ∧
  c.sawStart = s.started ∧
  (∀ i ∈ c.startedIdx, i < s.next_index) ∧
  (∀ i ∈ c.stoppedIdx, i < s.next_index) ∧
  (∀ i, s.text_block_index = some i → i ∈ c.startedIdx ∧ i ∉ c.stoppedIdx) ∧
  (∀ i, s.thinking_block_index = some i → i ∈ c.startedIdx ∧ i ∉ c.stoppedIdx) ∧
  (∀ p ∈ s.tool_calls,
    (p.2.started = true → p.2.block_index ∈ c.startedIdx) ∧
    (p.2.started = false → p.2.block_index ∉ c.startedIdx) ∧
    (p.2.stopped = true → p.2.block_index ∈ c.stoppedIdx) ∧
    (p.2.stopped = false → p.2.block_index ∉ c.stoppedIdx)) ∧
  (∀ i, i ∈ c.startedIdx → i ∉ c.stoppedIdx → openIn s i)

/-!
# Theorems

Helper lemmas first, then the claim theorems (one per claim, named by the
claim id), each followed by its witness when it has a hypothesis.
-/

/-! ## C5 helpers and theorem -/

theorem translateStopReason_eq_spec (finish : Option String) :
    translateStopReason finish = specStopReason finish := by
  cases finish with
  | none => rfl
  | some s =>
    by_cases h1 : s = "stop"
    · subst h1; rfl
    · by_cases h2 : s = "length"
      · subst h2; rfl
      · by_cases h3 : s = "tool_calls"
        · subst h3; rfl
        · simp only [translateStopReason, specStopReason, if_neg h1, if_neg h2, if_neg h3]

theorem map_finish_reason_eq_spec (reason : String) :
    map_finish_reason reason = specStopReason (some reason) := by
  have h := translateStopReason_eq_spec (some reason)
  rw [← h]
  by_cases h1 : reason = "stop"
  · subst h1; rfl
  · by_cases h2 : reason = "length"
    · subst h2; rfl
    · by_cases h3 : reason = "tool_calls"
      · subst h3; rfl
      · simp only [map_finish_reason, translateStopReason, if_neg h1, if_neg h2, if_neg h3]

/-- C5: the finish-reason mapping of the non-stream response translator
(`translateStopReason`, the match at `src/translate.rs` 132-138, used by
`openai_to_anthropic`) and the mapping of the stream transcoder
(`map_finish_reason`, used when emitting `message_delta`) are the same
total deterministic function: `stop` and absent map to `end_turn`,
`length` to `max_tokens`, `tool_calls` to `tool_use`, everything else to
`end_turn` (`specStopReason`). -/
theorem C5_finish_reason_mappings_agree :
    (∀ finish : Option String, translateStopReason finish = specStopReason finish) ∧
    (∀ reason : String, map_finish_reason reason = specStopReason (some reason)) ∧
    (∀ resp : OpenAIResponse, ∀ out : AnthropicResponse, ∀ choice : OpenAIChoice,
      ∀ rest : List OpenAIChoice, resp.choices = choice :: rest →
      openai_to_anthropic resp = Except.ok out →
      out.stop_reason = specStopReason choice.finish_reason) := by
  refine ⟨translateStopReason_eq_spec, map_finish_reason_eq_spec, ?_⟩
  intro resp out choice rest hch hok
  rw [← translateStopReason_eq_spec]
  unfold openai_to_anthropic at hok
  rw [hch] at hok
  simp only [bind, Except.bind, pure, Except.pure] at hok
  repeat' split at hok
  all_goals first
    | (simp only [Except.ok.injEq] at hok; subst hok; rfl)
    | exact Except.noConfusion hok

/-! ## C9 helpers and theorem -/

theorem mapInsert_mem {out : List (String × String)} {k v : String}
    {p : String × String} (h : p ∈ mapInsert out k v) :
    p = (k, v) ∨ p ∈ out := by
  unfold mapInsert at h
  by_cases hc : out.any (fun q => q.1 = k)
  · rw [if_pos hc] at h
    rcases List.mem_map.mp h with ⟨q, hq, hq2⟩
    by_cases hk : q.1 = k
    · rw [if_pos hk] at hq2; exact Or.inl hq2.symm
    · rw [if_neg hk] at hq2; exact Or.inr (hq2 ▸ hq)
  · rw [if_neg hc] at h
    rcases List.mem_append.mp h with h1 | h1
    · exact Or.inr h1
    · rcases List.mem_singleton.mp h1 with h2
      exact Or.inl h2

theorem headers_fold_mem (l : List (String × String))
    (acc : List (String × String)) (p : String × String)
    (h : p ∈ l.foldl
      (fun out h =>
        if eqIgnoreAsciiCase h.1 "authorization" then
          mapInsert out h.1 "[redacted]"
        else
          mapInsert out h.1 h.2)
      acc) :
    p ∈ acc ∨ (eqIgnoreAsciiCase p.1 "authorization" = true ∧ p.2 = "[redacted]") ∨
      (eqIgnoreAsciiCase p.1 "authorization" = false ∧ p ∈ l) := by
  induction l generalizing acc with
  | nil => exact Or.inl h
  | cons hd tl ih =>
    rw [List.foldl_cons] at h
    rcases ih _ h with h1 | h1 | h1
    · by_cases ha : eqIgnoreAsciiCase hd.1 "authorization"
      · rw [if_pos ha] at h1
        rcases mapInsert_mem h1 with h2 | h2
        · subst h2; exact Or.inr (Or.inl ⟨ha, rfl⟩)
        · exact Or.inl h2
      · rw [if_neg ha] at h1
        rcases mapInsert_mem h1 with h2 | h2
        · subst h2
          exact Or.inr (Or.inr ⟨Bool.eq_false_iff.mpr ha, List.mem_cons_self _ _⟩)
        · exact Or.inl h2
    · exact Or.inr (Or.inl h1)
    · exact Or.inr (Or.inr ⟨h1.1, List.mem_cons_of_mem _ h1.2⟩)

theorem headers_fold_congr (h1 h2 : List (String × String))
    (hd : DifferOnlyInAuth h1 h2) (acc : List (String × String)) :
    h1.foldl
      (fun out h =>
        if eqIgnoreAsciiCase h.1 "authorization" then
          mapInsert out h.1 "[redacted]"
        else
          mapInsert out h.1 h.2)
      acc =
    h2.foldl
      (fun out h =>
        if eqIgnoreAsciiCase h.1 "authorization" then
          mapInsert out h.1 "[redacted]"
        else
          mapInsert out h.1 h.2)
      acc := by
  induction hd generalizing acc with
  | nil => rfl
  | @cons p q l1 l2 hpq _ ih =>
    rw [List.foldl_cons, List.foldl_cons]
    rcases hpq with ⟨hname, hval⟩
    by_cases ha : eqIgnoreAsciiCase p.1 "authorization"
    · rw [if_pos ha, hname] at *
      rw [if_pos (hname ▸ ha)]
      exact ih _
    · rw [if_neg ha, ← hname, if_neg ha, hval (Bool.eq_false_iff.mpr ha), hname]
      exact ih _

/-- C9: every header named `authorization` (ASCII-case-insensitively) is
recorded as the literal `[redacted]`; every other recorded header keeps a
value it had in the input; consequently two header maps that differ only
in Authorization values produce identical audit header maps. -/
theorem C9_authorization_redacted :
    (∀ hs : List (String × String), ∀ p ∈ headers_to_map hs,
      eqIgnoreAsciiCase p.1 "authorization" = true → p.2 = "[redacted]") ∧
    (∀ hs : List (String × String), ∀ p ∈ headers_to_map hs,
      eqIgnoreAsciiCase p.1 "authorization" = false → p ∈ hs) ∧
    (∀ h1 h2 : List (String × String), DifferOnlyInAuth h1 h2 →
      headers_to_map h1 = headers_to_map h2) := by
  refine ⟨?_, ?_, ?_⟩
  · intro hs p hp hauth
    rcases headers_fold_mem hs [] p hp with h | h | h
    · exact absurd h (List.not_mem_nil p)
    · exact h.2
    · rw [hauth] at h; exact absurd h.1 (by simp)
  · intro hs p hp hauth
    rcases headers_fold_mem hs [] p hp with h | h | h
    · exact absurd h (List.not_mem_nil p)
    · rw [hauth] at h; exact absurd h.1 (by simp)
    · exact h.2
  · intro h1 h2 hd
    exact headers_fold_congr h1 h2 hd []

/-- Witness for C9 at concrete inputs: two header maps differing only in
the Authorization value are recorded identically, and the recorded
Authorization value is `[redacted]`. -/
theorem C9_authorization_redacted_witness :
    headers_to_map [("authorization", "Bearer sk-1"), ("accept", "text")] =
      headers_to_map [("authorization", "Bearer sk-2"), ("accept", "text")] ∧
    ∀ p ∈ headers_to_map [("authorization", "Bearer sk-1"), ("accept", "text")],
      eqIgnoreAsciiCase p.1 "authorization" = true → p.2 = "[redacted]" := by
  constructor
  · exact C9_authorization_redacted.2.2 _ _
      (List.Forall₂.cons ⟨rfl, by intro h; cases h⟩
        (List.Forall₂.cons ⟨rfl, fun _ => rfl⟩ List.Forall₂.nil))
  · exact C9_authorization_redacted.1 _

/-! ## C6 helpers and theorem -/

theorem find_desc_max (l : List (Nat × String)) (b : Nat)
    (hs : l.Pairwise (fun p q => q.1 ≤ p.1)) (hnd : (l.map Prod.fst).Nodup) :
    (l.find? (fun p => b ≥ p.1) = none ↔ ∀ p ∈ l, b < p.1) ∧
    (∀ thr e, l.find? (fun p => b ≥ p.1) = some (thr, e) ↔
      ((thr, e) ∈ l ∧ thr ≤ b ∧ ∀ p ∈ l, p.1 ≤ b → p.1 ≤ thr)) := by
  induction l with
  | nil => simp
  | cons hd tl ih =>
    rcases List.pairwise_cons.mp hs with ⟨hhd, htl⟩
    rcases List.nodup_cons.mp hnd with ⟨hhd2, htl2⟩
    rcases ih htl htl2 with ⟨ihn, ihs⟩
    by_cases hb : b ≥ hd.1
    · constructor
      · rw [List.find?_cons_of_pos _ (by simpa using hb)]
        constructor
        · intro h; exact absurd h (by simp)
        · intro h
          exact absurd (h hd (List.mem_cons_self _ _)) (Nat.not_lt.mpr hb)
      · intro thr e
        rw [List.find?_cons_of_pos _ (by simpa using hb)]
        constructor
        · intro h
          have h3 : hd = (thr, e) := Option.some.inj h
          subst h3
          refine ⟨List.mem_cons_self _ _, hb, ?_⟩
          intro p hp _
          rcases List.mem_cons.mp hp with h4 | h4
          · rw [h4]
          · exact hhd p h4
        · rintro ⟨hmem, hthr, hmax⟩
          rcases List.mem_cons.mp hmem with h4 | h4
          · rw [← h4]
          · exfalso
            have h5 : thr ≤ hd.1 := hhd (thr, e) h4
            have h6 : hd.1 ≤ thr := hmax hd (List.mem_cons_self _ _) hb
            have h7 : hd.1 = thr := Nat.le_antisymm h6 h5
            exact hhd2 (h7 ▸ List.mem_map.mpr ⟨(thr, e), h4, rfl⟩)
    · have hb2 : ¬(b ≥ hd.1) := hb
      constructor
      · rw [List.find?_cons_of_neg _ (by simpa using hb2)]
        rw [ihn]
        constructor
        · intro h p hp
          rcases List.mem_cons.mp hp with h4 | h4
          · rw [h4]; exact Nat.lt_of_not_le hb2
          · exact h p h4
        · intro h p hp
          exact h p (List.mem_cons_of_mem _ hp)
      · intro thr e
        rw [List.find?_cons_of_neg _ (by simpa using hb2)]
        rw [ihs thr e]
        constructor
        · rintro ⟨hmem, hthr, hmax⟩
          refine ⟨List.mem_cons_of_mem _ hmem, hthr, ?_⟩
          intro p hp hpb
          rcases List.mem_cons.mp hp with h4 | h4
          · exact absurd (h4 ▸ hpb) hb2
          · exact hmax p h4 hpb
        · rintro ⟨hmem, hthr, hmax⟩
          rcases List.mem_cons.mp hmem with h4 | h4
          · exact absurd (h4 ▸ hthr : hd.1 ≤ b) hb2
          · refine ⟨h4, hthr, ?_⟩
            intro p hp hpb
            exact hmax p (List.mem_cons_of_mem _ hp) hpb

theorem thinking_map_pairs_perm (m : List (Nat × String)) :
    (thinking_map_pairs m).Perm m :=
  List.perm_insertionSort _ m

theorem thinking_map_pairs_sorted (m : List (Nat × String)) :
    (thinking_map_pairs m).Pairwise (fun p q => p.1 ≤ q.1) := by
  have h := List.sorted_insertionSort (fun a b : Nat × String => thresholdLE a b) m
  exact h

/-- C6: for a thinking directive with budget `b` and a threshold→effort
table with distinct thresholds, the derived reasoning effort is the effort
of the largest threshold that is ≤ `b`; it is absent when every threshold
exceeds `b`, when the budget is absent, and when the whole directive is
absent. -/
theorem C6_reasoning_effort (m : List (Nat × String))
    (hnd : (m.map Prod.fst).Nodup) :
    reasoning_effort_of none m = none ∧
    (∀ t : AnthropicThinking, t.budget_tokens = none →
      map_reasoning_effort t m = none) ∧
    (∀ t : AnthropicThinking, reasoning_effort_of (some t) m =
      map_reasoning_effort t m) ∧
    (∀ t : AnthropicThinking, ∀ b, t.budget_tokens = some b →
      ((map_reasoning_effort t m = none ↔ ∀ p ∈ m, b < p.1) ∧
       (∀ e, map_reasoning_effort t m = some e ↔
          ∃ thr, (thr, e) ∈ m ∧ thr ≤ b ∧ ∀ p ∈ m, p.1 ≤ b → p.1 ≤ thr))) := by
  have hperm : ((thinking_map_pairs m).reverse).Perm m :=
    ((thinking_map_pairs m).reverse_perm).trans (thinking_map_pairs_perm m)
  have hsorted : ((thinking_map_pairs m).reverse).Pairwise
      (fun p q : Nat × String => q.1 ≤ p.1) := by
    rw [List.pairwise_reverse]
    exact thinking_map_pairs_sorted m
  have hnd2 : (((thinking_map_pairs m).reverse).map Prod.fst).Nodup := by
    exact (hperm.map Prod.fst).nodup_iff.mpr hnd
  refine ⟨rfl, ?_, ?_, ?_⟩
  · intro t ht
    unfold map_reasoning_effort
    rw [ht]
  · intro t; rfl
  · intro t b hb
    have hmain := find_desc_max ((thinking_map_pairs m).reverse) b hsorted hnd2
    constructor
    · unfold map_reasoning_effort
      rw [hb]
      simp only [Option.map_eq_none']
      rw [hmain.1]
      constructor
      · intro h p hp
        exact h p (hperm.mem_iff.mpr hp)
      · intro h p hp
        exact h p (hperm.mem_iff.mp hp)
    · intro e
      unfold map_reasoning_effort
      rw [hb]
      dsimp only
      constructor
      · intro h
        rcases Option.map_eq_some'.mp h with ⟨⟨thr, e'⟩, hfind, rfl⟩
        rcases (hmain.2 thr e').mp hfind with ⟨hmem, hthr, hmax⟩
        refine ⟨thr, hperm.mem_iff.mp hmem, hthr, ?_⟩
        intro p hp hpb
        exact hmax p (hperm.mem_iff.mpr hp) hpb
      · rintro ⟨thr, hmem, hthr, hmax⟩
        have hfind : ((thinking_map_pairs m).reverse).find?
            (fun p => b ≥ p.1) = some (thr, e) := by
          rw [hmain.2 thr e]
          refine ⟨hperm.mem_iff.mpr hmem, hthr, ?_⟩
          intro p hp hpb
          exact hmax p (hperm.mem_iff.mp hp) hpb
        rw [hfind]
        rfl

/-- Witness for C6 at the source test configuration
`[(4000, medium), (8000, high)]`: budget 5000 derives `medium`, budget
3999 derives nothing, and an absent budget or directive derives
nothing. -/
theorem C6_reasoning_effort_witness :
    map_reasoning_effort ⟨"enabled", some 5000⟩ [(4000, "medium"), (8000, "high")] =
      some "medium" ∧
    map_reasoning_effort ⟨"enabled", some 3999⟩ [(4000, "medium"), (8000, "high")] =
      none ∧
    map_reasoning_effort ⟨"enabled", none⟩ [(4000, "medium"), (8000, "high")] =
      none ∧
    reasoning_effort_of none [(4000, "medium"), (8000, "high")] = none := by
  have h := C6_reasoning_effort [(4000, "medium"), (8000, "high")] (by decide)
  refine ⟨?_, ?_, ?_, h.1⟩
  · exact ((h.2.2.2 ⟨"enabled", some 5000⟩ 5000 rfl).2 "medium").mpr
      ⟨4000, by decide, by decide, by decide⟩
  · exact (h.2.2.2 ⟨"enabled", some 3999⟩ 3999 rfl).1.mpr (by decide)
  · exact h.2.1 ⟨"enabled", none⟩ rfl

/-! ## C7 / C8 shared helper: pointwise specification of the model-list
translator -/

theorem openai_models_ok_spec (data : List OpenAIModel)
    (dmap : List (String × String)) (out : List AnthropicModel)
    (h : openai_models_to_anthropic data dmap = Except.ok out) :
    List.Forall₂
      (fun (m : OpenAIModel) (a : AnthropicModel) =>
        a.id = m.id ∧ a.model_type = "model" ∧
        a.display_name =
          (match (dmap.find? (fun p => p.1 = m.id)).map (fun p => p.2) with
           | some name => name
           | none => titleize_model_id m.id) ∧
        (match m.created with
         | some ts => unix_to_iso8601 ts = Except.ok a.created_at
         | none => a.created_at = "1970-01-01T00:00:00Z"))
      data out := by
  induction data generalizing out with
  | nil =>
    unfold openai_models_to_anthropic at h
    cases h
    exact List.Forall₂.nil
  | cons hd tl ih =>
    unfold openai_models_to_anthropic at h
    simp only [bind, Except.bind, pure, Except.pure] at h
    rcases hc : hd.created with _ | ts
    · rw [hc] at h
      dsimp only at h
      rcases hrest : openai_models_to_anthropic tl dmap with e | others
      · rw [hrest] at h
        exact Except.noConfusion h
      · rw [hrest] at h
        have h2 := Except.ok.inj h
        subst h2
        refine List.Forall₂.cons ⟨rfl, rfl, rfl, ?_⟩ (ih others hrest)
        rw [hc]
    · rw [hc] at h
      dsimp only at h
      rcases hu : unix_to_iso8601 ts with e | created
      · rw [hu] at h
        exact Except.noConfusion h
      · rw [hu] at h
        rcases hrest : openai_models_to_anthropic tl dmap with e | others
        · rw [hrest] at h
          exact Except.noConfusion h
        · rw [hrest] at h
          have h2 := Except.ok.inj h
          subst h2
          refine List.Forall₂.cons ⟨rfl, rfl, rfl, ?_⟩ (ih others hrest)
          rw [hc]
          exact hu

theorem openai_models_neg_error (data : List OpenAIModel)
    (dmap : List (String × String))
    (h : ∃ m ∈ data, ∃ ts, m.created = some ts ∧ ts < 0) :
    openai_models_to_anthropic data dmap =
      Except.error (AppError.invalid_request "invalid created timestamp") := by
  induction data with
  | nil => rcases h with ⟨m, hm, _⟩; exact absurd hm (List.not_mem_nil m)
  | cons hd tl ih =>
    unfold openai_models_to_anthropic
    simp only [bind, Except.bind, pure, Except.pure]
    by_cases hneg : ∃ ts, hd.created = some ts ∧ ts < 0
    · rcases hneg with ⟨ts, hts, hlt⟩
      rw [hts]
      dsimp only
      unfold unix_to_iso8601
      rw [if_pos hlt]
    · rcases h with ⟨m, hm, hex⟩
      rcases List.mem_cons.mp hm with heq | hmem
      · exact absurd (heq ▸ hex) hneg
      · have hrest := ih ⟨m, hmem, hex⟩
        rcases hc : hd.created with _ | ts
        · dsimp only
          rw [hrest]
        · have hts : ¬ts < 0 := fun hlt => hneg ⟨ts, hc, hlt⟩
          dsimp only
          unfold unix_to_iso8601
          rw [if_neg hts]
          rw [hrest]

/-! ## C8: the closed-form civil-date conversion agrees with the
reference proleptic-Gregorian calendar -/

theorem checkRange_sound (P : Nat → Bool) :
    ∀ fuel lo w, checkRange P fuel lo w = true → ∀ i, i < w → P (lo + i) = true := by
  intro fuel
  induction fuel with
  | zero =>
    intro lo w h i hi
    unfold checkRange at h
    rcases Bool.or_eq_true _ _ |>.mp h with h1 | h1
    · have : w = 0 := by simpa using h1
      omega
    · rcases Bool.and_eq_true _ _ |>.mp h1 with ⟨h2, h3⟩
      have hw : w = 1 := by simpa using h2
      have : i = 0 := by omega
      subst this
      simpa using h3
  | succ fuel ih =>
    intro lo w h i hi
    unfold checkRange at h
    split at h
    · rcases Bool.or_eq_true _ _ |>.mp h with h1 | h1
      · have : w = 0 := by simpa using h1
        omega
      · rcases Bool.and_eq_true _ _ |>.mp h1 with ⟨h2, h3⟩
        have hw : w = 1 := by simpa using h2
        have : i = 0 := by omega
        subst this
        simpa using h3
    · rcases Bool.and_eq_true _ _ |>.mp h with ⟨h1, h2⟩
      by_cases hlt : i < w / 2
      · exact ih lo (w / 2) h1 i hlt
      · have h3 := ih (lo + w / 2) (w - w / 2) h2 (i - w / 2) (by omega)
        have : lo + w / 2 + (i - w / 2) = lo + i := by omega
        rwa [this] at h3

set_option maxHeartbeats 2000000 in
theorem yoe_unique (y e : Nat) (h1 : y ≤ 399)
    (h2 : fEra y ≤ e) (h3 : e < fEra (y + 1)) : yoeOf e = y := by
  unfold fEra at h2 h3
  unfold yoeOf
  have hc : e/36524 = 0 ∨ e/36524 = 1 ∨ e/36524 = 2 ∨ e/36524 = 3 ∨ e/36524 = 4 := by
    omega
  have hd : e/146096 = 0 ∨ e/146096 = 1 := by omega
  have hi : y/100 = 0 ∨ y/100 = 1 ∨ y/100 = 2 ∨ y/100 = 3 := by omega
  rcases hc with h|h|h|h|h <;> rcases hd with h'|h' <;>
    rcases hi with h''|h''|h''|h'' <;> omega

theorem fEra_gap_lb (y : Nat) : fEra (y + 1) + 364 ≤ fEra (y + 1 + 1) := by
  unfold fEra
  omega

theorem gregLeap_iff (y : Nat) :
    gregLeap y = true ↔ (y % 4 = 0 ∧ (y % 100 ≠ 0 ∨ y % 400 = 0)) := by
  unfold gregLeap
  rw [Bool.and_eq_true, Bool.or_eq_true, decide_eq_true_iff, decide_eq_true_iff,
    decide_eq_true_iff]

theorem fEra_gap_leap (y : Nat) (hy : y ≤ 398) :
    fEra (y + 1) - fEra y = 365 + (if gregLeap (y + 1) = true then 1 else 0) := by
  unfold fEra
  split
  · rename_i h
    rw [gregLeap_iff] at h
    omega
  · rename_i h
    rw [gregLeap_iff] at h
    omega

theorem era_exists : ∀ e, e ≤ 146095 →
    ∃ y, y ≤ 399 ∧ fEra y ≤ e ∧ e < fEra (y + 1) := by
  intro e
  induction e with
  | zero =>
    intro _
    exact ⟨0, by omega, by unfold fEra; omega, by unfold fEra; omega⟩
  | succ e ih =>
    intro he
    obtain ⟨y, hy, h1, h2⟩ := ih (by omega)
    by_cases h : e + 1 < fEra (y + 1)
    · exact ⟨y, hy, by omega, h⟩
    · have heq : e + 1 = fEra (y + 1) := by omega
      have hy399 : y ≠ 399 := by
        intro hc
        have h400 : fEra (y + 1) = 146096 := by
          subst hc
          unfold fEra
          omega
        omega
      have := fEra_gap_lb y
      exact ⟨y + 1, by omega, by omega, by omega⟩

theorem eraDate_char (e y : Nat) (h1 : y ≤ 399) (h2 : fEra y ≤ e)
    (h3 : e < fEra (y + 1)) :
    eraDate e = (y + adjOf (dayM (e - fEra y)), dayM (e - fEra y),
      dayD (e - fEra y)) := by
  unfold eraDate
  rw [yoe_unique y e h1 h2 h3]

theorem gn_red (y m d : Nat) :
    gregNextDay (y, m, d) =
      if d < gregMonthLen y m then (y, m, d + 1)
      else if m < 12 then (y, m + 1, 1)
      else (y + 1, 1, 1) := rfl

theorem gregMonthLen_congr (y1 y2 m : Nat)
    (h : m = 2 → gregLeap y1 = gregLeap y2) :
    gregMonthLen y1 m = gregMonthLen y2 m := by
  unfold gregMonthLen
  by_cases h1 : m = 1
  · rw [if_pos h1, if_pos h1]
  · rw [if_neg h1, if_neg h1]
    by_cases h2 : m = 2
    · rw [if_pos h2, if_pos h2, h h2]
    · rw [if_neg h2, if_neg h2]

theorem GN_congr (y1 y2 m d : Nat)
    (h : m = 2 → gregLeap y1 = gregLeap y2) :
    ∃ δ m2 d2, gregNextDay (y1, m, d) = (y1 + δ, m2, d2) ∧
      gregNextDay (y2, m, d) = (y2 + δ, m2, d2) := by
  rw [gn_red, gn_red, gregMonthLen_congr y1 y2 m h]
  by_cases hd : d < gregMonthLen y2 m
  · rw [if_pos hd, if_pos hd]
    exact ⟨0, m, d + 1, rfl, rfl⟩
  · rw [if_neg hd, if_neg hd]
    by_cases hm : m < 12
    · rw [if_pos hm, if_pos hm]
      exact ⟨0, m + 1, 1, rfl, rfl⟩
    · rw [if_neg hm, if_neg hm]
      exact ⟨1, 1, 1, rfl, rfl⟩

theorem step_transfer (y c m d m2 d2 : Nat)
    (hleapeq : m = 2 → gregLeap (y + 1) = gregLeap (c + 1))
    (hcanon : gregNextDay (c + adjOf m, m, d) = (c + adjOf m2, m2, d2)) :
    gregNextDay (y + adjOf m, m, d) = (y + adjOf m2, m2, d2) := by
  have hl : m = 2 → gregLeap (y + adjOf m) = gregLeap (c + adjOf m) := by
    intro hm
    subst hm
    exact hleapeq rfl
  obtain ⟨δ, m', d', hgen, hcan2⟩ := GN_congr (y + adjOf m) (c + adjOf m) m d hl
  have heq := hcan2.symm.trans hcanon
  injection heq with hy2 hrest
  injection hrest with hm' hd'
  rw [hgen, hm', hd']
  have hyy : y + adjOf m + δ = y + adjOf m2 := by omega
  rw [hyy]

set_option maxRecDepth 4000 in
theorem dstep_nl_check :
    checkRange (fun doy =>
      gregNextDay (adjOf (dayM doy), dayM doy, dayD doy) ==
        (adjOf (dayM (doy + 1)), dayM (doy + 1), dayD (doy + 1))) 9 0 364 = true := by
  rfl

set_option maxRecDepth 4000 in
theorem dstep_l_check :
    checkRange (fun doy =>
      gregNextDay (3 + adjOf (dayM doy), dayM doy, dayD doy) ==
        (3 + adjOf (dayM (doy + 1)), dayM (doy + 1), dayD (doy + 1))) 9 0 365 = true := by
  rfl

theorem dstep_nl (doy : Nat) (h : doy < 364) :
    gregNextDay (0 + adjOf (dayM doy), dayM doy, dayD doy) =
      (0 + adjOf (dayM (doy + 1)), dayM (doy + 1), dayD (doy + 1)) := by
  have h2 := checkRange_sound _ 9 0 364 dstep_nl_check doy h
  rw [Nat.zero_add] at h2
  simp only [Nat.zero_add]
  exact eq_of_beq h2

theorem dstep_l (doy : Nat) (h : doy < 365) :
    gregNextDay (3 + adjOf (dayM doy), dayM doy, dayD doy) =
      (3 + adjOf (dayM (doy + 1)), dayM (doy + 1), dayD (doy + 1)) := by
  have h2 := checkRange_sound _ 9 0 365 dstep_l_check doy h
  rw [Nat.zero_add] at h2
  exact eq_of_beq h2

theorem monthLen_feb (y : Nat) :
    gregMonthLen y 2 = if gregLeap y then 29 else 28 := rfl

theorem eraDate_step (doe : Nat) (h : doe < 146096) :
    eraDate (doe + 1) = gregNextDay (eraDate doe) := by
  by_cases hlast : doe = 146095
  · subst hlast
    decide
  · obtain ⟨y, hy, h1, h2⟩ := era_exists doe (by omega)
    have hchar := eraDate_char doe y hy h1 h2
    by_cases hroll : doe + 1 < fEra (y + 1)
    · have hchar2 := eraDate_char (doe + 1) y hy (by omega) hroll
      rw [show doe + 1 - fEra y = (doe - fEra y) + 1 from by omega] at hchar2
      rw [hchar, hchar2]
      cases hleap : gregLeap (y + 1) with
      | true =>
        have hdoy : doe - fEra y < 365 := by
          by_cases hy398 : y ≤ 398
          · have hg := fEra_gap_leap y hy398
            rw [hleap] at hg
            simp at hg
            omega
          · have hy' : y = 399 := by omega
            have e1 : fEra (y + 1) = 146096 := by
              subst hy'
              unfold fEra
              omega
            have e2 : fEra y = 145731 := by
              subst hy'
              unfold fEra
              omega
            omega
        symm
        refine step_transfer y 3 _ _ _ _ ?_ (dstep_l (doe - fEra y) hdoy)
        intro _
        rw [hleap]
        rfl
      | false =>
        have hy398 : y ≤ 398 := by
          by_contra hc
          have hy' : y = 399 := by omega
          subst hy'
          exact absurd hleap (by decide)
        have hg := fEra_gap_leap y hy398
        rw [hleap] at hg
        simp at hg
        have hdoy : doe - fEra y < 364 := by omega
        symm
        refine step_transfer y 0 _ _ _ _ ?_ (dstep_nl (doe - fEra y) hdoy)
        intro _
        rw [hleap]
        rfl
    · have heq : doe + 1 = fEra (y + 1) := by omega
      have hy399 : y ≠ 399 := by
        intro hc
        have h400 : fEra (y + 1) = 146096 := by
          subst hc
          unfold fEra
          omega
        omega
      have hy398 : y ≤ 398 := by omega
      have hg2 := fEra_gap_lb y
      have hchar2 := eraDate_char (doe + 1) (y + 1) (by omega) (by omega) (by omega)
      rw [show doe + 1 - fEra (y + 1) = 0 from by omega] at hchar2
      rw [hchar, hchar2]
      have hg := fEra_gap_leap y hy398
      cases hleap : gregLeap (y + 1) with
      | true =>
        rw [hleap] at hg
        simp at hg
        rw [show doe - fEra y = 365 from by omega]
        show (y + 1 + 0, 3, 1) = gregNextDay (y + 1, 2, 29)
        rw [gn_red]
        have hml : gregMonthLen (y + 1) 2 = 29 := by
          rw [monthLen_feb, hleap]
          decide
        rw [hml]
        rw [if_neg (by omega), if_pos (by omega)]
      | false =>
        rw [hleap] at hg
        simp at hg
        rw [show doe - fEra y = 364 from by omega]
        show (y + 1 + 0, 3, 1) = gregNextDay (y + 1, 2, 28)
        rw [gn_red]
        have hml : gregMonthLen (y + 1) 2 = 28 := by
          rw [monthLen_feb, hleap]
          decide
        rw [hml]
        rw [if_neg (by omega), if_pos (by omega)]

theorem civil_decomp (n : Nat) :
    civil_from_days_nat n =
      ((eraDate ((n + 719468) % 146097)).1 + ((n + 719468) / 146097) * 400,
       (eraDate ((n + 719468) % 146097)).2.1,
       (eraDate ((n + 719468) % 146097)).2.2) := by
  unfold civil_from_days_nat eraDate yoeOf dayM dayD adjOf dayMp fEra
  dsimp only
  simp only [Prod.mk.injEq, and_true, true_and]
  split <;> omega

theorem gregLeap_shift (y k : Nat) : gregLeap (y + k * 400) = gregLeap y := by
  unfold gregLeap
  have h4 : (y + k * 400) % 4 = y % 4 := by omega
  have h100 : (y + k * 400) % 100 = y % 100 := by omega
  have h400 : (y + k * 400) % 400 = y % 400 := by omega
  rw [h4, h100, h400]

theorem GN_shift (y k m d : Nat) :
    gregNextDay (y + k * 400, m, d) =
      ((gregNextDay (y, m, d)).1 + k * 400, (gregNextDay (y, m, d)).2.1,
        (gregNextDay (y, m, d)).2.2) := by
  obtain ⟨δ, m2, d2, hg1, hg2⟩ :=
    GN_congr (y + k * 400) y m d (fun _ => gregLeap_shift y k)
  rw [hg1, hg2]
  exact Prod.ext (by omega) rfl

theorem civil_step (n : Nat) :
    civil_from_days_nat (n + 1) = gregNextDay (civil_from_days_nat n) := by
  rw [civil_decomp n, civil_decomp (n + 1)]
  by_cases hb : (n + 719468) % 146097 = 146096
  · have hm1 : (n + 1 + 719468) % 146097 = 0 := by omega
    have hd1 : (n + 1 + 719468) / 146097 = (n + 719468) / 146097 + 1 := by omega
    rw [hb, hm1, hd1]
    rw [show eraDate 0 = (0, 3, 1) from rfl,
      show eraDate 146096 = (400, 2, 29) from by decide]
    show (0 + ((n + 719468) / 146097 + 1) * 400, 3, 1) =
      gregNextDay (400 + (n + 719468) / 146097 * 400, 2, 29)
    rw [GN_shift 400 ((n + 719468) / 146097) 2 29]
    rw [show gregNextDay (400, 2, 29) = (400, 3, 1) from by decide]
    exact Prod.ext (by omega) rfl
  · have hlt : (n + 719468) % 146097 < 146096 := by omega
    have hm1 : (n + 1 + 719468) % 146097 = (n + 719468) % 146097 + 1 := by omega
    have hd1 : (n + 1 + 719468) / 146097 = (n + 719468) / 146097 := by omega
    rw [hm1, hd1, eraDate_step ((n + 719468) % 146097) hlt]
    rw [GN_shift (eraDate ((n + 719468) % 146097)).1 ((n + 719468) / 146097)
      (eraDate ((n + 719468) % 146097)).2.1 (eraDate ((n + 719468) % 146097)).2.2]

theorem civil_eq_greg (n : Nat) : civil_from_days_nat n = gregCivilOfDays n := by
  induction n with
  | zero => rfl
  | succ n ih =>
    rw [civil_step n, ih]
    unfold gregCivilOfDays
    rw [Function.iterate_succ_apply']

theorem fEra_yoeOf_le (e : Nat) (he : e ≤ 146096) : fEra (yoeOf e) ≤ e := by
  by_cases h : e = 146096
  · subst h
    decide
  · obtain ⟨y, hy, h1, h2⟩ := era_exists e (by omega)
    rw [yoe_unique y e hy h1 h2]
    exact h1

set_option maxHeartbeats 2000000 in
theorem civil_from_days_cast (days : Nat) :
    civil_from_days (Int.ofNat days) =
      (wrap32 ((civil_from_days_nat days).1 : ℤ),
       ((civil_from_days_nat days).2.1 : ℤ),
       ((civil_from_days_nat days).2.2 : ℤ)) := by
  have hB := fEra_yoeOf_le ((days + 719468) % 146097) (by omega)
  unfold fEra yoeOf at hB
  unfold civil_from_days civil_from_days_nat
  simp only [Int.ofNat_eq_natCast]
  rw [if_pos (show (days : ℤ) + 719468 ≥ 0 from by omega)]
  have nn0 : (0 : ℤ) ≤ (days : ℤ) + 719468 := by omega
  have e0 : ((days : ℤ) + 719468).tdiv 146097 = (((days + 719468) / 146097 : ℕ) : ℤ) := by
    rw [Int.tdiv_eq_ediv nn0 (by omega)]
    omega
  rw [e0]
  have e1 : (days : ℤ) + 719468 - (((days + 719468) / 146097 : ℕ) : ℤ) * 146097 =
      (((days + 719468) % 146097 : ℕ) : ℤ) := by omega
  rw [e1]
  have nn2 : (0 : ℤ) ≤ (((days + 719468) % 146097 : ℕ) : ℤ) := by omega
  have e2 : ((((days + 719468) % 146097 : ℕ) : ℤ)).tdiv 1460 = (((days + 719468) % 146097 / 1460 : ℕ) : ℤ) := by
    rw [Int.tdiv_eq_ediv nn2 (by omega)]
    omega
  have e3 : ((((days + 719468) % 146097 : ℕ) : ℤ)).tdiv 36524 = (((days + 719468) % 146097 / 36524 : ℕ) : ℤ) := by
    rw [Int.tdiv_eq_ediv nn2 (by omega)]
    omega
  have e4 : ((((days + 719468) % 146097 : ℕ) : ℤ)).tdiv 146096 = (((days + 719468) % 146097 / 146096 : ℕ) : ℤ) := by
    rw [Int.tdiv_eq_ediv nn2 (by omega)]
    omega
  rw [e2, e3, e4]
  have e5 : (((days + 719468) % 146097 : ℕ) : ℤ) - (((days + 719468) % 146097 / 1460 : ℕ) : ℤ) + (((days + 719468) % 146097 / 36524 : ℕ) : ℤ) -
      (((days + 719468) % 146097 / 146096 : ℕ) : ℤ) = ((((days + 719468) % 146097 - (days + 719468) % 146097 / 1460 + (days + 719468) % 146097 / 36524 - (days + 719468) % 146097 / 146096) : ℕ) : ℤ) := by omega
  rw [e5]
  have nn6 : (0 : ℤ) ≤ ((((days + 719468) % 146097 - (days + 719468) % 146097 / 1460 + (days + 719468) % 146097 / 36524 - (days + 719468) % 146097 / 146096) : ℕ) : ℤ) := by omega
  have e6 : (((((days + 719468) % 146097 - (days + 719468) % 146097 / 1460 + (days + 719468) % 146097 / 36524 - (days + 719468) % 146097 / 146096) : ℕ) : ℤ)).tdiv 365 = ((((days + 719468) % 146097 - (days + 719468) % 146097 / 1460 + (days + 719468) % 146097 / 36524 - (days + 719468) % 146097 / 146096) / 365 : ℕ) : ℤ) := by
    rw [Int.tdiv_eq_ediv nn6 (by omega)]
    omega
  rw [e6]
  have nn7 : (0 : ℤ) ≤ ((((days + 719468) % 146097 - (days + 719468) % 146097 / 1460 + (days + 719468) % 146097 / 36524 - (days + 719468) % 146097 / 146096) / 365 : ℕ) : ℤ) := by omega
  have e7 : (((((days + 719468) % 146097 - (days + 719468) % 146097 / 1460 + (days + 719468) % 146097 / 36524 - (days + 719468) % 146097 / 146096) / 365 : ℕ) : ℤ)).tdiv 4 = (((((days + 719468) % 146097 - (days + 719468) % 146097 / 1460 + (days + 719468) % 146097 / 36524 - (days + 719468) % 146097 / 146096) / 365) / 4 : ℕ) : ℤ) := by
    rw [Int.tdiv_eq_ediv nn7 (by omega)]
    omega
  have e8 : (((((days + 719468) % 146097 - (days + 719468) % 146097 / 1460 + (days + 719468) % 146097 / 36524 - (days + 719468) % 146097 / 146096) / 365 : ℕ) : ℤ)).tdiv 100 = (((((days + 719468) % 146097 - (days + 719468) % 146097 / 1460 + (days + 719468) % 146097 / 36524 - (days + 719468) % 146097 / 146096) / 365) / 100 : ℕ) : ℤ) := by
    rw [Int.tdiv_eq_ediv nn7 (by omega)]
    omega
  rw [e7, e8]
  have e9 : (((days + 719468) % 146097 : ℕ) : ℤ) - (365 * ((((days + 719468) % 146097 - (days + 719468) % 146097 / 1460 + (days + 719468) % 146097 / 36524 - (days + 719468) % 146097 / 146096) / 365 : ℕ) : ℤ) + (((((days + 719468) % 146097 - (days + 719468) % 146097 / 1460 + (days + 719468) % 146097 / 36524 - (days + 719468) % 146097 / 146096) / 365) / 4 : ℕ) : ℤ) - (((((days + 719468) % 146097 - (days + 719468) % 146097 / 1460 + (days + 719468) % 146097 / 36524 - (days + 719468) % 146097 / 146096) / 365) / 100 : ℕ) : ℤ)) =
      ((((days + 719468) % 146097 - (365 * (((days + 719468) % 146097 - (days + 719468) % 146097 / 1460 + (days + 719468) % 146097 / 36524 - (days + 719468) % 146097 / 146096) / 365) + (((days + 719468) % 146097 - (days + 719468) % 146097 / 1460 + (days + 719468) % 146097 / 36524 - (days + 719468) % 146097 / 146096) / 365) / 4 - (((days + 719468) % 146097 - (days + 719468) % 146097 / 1460 + (days + 719468) % 146097 / 36524 - (days + 719468) % 146097 / 146096) / 365) / 100)) : ℕ) : ℤ) := by omega
  rw [e9]
  have nn10 : (0 : ℤ) ≤ 5 * ((((days + 719468) % 146097 - (365 * (((days + 719468) % 146097 - (days + 719468) % 146097 / 1460 + (days + 719468) % 146097 / 36524 - (days + 719468) % 146097 / 146096) / 365) + (((days + 719468) % 146097 - (days + 719468) % 146097 / 1460 + (days + 719468) % 146097 / 36524 - (days + 719468) % 146097 / 146096) / 365) / 4 - (((days + 719468) % 146097 - (days + 719468) % 146097 / 1460 + (days + 719468) % 146097 / 36524 - (days + 719468) % 146097 / 146096) / 365) / 100)) : ℕ) : ℤ) + 2 := by omega
  have e10 : (5 * ((((days + 719468) % 146097 - (365 * (((days + 719468) % 146097 - (days + 719468) % 146097 / 1460 + (days + 719468) % 146097 / 36524 - (days + 719468) % 146097 / 146096) / 365) + (((days + 719468) % 146097 - (days + 719468) % 146097 / 1460 + (days + 719468) % 146097 / 36524 - (days + 719468) % 146097 / 146096) / 365) / 4 - (((days + 719468) % 146097 - (days + 719468) % 146097 / 1460 + (days + 719468) % 146097 / 36524 - (days + 719468) % 146097 / 146096) / 365) / 100)) : ℕ) : ℤ) + 2).tdiv 153 = (((5 * ((days + 719468) % 146097 - (365 * (((days + 719468) % 146097 - (days + 719468) % 146097 / 1460 + (days + 719468) % 146097 / 36524 - (days + 719468) % 146097 / 146096) / 365) + (((days + 719468) % 146097 - (days + 719468) % 146097 / 1460 + (days + 719468) % 146097 / 36524 - (days + 719468) % 146097 / 146096) / 365) / 4 - (((days + 719468) % 146097 - (days + 719468) % 146097 / 1460 + (days + 719468) % 146097 / 36524 - (days + 719468) % 146097 / 146096) / 365) / 100)) + 2) / 153 : ℕ) : ℤ) := by
    rw [Int.tdiv_eq_ediv nn10 (by omega)]
    omega
  rw [e10]
  have nn11 : (0 : ℤ) ≤ 153 * (((5 * ((days + 719468) % 146097 - (365 * (((days + 719468) % 146097 - (days + 719468) % 146097 / 1460 + (days + 719468) % 146097 / 36524 - (days + 719468) % 146097 / 146096) / 365) + (((days + 719468) % 146097 - (days + 719468) % 146097 / 1460 + (days + 719468) % 146097 / 36524 - (days + 719468) % 146097 / 146096) / 365) / 4 - (((days + 719468) % 146097 - (days + 719468) % 146097 / 1460 + (days + 719468) % 146097 / 36524 - (days + 719468) % 146097 / 146096) / 365) / 100)) + 2) / 153 : ℕ) : ℤ) + 2 := by omega
  have e11 : (153 * (((5 * ((days + 719468) % 146097 - (365 * (((days + 719468) % 146097 - (days + 719468) % 146097 / 1460 + (days + 719468) % 146097 / 36524 - (days + 719468) % 146097 / 146096) / 365) + (((days + 719468) % 146097 - (days + 719468) % 146097 / 1460 + (days + 719468) % 146097 / 36524 - (days + 719468) % 146097 / 146096) / 365) / 4 - (((days + 719468) % 146097 - (days + 719468) % 146097 / 1460 + (days + 719468) % 146097 / 36524 - (days + 719468) % 146097 / 146096) / 365) / 100)) + 2) / 153 : ℕ) : ℤ) + 2).tdiv 5 = (((153 * ((5 * ((days + 719468) % 146097 - (365 * (((days + 719468) % 146097 - (days + 719468) % 146097 / 1460 + (days + 719468) % 146097 / 36524 - (days + 719468) % 146097 / 146096) / 365) + (((days + 719468) % 146097 - (days + 719468) % 146097 / 1460 + (days + 719468) % 146097 / 36524 - (days + 719468) % 146097 / 146096) / 365) / 4 - (((days + 719468) % 146097 - (days + 719468) % 146097 / 1460 + (days + 719468) % 146097 / 36524 - (days + 719468) % 146097 / 146096) / 365) / 100)) + 2) / 153) + 2) / 5 : ℕ) : ℤ) := by
    rw [Int.tdiv_eq_ediv nn11 (by omega)]
    omega
  rw [e11]
  simp only [Prod.mk.injEq]
  refine ⟨congrArg wrap32 ?_, ?_, ?_⟩ <;> first
  | (split_ifs <;> omega)
  | omega

theorem civil_greg_cast (days : Nat) :
    civil_from_days (Int.ofNat days) =
      (wrap32 ((gregCivilOfDays days).1 : ℤ),
       ((gregCivilOfDays days).2.1 : ℤ),
       ((gregCivilOfDays days).2.2 : ℤ)) := by
  rw [civil_from_days_cast, civil_eq_greg]

/-- The `as i32` cast is the identity on values already in `i32` range. -/
theorem wrap32_eq_self (x : Int) (h1 : -2147483648 ≤ x)
    (h2 : x < 2147483648) : wrap32 x = x := by
  unfold wrap32
  omega

/-- On a nonnegative (`Nat`-cast) year Rust's signed `{:04}` rendering is
the unsigned one. -/
theorem padInt_natCast (w n : Nat) : padInt w (n : ℤ) = padNat w n := by
  unfold padInt
  rw [if_neg (by omega)]
  exact congrArg (padNat w) (by omega)

theorem unix_to_iso8601_ok (ts : Int) (h : 0 ≤ ts)
    (hfit : (gregCivilOfDays (ts.toNat / 86400)).1 < 2147483648) :
    unix_to_iso8601 ts = Except.ok (isoSpecOfUnix ts.toNat) := by
  unfold unix_to_iso8601 isoSpecOfUnix
  rw [if_neg (by omega)]
  dsimp only
  rw [civil_greg_cast (ts.toNat / 86400)]
  rw [wrap32_eq_self (((gregCivilOfDays (ts.toNat / 86400)).1 : ℤ)) (by omega)
    (by omega)]
  rw [padInt_natCast]
  rfl

/-- Counterexample to claim C8 as stated: at timestamp 67767976233532800
(the first second of proleptic-Gregorian year 2147483648 = 2^31, a valid
`i64` created value) the `as i32` cast of `translate.rs` 220 wraps the
year to -2147483648, so `created_at` is not the proleptic-Gregorian
rendering of the timestamp. -/
theorem C8_counterexample :
    (0 : Int) ≤ 67767976233532800 ∧
    unix_to_iso8601 67767976233532800 =
      Except.ok "-2147483648-01-01T00:00:00Z" ∧
    isoSpecOfUnix ((67767976233532800 : Int).toNat) =
      "2147483648-01-01T00:00:00Z" ∧
    unix_to_iso8601 67767976233532800 ≠
      Except.ok (isoSpecOfUnix ((67767976233532800 : Int).toNat)) := by
  have h1 : isoSpecOfUnix ((67767976233532800 : Int).toNat) =
      "2147483648-01-01T00:00:00Z" := by
    unfold isoSpecOfUnix
    rw [← civil_eq_greg]
    rfl
  have h2 : unix_to_iso8601 67767976233532800 =
      Except.ok "-2147483648-01-01T00:00:00Z" := by rfl
  refine ⟨by decide, h2, h1, ?_⟩
  rw [h2, h1]
  intro hc
  exact absurd (Except.ok.inj hc) (by decide)

set_option maxHeartbeats 2000000 in
/-- C8 (amended): `created_at` in a model-list translation is the ISO-8601
`YYYY-MM-DDTHH:MM:SSZ` rendering of the Unix-seconds `created` value under
the reference proleptic-Gregorian calendar (`isoSpecOfUnix`: day-successor
iteration from 1970-01-01 plus the clock split of the remaining seconds)
for every timestamp whose Gregorian year fits in `i32`:
`unix_to_iso8601` agrees with the reference on every nonnegative
timestamp below year 2^31, every translated entry with
`created = some ts`, `ts ≥ 0`, in that range carries exactly
`isoSpecOfUnix ts.toNat`, an absent `created` yields exactly
`"1970-01-01T00:00:00Z"`, and a negative `created` anywhere in the list
makes the whole translation fail with `invalid_request`.  From year 2^31
on, the `as i32` cast of `translate.rs` 220 wraps and the original
unrestricted claim fails (`C8_counterexample`). -/
theorem C8_created_at_iso8601 (data : List OpenAIModel)
    (dmap : List (String × String)) :
    (∀ ts : Int, 0 ≤ ts →
      (gregCivilOfDays (ts.toNat / 86400)).1 < 2147483648 →
      unix_to_iso8601 ts = Except.ok (isoSpecOfUnix ts.toNat)) ∧
    (∀ out, openai_models_to_anthropic data dmap = Except.ok out →
      List.Forall₂
        (fun (m : OpenAIModel) (a : AnthropicModel) =>
          (∀ ts : Int, m.created = some ts → 0 ≤ ts →
            (gregCivilOfDays (ts.toNat / 86400)).1 < 2147483648 →
            a.created_at = isoSpecOfUnix ts.toNat) ∧
          (m.created = none → a.created_at = "1970-01-01T00:00:00Z"))
        data out) ∧
    ((∃ m ∈ data, ∃ ts, m.created = some ts ∧ ts < 0) →
      openai_models_to_anthropic data dmap =
        Except.error (AppError.invalid_request "invalid created timestamp")) := by
  refine ⟨fun ts h hfit => unix_to_iso8601_ok ts h hfit, fun out h => ?_,
    openai_models_neg_error data dmap⟩
  refine (openai_models_ok_spec data dmap out h).imp ?_
  intro m a hma
  obtain ⟨h1, h2, h3, hcre⟩ := hma
  constructor
  · intro ts hts hnn hfit
    rw [hts] at hcre
    have hcre2 : unix_to_iso8601 ts = Except.ok a.created_at := hcre
    have hok := unix_to_iso8601_ok ts hnn hfit
    rw [hcre2] at hok
    exact Except.ok.inj hok
  · intro hnone
    rw [hnone] at hcre
    exact hcre

/-- Concrete instance of claim C8: timestamp 0 renders as the epoch string
and a one-day timestamp agrees with the reference calendar (both years
are far below the `i32` wrap). -/
theorem C8_created_at_iso8601_witness :
    unix_to_iso8601 0 = Except.ok "1970-01-01T00:00:00Z" ∧
    unix_to_iso8601 86400 = Except.ok (isoSpecOfUnix 86400) := by
  have h := C8_created_at_iso8601 [] []
  refine ⟨?_, h.1 86400 (by decide) (by decide)⟩
  rw [h.1 0 (by decide) (by decide)]
  rfl

/-! ## C7 theorem -/

/-- C7: for a model id with no display-map entry the translator's
display name is `titleize_model_id`, which uppercases every
all-alphanumeric token of length ≤ 3 and otherwise uppercases the first
character and lowercases the rest, joining tokens with single spaces; in
particular `gpt-4o-mini` renders exactly as `GPT 4O Mini`, also through
the full model-list translator. -/
theorem C7_display_name :
    (∀ tok : String, tok.length ≤ 3 → tok.toList.all Char.isAlphanum →
      titleizePart tok = tok.toUpper) ∧
    (∀ (c : Char) (rest : List Char),
      ¬((String.mk (c :: rest)).length ≤ 3 ∧
        (c :: rest).all Char.isAlphanum) →
      titleizePart (String.mk (c :: rest)) =
        String.mk (c.toUpper :: rest.map Char.toLower)) ∧
    (∀ id : String, titleize_model_id id =
      String.intercalate " "
        ((splitOnDash id.toList).map (fun tok => titleizePart (String.mk tok)))) ∧
    (∀ (data : List OpenAIModel) (dmap : List (String × String))
      (out : List AnthropicModel),
      openai_models_to_anthropic data dmap = Except.ok out →
      List.Forall₂
        (fun (m : OpenAIModel) (a : AnthropicModel) =>
          dmap.find? (fun p => p.1 = m.id) = none →
          a.display_name = titleize_model_id m.id)
        data out) ∧
    titleize_model_id "gpt-4o-mini" = "GPT 4O Mini" ∧
    openai_models_to_anthropic [{ id := "gpt-4o-mini", created := none }] [] =
      Except.ok [{
        id := "gpt-4o-mini"
        model_type := "model"
        display_name := "GPT 4O Mini"
        created_at := "1970-01-01T00:00:00Z" }] := by
  refine ⟨?_, ?_, fun _ => rfl, ?_, by decide, rfl⟩
  · intro tok hlen halnum
    unfold titleizePart
    rw [if_pos ⟨hlen, halnum⟩]
    rw [String.toUpper, String.map_eq]
    rfl
  · intro c rest hne
    unfold titleizePart
    rw [if_neg (by simpa using hne)]
    rfl
  · intro data dmap out h
    have hspec := openai_models_ok_spec data dmap out h
    refine List.Forall₂.imp ?_ hspec
    intro m a ⟨_, _, hdn, _⟩ hfind
    rw [hdn, hfind]
    rfl

/-- Witness for C7: the per-token rules evaluated on the tokens of
`gpt-4o-mini`, and the translator hypothesis discharged on a concrete
model list. -/
theorem C7_display_name_witness :
    titleizePart "gpt" = "gpt".toUpper ∧
    titleizePart (String.mk ['m', 'i', 'n', 'i']) =
      String.mk ['m'.toUpper, 'i'.toLower, 'n'.toLower, 'i'.toLower] ∧
    List.Forall₂
      (fun (m : OpenAIModel) (a : AnthropicModel) =>
        ([] : List (String × String)).find? (fun p => p.1 = m.id) = none →
        a.display_name = titleize_model_id m.id)
      [{ id := "gpt-4o-mini", created := none }]
      [{
        id := "gpt-4o-mini"
        model_type := "model"
        display_name := "GPT 4O Mini"
        created_at := "1970-01-01T00:00:00Z" }] := by
  refine ⟨C7_display_name.1 "gpt" (by decide) (by decide), ?_, ?_⟩
  · exact C7_display_name.2.1 'm' ['i', 'n', 'i'] (by decide)
  · exact C7_display_name.2.2.2.1 _ _ _ rfl

/-! ## C10 helpers and theorem -/

/-- The reasoning-content discipline of the produced messages (claim C10):
a message carrying `tool_calls` always has `reasoning_content` set, and an
assistant message without `tool_calls` has it set only when a reasoning
effort is in force. -/
def ReasoningDiscipline (ir : Bool) (msgs : List OpenAIMessage) : Prop :=
  ∀ msg ∈ msgs,
    (msg.tool_calls.isSome → msg.reasoning_content.isSome) ∧
    (msg.role = "assistant" → msg.tool_calls = none →
      msg.reasoning_content.isSome → ir = true)

theorem mem_of_getLast? {α : Type} {l : List α} {a : α}
    (h : l.getLast? = some a) : a ∈ l := by
  induction l with
  | nil => cases h
  | cons hd tl ih =>
    cases tl with
    | nil =>
      rw [List.getLast?_singleton] at h
      cases h
      exact List.mem_singleton.mpr rfl
    | cons hd2 tl2 =>
      rw [List.getLast?_cons_cons] at h
      exact List.mem_cons_of_mem _ (ih h)

theorem flush_parts_discipline (role : String) (ir : Bool)
    (tt : Option String) (msgs : List OpenAIMessage)
    (parts : List OpenAIContentPart) (h : ReasoningDiscipline ir msgs) :
    ReasoningDiscipline ir (flush_parts role ir tt msgs parts).1 := by
  unfold flush_parts
  cases parts with
  | nil => exact h
  | cons p ps =>
    intro msg hmsg
    rcases List.mem_append.mp hmsg with hm | hm
    · exact h msg hm
    · rcases List.mem_singleton.mp hm with rfl
      constructor
      · intro hsome; exact absurd hsome (by simp)
      · intro _ _ hsome
        by_cases hc : ir = true ∧ role = "assistant"
        · exact hc.1
        · rw [if_neg hc] at hsome
          exact absurd hsome (by simp)

theorem convert_block_discipline (role : String) (cfg : ConfigModels)
    (ir : Bool) (policy : DocumentPolicy) (acc acc' : ConvertAcc)
    (h : ReasoningDiscipline ir acc.messages)
    (hstep : convert_block role cfg ir policy acc b = Except.ok acc') :
    ReasoningDiscipline ir acc'.messages := by
  cases b with
  | text t =>
    cases hstep; exact h
  | image mt d =>
    unfold convert_block at hstep
    dsimp only at hstep
    by_cases ha : ¬cfg.allow_images
    · rw [if_pos ha] at hstep; exact Except.noConfusion hstep
    · rw [if_neg ha] at hstep
      cases mt with
      | none => exact Except.noConfusion hstep
      | some mtv =>
        cases d with
        | none => exact Except.noConfusion hstep
        | some dv => cases hstep; exact h
  | document =>
    unfold convert_block at hstep
    dsimp only at hstep
    cases policy with
    | reject => exact Except.noConfusion hstep
    | strip => cases hstep; exact h
    | text_only => cases hstep; exact h
  | tool_result id isStr content =>
    unfold convert_block at hstep
    dsimp only at hstep
    cases hstep
    intro msg hmsg
    rcases List.mem_append.mp hmsg with hm | hm
    · exact flush_parts_discipline role ir acc.thinking_text acc.messages acc.parts h msg hm
    · rcases List.mem_singleton.mp hm with rfl
      exact ⟨fun hsome => absurd hsome (by simp), fun hrole => absurd hrole (by simp)⟩
  | tool_use id name input =>
    unfold convert_block at hstep
    dsimp only at hstep
    by_cases hrole : role ≠ "assistant"
    · rw [if_pos hrole] at hstep; exact Except.noConfusion hstep
    · rw [if_neg hrole] at hstep
      have hflush := flush_parts_discipline role ir acc.thinking_text
        acc.messages acc.parts h
      rcases hlast : (flush_parts role ir acc.thinking_text acc.messages
          acc.parts).1.getLast? with _ | last
      · rw [hlast] at hstep
        dsimp only at hstep
        cases hstep
        intro msg hmsg
        rcases List.mem_append.mp hmsg with hm | hm
        · exact hflush msg hm
        · rcases List.mem_singleton.mp hm with rfl
          exact ⟨fun _ => by simp, fun _ htc => absurd htc (by simp)⟩
      · rw [hlast] at hstep
        dsimp only at hstep
        by_cases hcond : last.role = "assistant" ∧ last.tool_calls.isSome ∧
            last.content = none
        · rw [if_pos hcond] at hstep
          cases hstep
          intro msg hmsg
          rcases List.mem_append.mp hmsg with hm | hm
          · exact hflush msg
              ((List.dropLast_prefix _).subset hm)
          · rcases List.mem_singleton.mp hm with rfl
            constructor
            · intro _
              by_cases hr : last.reasoning_content = none
              · simp [hr]
              · simp only [if_neg hr]
                exact Option.ne_none_iff_isSome.mp hr
            · intro _ htc
              exact absurd htc (by simp)
        · rw [if_neg hcond] at hstep
          cases hstep
          intro msg hmsg
          rcases List.mem_append.mp hmsg with hm | hm
          · exact hflush msg hm
          · rcases List.mem_singleton.mp hm with rfl
            exact ⟨fun _ => by simp, fun _ htc => absurd htc (by simp)⟩
  | thinking t sg =>
    cases hstep; exact h
  | redacted_thinking =>
    cases hstep; exact h

theorem convert_fold_discipline (role : String) (cfg : ConfigModels)
    (ir : Bool) (policy : DocumentPolicy) (blocks : List AnthropicContentBlock)
    (acc acc' : ConvertAcc) (h : ReasoningDiscipline ir acc.messages)
    (hfold : blocks.foldlM (convert_block role cfg ir policy) acc =
      Except.ok acc') :
    ReasoningDiscipline ir acc'.messages := by
  induction blocks generalizing acc with
  | nil =>
    rw [List.foldlM_nil] at hfold
    cases hfold
    exact h
  | cons b bs ih =>
    rw [List.foldlM_cons] at hfold
    rcases hstep : convert_block role cfg ir policy acc b with e | acc1
    · rw [hstep] at hfold
      exact Except.noConfusion hfold
    · rw [hstep] at hfold
      exact ih acc1 (convert_block_discipline role cfg ir policy acc acc1 h hstep) hfold

/-- C10: in the block form of an assistant input message, every produced
message that carries `tool_calls` has `reasoning_content` set, whatever the
reasoning-effort flag; a produced assistant message without `tool_calls`
carries `reasoning_content` only when a reasoning effort is in force; and
an assistant message converted from plain text carries `reasoning_content`
exactly when a reasoning effort is in force. -/
theorem C10_tool_use_reasoning_content :
    (∀ (blocks : List AnthropicContentBlock) (cfg : ConfigModels) (ir : Bool)
      (msgs : List OpenAIMessage),
      convert_message "assistant" (AnthropicContent.blocks blocks) cfg ir =
        Except.ok msgs →
      ReasoningDiscipline ir msgs) ∧
    (∀ (s : String) (cfg : ConfigModels) (ir : Bool),
      convert_message "assistant" (AnthropicContent.textContent s) cfg ir =
        Except.ok [{
          role := "assistant"
          content := some (OpenAIMessageContent.textContent s)
          tool_calls := none
          tool_call_id := none
          reasoning_content := if ir then some "" else none }]) := by
  constructor
  · intro blocks cfg ir msgs h
    unfold convert_message at h
    simp only [bind, Except.bind] at h
    rcases hpol : (document_policy cfg.document_policy).mapError
        AppError.invalid_request with e | policy
    · rw [hpol] at h
      exact Except.noConfusion h
    · rw [hpol] at h
      dsimp only at h
      rcases hfold : blocks.foldlM (convert_block "assistant" cfg ir policy)
          { messages := [], parts := [], thinking_text := none } with e | acc
      · rw [hfold] at h
        exact Except.noConfusion h
      · rw [hfold] at h
        have hacc := convert_fold_discipline "assistant" cfg ir policy blocks
          _ acc (by intro msg hmsg; exact absurd hmsg (List.not_mem_nil msg)) hfold
        have h2 := Except.ok.inj h
        subst h2
        exact flush_parts_discipline "assistant" ir acc.thinking_text
          acc.messages acc.parts hacc
  · intro s cfg ir
    cases ir with
    | true => rfl
    | false => rfl

/-- Witness for C10: a lone `tool_use` block with no thinking directive
and no reasoning effort still yields `reasoning_content` (the empty
string), while a plain-text assistant message with no effort yields
none. -/
theorem C10_tool_use_reasoning_content_witness :
    ReasoningDiscipline false
      [{
        role := "assistant"
        content := none
        tool_calls := some [⟨"tool_1", "function", ⟨"get_weather", "1"⟩⟩]
        tool_call_id := none
        reasoning_content := some "" }] ∧
    convert_message "assistant" (AnthropicContent.textContent "Hello")
      { allow_images := true, document_policy := "reject" } false =
      Except.ok [{
        role := "assistant"
        content := some (OpenAIMessageContent.textContent "Hello")
        tool_calls := none
        tool_call_id := none
        reasoning_content := none }] := by
  constructor
  · exact C10_tool_use_reasoning_content.1
      [AnthropicContentBlock.tool_use "tool_1" "get_weather" "1"]
      { allow_images := true, document_policy := "reject" } false _ rfl
  · exact C10_tool_use_reasoning_content.2 "Hello"
      { allow_images := true, document_policy := "reject" } false

/-! ## C3 helpers, counterexample and amended theorem -/

/-- Counterexample to C3 as stated: the stream `exC3Items` delivers the
argument fragment `""` before the call's id and name are known; when id
and name arrive the transcoder emits the `content_block_start` but no
`input_json_delta` at all, although the claim promises a single
`input_json_delta` carrying the concatenated buffered arguments (here the
empty string). -/
theorem C3_counterexample :
    streamEvents exC3Items =
      [Event.message_start "chatcmpl-1",
       Event.content_block_start 0 (BlockKind.tool_use "call_1" "f")] ∧
    (streamEvents exC3Items).countP
      (fun e =>
        match e with
        | Event.content_block_delta _ (DeltaKind.input_json_delta _) => true
        | _ => false) = 0 :=
  ⟨rfl, rfl⟩

theorem toolCallLoop_acc (calls : List OpenAIToolCallDelta) (s : StreamState)
    (evs : List Event) :
    calls.foldl
      (fun (acc : StreamState × List Event) call =>
        let (s', evs') := apply_tool_call_delta acc.1 call
        (s', acc.2 ++ evs'))
      (s, evs) =
    ((toolCallLoop s calls).1, evs ++ (toolCallLoop s calls).2) := by
  induction calls generalizing s evs with
  | nil => simp [toolCallLoop]
  | cons c rest ih =>
    rw [List.foldl_cons]
    unfold toolCallLoop
    rw [List.foldl_cons]
    dsimp only
    rw [ih _ (evs ++ (apply_tool_call_delta s c).2),
        ih _ ([] ++ (apply_tool_call_delta s c).2)]
    simp

set_option maxHeartbeats 2000000 in
theorem apply_tool_call_existing (s : StreamState) (t : ToolCallState)
    (call : OpenAIToolCallDelta) (hidx : call.index = 0)
    (htc : s.tool_calls = [(0, t)]) :
    (apply_tool_call_delta s call).2 =
      (specToolStep t.block_index ⟨t.id, t.name, t.arguments, t.started⟩ call).2 ∧
    (apply_tool_call_delta s call).1.tool_calls =
      [(0,
        { id := (specToolStep t.block_index
            ⟨t.id, t.name, t.arguments, t.started⟩ call).1.id
          name := (specToolStep t.block_index
            ⟨t.id, t.name, t.arguments, t.started⟩ call).1.name
          arguments := (specToolStep t.block_index
            ⟨t.id, t.name, t.arguments, t.started⟩ call).1.buffered
          block_index := t.block_index
          started := (specToolStep t.block_index
            ⟨t.id, t.name, t.arguments, t.started⟩ call).1.started
          stopped := t.stopped })] ∧
    (apply_tool_call_delta s call).1.next_index = s.next_index := by
  obtain ⟨cidx, cid, ctype, cfn⟩ := call
  obtain ⟨tid, tname, targs, tbi, tstarted, tstopped⟩ := t
  simp only at hidx
  subst hidx
  unfold apply_tool_call_delta toolEntryStep specToolStep
  rw [htc]
  rcases cid with _ | i <;> rcases cfn with _ | ⟨fname, fargs⟩ <;>
    by_cases hstart : tstarted = true <;>
    first
      | (rcases fname with _ | n <;> rcases fargs with _ | args <;>
          simp only [findTool, setTool, htc, hstart] <;>
          split_ifs <;> simp_all)
      | (simp only [findTool, setTool, htc, hstart] <;>
          split_ifs <;> simp_all)

set_option maxHeartbeats 2000000 in
theorem apply_tool_call_fresh (s : StreamState)
    (call : OpenAIToolCallDelta) (hidx : call.index = 0)
    (htc : s.tool_calls = []) :
    (apply_tool_call_delta s call).2 =
      (specToolStep s.next_index ⟨none, none, "", false⟩ call).2 ∧
    (apply_tool_call_delta s call).1.tool_calls =
      [(0,
        { id := (specToolStep s.next_index ⟨none, none, "", false⟩ call).1.id
          name := (specToolStep s.next_index ⟨none, none, "", false⟩ call).1.name
          arguments := (specToolStep s.next_index
            ⟨none, none, "", false⟩ call).1.buffered
          block_index := s.next_index
          started := (specToolStep s.next_index
            ⟨none, none, "", false⟩ call).1.started
          stopped := false })] ∧
    (apply_tool_call_delta s call).1.next_index = s.next_index + 1 := by
  obtain ⟨cidx, cid, ctype, cfn⟩ := call
  simp only at hidx
  subst hidx
  unfold apply_tool_call_delta toolEntryStep specToolStep
  rw [htc]
  rcases cid with _ | i <;> rcases cfn with _ | ⟨fname, fargs⟩ <;>
    first
      | (rcases fname with _ | n <;> rcases fargs with _ | args <;>
          simp only [findTool, setTool, htc] <;>
          split_ifs <;> simp_all)
      | (simp only [findTool, setTool, htc] <;>
          split_ifs <;> simp_all)

theorem toolCallLoop_cons (s : StreamState) (c : OpenAIToolCallDelta)
    (rest : List OpenAIToolCallDelta) :
    toolCallLoop s (c :: rest) =
      ((toolCallLoop (apply_tool_call_delta s c).1 rest).1,
       (apply_tool_call_delta s c).2 ++
         (toolCallLoop (apply_tool_call_delta s c).1 rest).2) := by
  have h := toolCallLoop_acc rest (apply_tool_call_delta s c).1
    ([] ++ (apply_tool_call_delta s c).2)
  unfold toolCallLoop
  rw [List.foldl_cons]
  unfold toolCallLoop at h
  exact h

theorem specToolTrace_cons (bi : Nat) (st : ToolSpecState)
    (c : OpenAIToolCallDelta) (rest : List OpenAIToolCallDelta) :
    specToolTrace bi st (c :: rest) =
      (specToolStep bi st c).2 ++
        specToolTrace bi (specToolStep bi st c).1 rest := rfl

theorem toolCallLoop_existing (calls : List OpenAIToolCallDelta)
    (hidx : ∀ c ∈ calls, c.index = 0) (s : StreamState) (t : ToolCallState)
    (htc : s.tool_calls = [(0, t)]) :
    (toolCallLoop s calls).2 =
      specToolTrace t.block_index ⟨t.id, t.name, t.arguments, t.started⟩ calls := by
  induction calls generalizing s t with
  | nil => rfl
  | cons c rest ih =>
    have hc := hidx c (List.mem_cons_self _ _)
    have hrest : ∀ c' ∈ rest, c'.index = 0 :=
      fun c' h => hidx c' (List.mem_cons_of_mem _ h)
    rcases apply_tool_call_existing s t c hc htc with ⟨hev, htc', _⟩
    rw [toolCallLoop_cons, specToolTrace_cons]
    dsimp only
    rw [hev, ih hrest (apply_tool_call_delta s c).1 _ htc']

/-- C3 (amended): for every sequence of tool-call deltas for one upstream
index fed to a transcoder state with no tool sub-states, the emitted
events are exactly those of the claim's per-call discipline amended in
one point: the `content_block_start` is emitted at the first point where
both id and name are known, argument fragments received up to that point
are buffered and re-emitted right after the start as a single
`input_json_delta` carrying their concatenation **provided that
concatenation is non-empty** (the code emits nothing when the buffered
arguments are the empty string), and every later fragment flows through
as its own `input_json_delta`. -/
theorem C3_amended_tool_trace (calls : List OpenAIToolCallDelta)
    (hidx : ∀ c ∈ calls, c.index = 0) (s : StreamState)
    (htc : s.tool_calls = []) :
    (toolCallLoop s calls).2 =
      specToolTrace s.next_index ⟨none, none, "", false⟩ calls := by
  cases calls with
  | nil => rfl
  | cons c rest =>
    have hc := hidx c (List.mem_cons_self _ _)
    have hrest : ∀ c' ∈ rest, c'.index = 0 :=
      fun c' h => hidx c' (List.mem_cons_of_mem _ h)
    rcases apply_tool_call_fresh s c hc htc with ⟨hev, htc', _⟩
    rw [toolCallLoop_cons, specToolTrace_cons]
    dsimp only
    rw [hev, toolCallLoop_existing rest hrest (apply_tool_call_delta s c).1 _ htc']

/-- Witness for C3 (amended) on a concrete delta sequence: a fragment
before the start is re-emitted after the start, and a later fragment is
emitted on its own. -/
theorem C3_amended_tool_trace_witness :
    (toolCallLoop initStreamState
      [{ index := 0, id := some "call_1", call_type := none,
         function := some { name := none, arguments := some "[1" } },
       { index := 0, id := none, call_type := none,
         function := some { name := some "f", arguments := none } },
       { index := 0, id := none, call_type := none,
         function := some { name := none, arguments := some ", 2]" } }]).2 =
      specToolTrace 0 ⟨none, none, "", false⟩
        [{ index := 0, id := some "call_1", call_type := none,
           function := some { name := none, arguments := some "[1" } },
         { index := 0, id := none, call_type := none,
           function := some { name := some "f", arguments := none } },
         { index := 0, id := none, call_type := none,
           function := some { name := none, arguments := some ", 2]" } }] ∧
    (toolCallLoop initStreamState
      [{ index := 0, id := some "call_1", call_type := none,
         function := some { name := none, arguments := some "[1" } },
       { index := 0, id := none, call_type := none,
         function := some { name := some "f", arguments := none } },
       { index := 0, id := none, call_type := none,
         function := some { name := none, arguments := some ", 2]" } }]).2 =
      [Event.content_block_start 0 (BlockKind.tool_use "call_1" "f"),
       Event.content_block_delta 0 (DeltaKind.input_json_delta "[1"),
       Event.content_block_delta 0 (DeltaKind.input_json_delta ", 2]")] := by
  constructor
  · exact C3_amended_tool_trace _ (by intro c hc; fin_cases hc <;> rfl) _ rfl
  · rfl

/-! ## C1 helpers: scanner stepping lemmas -/

theorem checkEventsFrom_append (a b : List Event) (c : CheckSt) :
    checkEventsFrom c (a ++ b) =
      match checkEventsFrom c a with
      | some c' => checkEventsFrom c' b
      | none => none := by
  induction a generalizing c with
  | nil => rfl
  | cons e rest ih =>
    rw [List.cons_append]
    cases hstep : checkStep c e with
    | none => simp [checkEventsFrom, hstep]
    | some c1 => simp [checkEventsFrom, hstep, ih c1]

theorem check_nil (c : CheckSt) : checkEventsFrom c [] = some c := rfl

theorem check_message_start (c : CheckSt) (id : String)
    (hfin : c.finished = false) (hsaw : c.sawStart = false) :
    checkEventsFrom c [Event.message_start id] = some { c with sawStart := true } := by
  simp [checkEventsFrom, checkStep, hfin, hsaw]

theorem check_cbs (c : CheckSt) (i : Nat) (b : BlockKind)
    (hfin : c.finished = false) (hsaw : c.sawStart = true)
    (hmem : i ∉ c.startedIdx) :
    checkEventsFrom c [Event.content_block_start i b] =
      some { c with startedIdx := i :: c.startedIdx } := by
  simp [checkEventsFrom, checkStep, hfin, hsaw, hmem]

theorem check_cbd (c : CheckSt) (i : Nat) (d : DeltaKind)
    (hfin : c.finished = false) (hsaw : c.sawStart = true)
    (hmem : i ∈ c.startedIdx) :
    checkEventsFrom c [Event.content_block_delta i d] = some c := by
  simp [checkEventsFrom, checkStep, hfin, hsaw, hmem]

theorem check_cbstop (c : CheckSt) (i : Nat)
    (hfin : c.finished = false) (hsaw : c.sawStart = true)
    (hmem : i ∉ c.stoppedIdx) :
    checkEventsFrom c [Event.content_block_stop i] =
      some { c with stoppedIdx := i :: c.stoppedIdx } := by
  simp [checkEventsFrom, checkStep, hfin, hsaw, hmem]

theorem check_message_delta (c : CheckSt) (r : String)
    (hfin : c.finished = false) (hsaw : c.sawStart = true) :
    checkEventsFrom c [Event.message_delta r] = some c := by
  simp [checkEventsFrom, checkStep, hfin, hsaw]

theorem check_message_stop (c : CheckSt)
    (hfin : c.finished = false)
    (hsub : ∀ i ∈ c.startedIdx, i ∈ c.stoppedIdx) :
    checkEventsFrom c [Event.message_stop] = some { c with finished := true } := by
  unfold checkEventsFrom
  rw [show checkStep c Event.message_stop = some { c with finished := true } from by
    unfold checkStep
    rw [if_neg (by simp [hfin])]
    dsimp only
    exact if_pos hsub]
  rfl

theorem check_error (c : CheckSt) (e : AppError)
    (hfin : c.finished = false) :
    checkEventsFrom c [Event.errorEvent e] = some { c with finished := true } := by
  simp [checkEventsFrom, checkStep, hfin]

theorem check_deltas (evs : List Event) (i : Nat) (c : CheckSt)
    (hfin : c.finished = false) (hsaw : c.sawStart = true)
    (hmem : i ∈ c.startedIdx)
    (hevs : ∀ e ∈ evs, ∃ d, e = Event.content_block_delta i d) :
    checkEventsFrom c evs = some c := by
  induction evs with
  | nil => rfl
  | cons e rest ih =>
    rcases hevs e (List.mem_cons_self _ _) with ⟨d, rfl⟩
    unfold checkEventsFrom
    rw [show checkStep c (Event.content_block_delta i d) = some c by
      simp [checkStep, hfin, hsaw, hmem]]
    exact ih (fun e he => hevs e (List.mem_cons_of_mem _ he))

/-! ## C1 helpers: the tool-entry step against the scanner -/

set_option maxHeartbeats 2000000 in
theorem toolEntryStep_shape (entry : ToolCallState) (call : OpenAIToolCallDelta) :
    (toolEntryStep entry call).1.block_index = entry.block_index ∧
    (toolEntryStep entry call).1.stopped = entry.stopped ∧
    ((entry.started = true ∧ (toolEntryStep entry call).1.started = true ∧
        ∀ e ∈ (toolEntryStep entry call).2,
          ∃ d, e = Event.content_block_delta entry.block_index d) ∨
     (entry.started = false ∧ (toolEntryStep entry call).1.started = false ∧
        (toolEntryStep entry call).2 = []) ∨
     (entry.started = false ∧ (toolEntryStep entry call).1.started = true ∧
        ∃ b rest, (toolEntryStep entry call).2 =
          Event.content_block_start entry.block_index b :: rest ∧
          ∀ e ∈ rest, ∃ d, e = Event.content_block_delta entry.block_index d)) := by
  obtain ⟨tid, tname, targs, tbi, tstarted, tstopped⟩ := entry
  obtain ⟨cidx, cid, ctype, cfn⟩ := call
  unfold toolEntryStep
  rcases cid with _ | i <;> rcases cfn with _ | ⟨fname, fargs⟩ <;>
    cases tstarted <;>
    first
      | (rcases fname with _ | n <;> rcases fargs with _ | args <;>
          dsimp only <;>
          (first
            | (split_ifs <;> simp_all <;>
                try (first
                  | exact ⟨_, _, ⟨rfl, rfl⟩, by simp⟩
                  | exact ⟨_, _, ⟨rfl, trivial⟩, by simp⟩
                  | exact ⟨_, _, ⟨trivial, rfl⟩, by simp⟩
                  | exact ⟨_, _, rfl, by simp⟩))
            | (simp_all <;> try (first
                  | exact ⟨_, _, ⟨rfl, rfl⟩, by simp⟩
                  | exact ⟨_, _, ⟨rfl, trivial⟩, by simp⟩
                  | exact ⟨_, _, ⟨trivial, rfl⟩, by simp⟩
                  | exact ⟨_, _, rfl, by simp⟩))))
      | (dsimp only <;>
          (first
            | (split_ifs <;> simp_all <;>
                try (first
                  | exact ⟨_, _, ⟨rfl, rfl⟩, by simp⟩
                  | exact ⟨_, _, ⟨rfl, trivial⟩, by simp⟩
                  | exact ⟨_, _, ⟨trivial, rfl⟩, by simp⟩
                  | exact ⟨_, _, rfl, by simp⟩))
            | (simp_all <;> try (first
                  | exact ⟨_, _, ⟨rfl, rfl⟩, by simp⟩
                  | exact ⟨_, _, ⟨rfl, trivial⟩, by simp⟩
                  | exact ⟨_, _, ⟨trivial, rfl⟩, by simp⟩
                  | exact ⟨_, _, rfl, by simp⟩))))

theorem toolEntryStep_check (entry : ToolCallState)
    (call : OpenAIToolCallDelta) (c : CheckSt)
    (hfin : c.finished = false) (hsaw : c.sawStart = true)
    (hstarted : entry.started = true → entry.block_index ∈ c.startedIdx)
    (hunstarted : entry.started = false → entry.block_index ∉ c.startedIdx) :
    ∃ c', checkEventsFrom c (toolEntryStep entry call).2 = some c' ∧
      c'.finished = false ∧ c'.sawStart = c.sawStart ∧
      c'.stoppedIdx = c.stoppedIdx ∧
      (∀ j, j ∈ c'.startedIdx ↔
        (j ∈ c.startedIdx ∨
          (j = entry.block_index ∧ (toolEntryStep entry call).1.started = true))) := by
  rcases toolEntryStep_shape entry call with ⟨_, _, hsh | hsh | hsh⟩
  · rcases hsh with ⟨hst, hst', hevs⟩
    refine ⟨c, check_deltas _ entry.block_index c hfin hsaw (hstarted hst) hevs,
      hfin, rfl, rfl, ?_⟩
    intro j
    constructor
    · intro h; exact Or.inl h
    · rintro (h | ⟨rfl, _⟩)
      · exact h
      · exact hstarted hst
  · rcases hsh with ⟨hst, hst', hevs⟩
    refine ⟨c, by rw [hevs]; rfl, hfin, rfl, rfl, ?_⟩
    intro j
    constructor
    · intro h; exact Or.inl h
    · rintro (h | ⟨rfl, h2⟩)
      · exact h
      · rw [hst'] at h2; cases h2
  · rcases hsh with ⟨hst, hst', b, rest, hevs, hrest⟩
    refine ⟨{ c with startedIdx := entry.block_index :: c.startedIdx }, ?_, hfin,
      rfl, rfl, ?_⟩
    · rw [hevs]
      unfold checkEventsFrom
      rw [show checkStep c (Event.content_block_start entry.block_index b) =
        some { c with startedIdx := entry.block_index :: c.startedIdx } by
          simp [checkStep, hfin, hsaw, hunstarted hst]]
      exact check_deltas rest entry.block_index _ hfin hsaw
        (List.mem_cons_self _ _) hrest
    · intro j
      simp only [List.mem_cons, hst']
      constructor
      · rintro (rfl | h)
        · exact Or.inr ⟨rfl, trivial⟩
        · exact Or.inl h
      · rintro (h | ⟨rfl, _⟩)
        · exact Or.inr h
        · exact Or.inl rfl

/-! ## C1 helpers: `setTool` bookkeeping -/

theorem setTool_mem {tc : List (Nat × ToolCallState)} {k : Nat}
    {e : ToolCallState} {p : Nat × ToolCallState} (h : p ∈ setTool tc k e) :
    p = (k, e) ∨ (p ∈ tc ∧ p.1 ≠ k) := by
  unfold setTool at h
  rcases List.mem_map.mp h with ⟨q, hq, hq2⟩
  by_cases hk : q.1 = k
  · rw [if_pos hk] at hq2; exact Or.inl hq2.symm
  · rw [if_neg hk] at hq2
    subst hq2
    exact Or.inr ⟨hq, hk⟩

theorem setTool_mem_of_mem {tc : List (Nat × ToolCallState)} {k : Nat}
    {e : ToolCallState} {p : Nat × ToolCallState} (h : p ∈ tc) (hne : p.1 ≠ k) :
    p ∈ setTool tc k e := by
  unfold setTool
  exact List.mem_map.mpr ⟨p, h, by rw [if_neg hne]⟩

theorem setTool_mem_self {tc : List (Nat × ToolCallState)} {k : Nat}
    {e t0 : ToolCallState} (h : (k, t0) ∈ tc) : (k, e) ∈ setTool tc k e := by
  unfold setTool
  exact List.mem_map.mpr ⟨(k, t0), h, by rw [if_pos rfl]⟩

theorem setTool_map_fst (tc : List (Nat × ToolCallState)) (k : Nat)
    (e : ToolCallState) : (setTool tc k e).map Prod.fst = tc.map Prod.fst := by
  unfold setTool
  rw [List.map_map]
  refine List.map_congr_left ?_
  intro p _
  by_cases hk : p.1 = k
  · simp [hk]
  · simp [hk]

theorem setTool_map_bi (tc : List (Nat × ToolCallState)) (k : Nat)
    (e : ToolCallState)
    (h : ∀ p ∈ tc, p.1 = k → p.2.block_index = e.block_index) :
    (setTool tc k e).map (fun p => p.2.block_index) =
      tc.map (fun p => p.2.block_index) := by
  unfold setTool
  rw [List.map_map]
  refine List.map_congr_left ?_
  intro p hp
  by_cases hk : p.1 = k
  · simp [hk, (h p hp hk).symm]
  · simp [hk]

theorem setTool_append_fresh (tc : List (Nat × ToolCallState)) (k : Nat)
    (e0 e : ToolCallState) (h : ∀ p ∈ tc, p.1 ≠ k) :
    setTool (tc ++ [(k, e0)]) k e = tc ++ [(k, e)] := by
  unfold setTool
  rw [List.map_append]
  congr 1
  · calc List.map (fun p => if p.1 = k then (k, e) else p) tc
        = List.map id tc :=
          List.map_congr_left (fun p hp => by rw [if_neg (h p hp)]; rfl)
      _ = tc := List.map_id tc
  · simp

theorem apply_eq_of_found (s : StreamState) (call : OpenAIToolCallDelta)
    (e : ToolCallState) (hfind : findTool s.tool_calls call.index = some e) :
    apply_tool_call_delta s call =
      ({ s with tool_calls :=
          setTool s.tool_calls call.index (toolEntryStep e call).1 },
       (toolEntryStep e call).2) := by
  unfold apply_tool_call_delta
  rw [hfind]

theorem apply_eq_of_fresh (s : StreamState) (call : OpenAIToolCallDelta)
    (hfind : findTool s.tool_calls call.index = none) :
    apply_tool_call_delta s call =
      ({ s with
          next_index := s.next_index + 1
          tool_calls := setTool
            (s.tool_calls ++
              [(call.index,
                (⟨none, none, "", s.next_index, false, false⟩ : ToolCallState))])
            call.index
            (toolEntryStep ⟨none, none, "", s.next_index, false, false⟩ call).1 },
       (toolEntryStep ⟨none, none, "", s.next_index, false, false⟩ call).2) := by
  unfold apply_tool_call_delta
  rw [hfind]

theorem findTool_mem {s : List (Nat × ToolCallState)} {k : Nat}
    {e : ToolCallState} (hfind : findTool s k = some e) : (k, e) ∈ s := by
  unfold findTool at hfind
  rcases Option.map_eq_some'.mp hfind with ⟨p, hp, hpe⟩
  have h1 := List.find?_some hp
  have h2 := List.mem_of_find?_eq_some hp
  have h3 : p.1 = k := by simpa using h1
  have : p = (k, e) := by
    rcases p with ⟨p1, p2⟩
    simp only at h3 hpe
    rw [h3, hpe]
  rw [← this]
  exact h2

theorem findTool_none {s : List (Nat × ToolCallState)} {k : Nat}
    (hfind : findTool s k = none) : ∀ p ∈ s, p.1 ≠ k := by
  unfold findTool at hfind
  intro p hp
  have h1 := List.find?_eq_none.mp (Option.map_eq_none'.mp hfind) p hp
  simpa using h1

theorem nodup_map_inj {α β : Type} {f : α → β} {l : List α}
    (h : (l.map f).Nodup) {p q : α} (hp : p ∈ l) (hq : q ∈ l)
    (hne : f p = f q) : p = q :=
  List.inj_on_of_nodup_map h hp hq hne

theorem toolBi_nodup {s : StreamState} (hwf : WFStream s) :
    (s.tool_calls.map (fun p => p.2.block_index)).Nodup := by
  obtain ⟨hnodup, _, _⟩ := hwf
  refine hnodup.sublist ?_
  unfold blockIdxList
  exact List.sublist_append_right _ _

theorem toolBi_mem {s : StreamState} {p : Nat × ToolCallState}
    (hp : p ∈ s.tool_calls) : p.2.block_index ∈ blockIdxList s := by
  unfold blockIdxList
  exact List.mem_append_right _ (List.mem_map.mpr ⟨p, hp, rfl⟩)

theorem WFStream_congr (s s2 : StreamState)
    (hn : s2.next_index = s.next_index)
    (ht : s2.text_block_index = s.text_block_index)
    (hh : s2.thinking_block_index = s.thinking_block_index)
    (hbi : s2.tool_calls.map (fun p => p.2.block_index) =
      s.tool_calls.map (fun p => p.2.block_index))
    (hk : s2.tool_calls.map Prod.fst = s.tool_calls.map Prod.fst)
    (hwf : WFStream s) : WFStream s2 := by
  obtain ⟨h1, h2, h3⟩ := hwf
  have hlist : blockIdxList s2 = blockIdxList s := by
    unfold blockIdxList
    rw [ht, hh, hbi]
  refine ⟨hlist ▸ h1, ?_, hk ▸ h3⟩
  intro i hi
  rw [hlist] at hi
  rw [hn]
  exact h2 i hi

theorem WFStream_fresh (s s2 : StreamState) (k : Nat) (e2 : ToolCallState)
    (hn : s2.next_index = s.next_index + 1)
    (ht : s2.text_block_index = s.text_block_index)
    (hh : s2.thinking_block_index = s.thinking_block_index)
    (htc : s2.tool_calls = s.tool_calls ++ [(k, e2)])
    (hbie : e2.block_index = s.next_index)
    (hkfresh : ∀ p ∈ s.tool_calls, p.1 ≠ k)
    (hwf : WFStream s) : WFStream s2 := by
  obtain ⟨h1, h2, h3⟩ := hwf
  have hlist : blockIdxList s2 = blockIdxList s ++ [s.next_index] := by
    unfold blockIdxList
    rw [ht, hh, htc, List.map_append, List.map_singleton, hbie]
    simp only [List.append_assoc]
  refine ⟨?_, ?_, ?_⟩
  · rw [hlist]
    refine List.nodup_append.mpr ⟨h1, List.nodup_singleton _, ?_⟩
    intro a ha hb
    rw [List.mem_singleton] at hb
    subst hb
    exact absurd (h2 _ ha) (Nat.lt_irrefl _)
  · intro i hi
    rw [hlist] at hi
    rw [hn]
    rcases List.mem_append.mp hi with h | h
    · exact Nat.lt_succ_of_lt (h2 i h)
    · rw [List.mem_singleton] at h
      subst h
      exact Nat.lt_succ_self _
  · rw [htc, List.map_append]
    refine List.nodup_append.mpr ⟨h3, List.nodup_singleton _, ?_⟩
    intro a ha hb
    rw [List.map_singleton, List.mem_singleton] at hb
    subst hb
    rcases List.mem_map.mp ha with ⟨p, hp, hpa⟩
    exact hkfresh p hp hpa

theorem WFStream_newBlock (s s2 : StreamState)
    (hperm : List.Perm (blockIdxList s2) (s.next_index :: blockIdxList s))
    (hn : s2.next_index = s.next_index + 1)
    (htc : s2.tool_calls = s.tool_calls)
    (hwf : WFStream s) : WFStream s2 := by
  obtain ⟨h1, h2, h3⟩ := hwf
  refine ⟨?_, ?_, ?_⟩
  · rw [hperm.nodup_iff]
    exact List.nodup_cons.mpr ⟨fun h => absurd (h2 _ h) (Nat.lt_irrefl _), h1⟩
  · intro i hi
    rw [hn]
    rcases List.mem_cons.mp (hperm.mem_iff.mp hi) with rfl | h
    · exact Nat.lt_succ_self _
    · exact Nat.lt_succ_of_lt (h2 i h)
  · rw [htc]; exact h3

/-- Stepping one tool-call delta preserves the simulation. -/
theorem apply_ok (s : StreamState) (call : OpenAIToolCallDelta) (c : CheckSt)
    (hsim : Sim s c) (hwf : WFStream s) (hstart : s.started = true) :
    ∃ c', checkEventsFrom c (apply_tool_call_delta s call).2 = some c' ∧
      Sim (apply_tool_call_delta s call).1 c' ∧
      WFStream (apply_tool_call_delta s call).1 ∧
      (apply_tool_call_delta s call).1.started = s.started ∧
      (apply_tool_call_delta s call).1.text_block_index = s.text_block_index ∧
      (apply_tool_call_delta s call).1.thinking_block_index =
        s.thinking_block_index := by
  have hbiNodup := toolBi_nodup hwf
  obtain ⟨hnodup, hbound, hkeys⟩ := hwf
  obtain ⟨hfin, hsaw, hsb, hstb, htext, hthink, htools, hopen⟩ := hsim
  have hsaw' : c.sawStart = true := by rw [hsaw, hstart]
  cases hfindv : findTool s.tool_calls call.index with
  | some e =>
    have hmem := findTool_mem hfindv
    have he := htools (call.index, e) hmem
    rcases toolEntryStep_check e call c hfin hsaw' he.1 he.2.1 with
      ⟨c', hchk, hfin', hsawEq, hstopEq, hstartIff⟩
    rcases toolEntryStep_shape e call with ⟨hbiEq, hstopFieldEq, hshape⟩
    have hmono : e.started = true → (toolEntryStep e call).1.started = true := by
      intro h
      rcases hshape with h1 | h1 | h1
      · exact h1.2.1
      · rw [h1.1] at h; cases h
      · exact h1.2.1
    rw [apply_eq_of_found s call e hfindv]
    have hbiMem : e.block_index ∈ blockIdxList s := toolBi_mem hmem
    refine ⟨c', hchk, ?_, ?_, rfl, rfl, rfl⟩
    · refine ⟨hfin', by rw [hsawEq, hsaw], ?_, ?_, ?_, ?_, ?_, ?_⟩
      · intro i hi
        rcases (hstartIff i).mp hi with h | ⟨rfl, _⟩
        · exact hsb i h
        · exact hbound _ hbiMem
      · intro i hi
        rw [hstopEq] at hi
        exact hstb i hi
      · intro i hti
        have h := htext i hti
        exact ⟨(hstartIff i).mpr (Or.inl h.1), by rw [hstopEq]; exact h.2⟩
      · intro i hti
        have h := hthink i hti
        exact ⟨(hstartIff i).mpr (Or.inl h.1), by rw [hstopEq]; exact h.2⟩
      · intro p hp
        rcases setTool_mem hp with rfl | ⟨hpmem, hpne⟩
        · refine ⟨?_, ?_, ?_, ?_⟩
          · intro h
            exact (hstartIff _).mpr (Or.inr ⟨hbiEq, h⟩)
          · intro h hin
            rcases (hstartIff _).mp hin with h2 | ⟨_, h3⟩
            · cases htes : e.started with
              | true =>
                have := hmono htes
                rw [h] at this; cases this
              | false =>
                rw [hbiEq] at h2
                exact he.2.1 htes h2
            · rw [h] at h3; cases h3
          · intro h
            rw [hstopEq]
            rw [hstopFieldEq] at h
            rw [hbiEq]
            exact he.2.2.1 h
          · intro h
            rw [hstopEq]
            rw [hstopFieldEq] at h
            rw [hbiEq]
            exact he.2.2.2 h
        · have hq := htools p hpmem
          have hbineq : p.2.block_index ≠ e.block_index := by
            intro heq
            have h2 : p = (call.index, e) := nodup_map_inj hbiNodup hpmem hmem heq
            rw [h2] at hpne
            exact hpne rfl
          refine ⟨?_, ?_, ?_, ?_⟩
          · intro h; exact (hstartIff _).mpr (Or.inl (hq.1 h))
          · intro h hin
            rcases (hstartIff _).mp hin with h2 | ⟨h3, _⟩
            · exact hq.2.1 h h2
            · exact absurd h3 hbineq
          · intro h; rw [hstopEq]; exact hq.2.2.1 h
          · intro h; rw [hstopEq]; exact hq.2.2.2 h
      · intro i hin hnotstop
        rw [hstopEq] at hnotstop
        rcases (hstartIff i).mp hin with h2 | ⟨rfl, hst2⟩
        · rcases hopen i h2 hnotstop with h3 | h3 | ⟨q, hq, hbiq, hqs, hqstop⟩
          · exact Or.inl h3
          · exact Or.inr (Or.inl h3)
          · by_cases hqk : q.1 = call.index
            · have hqe : q = (call.index, e) := nodup_map_inj hkeys hq hmem hqk
              refine Or.inr (Or.inr ⟨(call.index, (toolEntryStep e call).1),
                setTool_mem_self hmem, ?_, ?_, ?_⟩)
              · rw [hbiEq]
                rw [hqe] at hbiq
                exact hbiq
              · rw [hqe] at hqs
                exact hmono hqs
              · rw [hstopFieldEq]
                rw [hqe] at hqstop
                exact hqstop
            · exact Or.inr (Or.inr ⟨q, setTool_mem_of_mem hq hqk, hbiq, hqs, hqstop⟩)
        · refine Or.inr (Or.inr ⟨(call.index, (toolEntryStep e call).1),
            setTool_mem_self hmem, hbiEq, hst2, ?_⟩)
          cases htes : e.stopped with
          | false => rw [hstopFieldEq]; exact htes
          | true =>
            exact absurd (he.2.2.1 htes) hnotstop
    · have hbi : (setTool s.tool_calls call.index (toolEntryStep e call).1).map
          (fun p => p.2.block_index) =
          s.tool_calls.map (fun p => p.2.block_index) := by
        refine setTool_map_bi _ _ _ ?_
        intro p hp hpk
        have h2 : p = (call.index, e) := by
          refine nodup_map_inj hkeys hp hmem ?_
          exact hpk
        rw [h2, hbiEq]
      exact WFStream_congr s _ rfl rfl rfl hbi (setTool_map_fst _ _ _)
        ⟨hnodup, hbound, hkeys⟩
  | none =>
    have hfreshkeys := findTool_none hfindv
    have hub : (⟨none, none, "", s.next_index, false, false⟩ :
        ToolCallState).started = false → s.next_index ∉ c.startedIdx := by
      intro _ hin
      exact absurd (hsb _ hin) (Nat.lt_irrefl _)
    rcases toolEntryStep_check ⟨none, none, "", s.next_index, false, false⟩
        call c hfin hsaw' (by intro h; cases h) hub with
      ⟨c', hchk, hfin', hsawEq, hstopEq, hstartIff⟩
    rcases toolEntryStep_shape
        (⟨none, none, "", s.next_index, false, false⟩ : ToolCallState) call with
      ⟨hbiEq, hstopFieldEq, hshape⟩
    rw [apply_eq_of_fresh s call hfindv,
        setTool_append_fresh _ _ _ _ hfreshkeys]
    refine ⟨c', hchk, ?_, ?_, rfl, rfl, rfl⟩
    · refine ⟨hfin', by rw [hsawEq, hsaw], ?_, ?_, ?_, ?_, ?_, ?_⟩
      · intro i hi
        rcases (hstartIff i).mp hi with h | ⟨rfl, _⟩
        · exact Nat.lt_succ_of_lt (hsb i h)
        · exact Nat.lt_succ_self _
      · intro i hi
        rw [hstopEq] at hi
        exact Nat.lt_succ_of_lt (hstb i hi)
      · intro i hti
        have h := htext i hti
        exact ⟨(hstartIff i).mpr (Or.inl h.1), by rw [hstopEq]; exact h.2⟩
      · intro i hti
        have h := hthink i hti
        exact ⟨(hstartIff i).mpr (Or.inl h.1), by rw [hstopEq]; exact h.2⟩
      · intro p hp
        rcases List.mem_append.mp hp with hpmem | hpnew
        · have hq := htools p hpmem
          have hlt : p.2.block_index < s.next_index := hbound _ (toolBi_mem hpmem)
          refine ⟨?_, ?_, ?_, ?_⟩
          · intro h; exact (hstartIff _).mpr (Or.inl (hq.1 h))
          · intro h hin
            rcases (hstartIff _).mp hin with h2 | ⟨h3, _⟩
            · exact hq.2.1 h h2
            · exact absurd hlt (by rw [h3]; exact Nat.lt_irrefl _)
          · intro h; rw [hstopEq]; exact hq.2.2.1 h
          · intro h; rw [hstopEq]; exact hq.2.2.2 h
        · rcases List.mem_singleton.mp hpnew with rfl
          refine ⟨?_, ?_, ?_, ?_⟩
          · intro h
            exact (hstartIff _).mpr (Or.inr ⟨hbiEq, h⟩)
          · intro h hin
            rcases (hstartIff _).mp hin with h2 | ⟨_, h3⟩
            · rw [hbiEq] at h2
              exact absurd (hsb _ h2) (Nat.lt_irrefl _)
            · rw [h] at h3; cases h3
          · intro h
            rw [hstopFieldEq] at h
            cases h
          · intro h
            rw [hstopEq]
            rw [hbiEq]
            intro hin
            exact absurd (hstb _ hin) (Nat.lt_irrefl _)
      · intro i hin hnotstop
        rw [hstopEq] at hnotstop
        rcases (hstartIff i).mp hin with h2 | ⟨rfl, hst2⟩
        · rcases hopen i h2 hnotstop with h3 | h3 | ⟨q, hq, hbiq, hqs, hqstop⟩
          · exact Or.inl h3
          · exact Or.inr (Or.inl h3)
          · exact Or.inr (Or.inr ⟨q, List.mem_append_left _ hq, hbiq, hqs, hqstop⟩)
        · refine Or.inr (Or.inr
            ⟨(call.index, (toolEntryStep
                ⟨none, none, "", s.next_index, false, false⟩ call).1),
             List.mem_append_right _ (List.mem_singleton.mpr rfl),
             hbiEq, hst2, by rw [hstopFieldEq]⟩)
    · exact WFStream_fresh s _ call.index
        (toolEntryStep ⟨none, none, "", s.next_index, false, false⟩ call).1
        rfl rfl rfl rfl hbiEq hfreshkeys ⟨hnodup, hbound, hkeys⟩

/-- `ensure_text_block` preserves the simulation; afterwards the text
block is open and registered with the scanner. -/
theorem ensure_text_ok (s : StreamState) (c : CheckSt)
    (hsim : Sim s c) (hwf : WFStream s) (hstart : s.started = true) :
    ∃ c', checkEventsFrom c (ensure_text_block s).2.2 = some c' ∧
      Sim (ensure_text_block s).1 c' ∧ WFStream (ensure_text_block s).1 ∧
      (ensure_text_block s).1.started = s.started ∧
      (ensure_text_block s).1.text_block_index = some (ensure_text_block s).2.1 ∧
      (ensure_text_block s).1.thinking_block_index = s.thinking_block_index := by
  obtain ⟨hfin, hsaw, hsb, hstb, htext, hthink, htools, hopen⟩ := hsim
  obtain ⟨hnodup, hbound, hkeys⟩ := hwf
  have hsaw' : c.sawStart = true := by rw [hsaw, hstart]
  unfold ensure_text_block
  cases hti : s.text_block_index with
  | some index =>
    dsimp only
    exact ⟨c, rfl, ⟨hfin, hsaw, hsb, hstb, htext, hthink, htools, hopen⟩,
      ⟨hnodup, hbound, hkeys⟩, rfl, hti, rfl⟩
  | none =>
    dsimp only
    have hnmem : s.next_index ∉ c.startedIdx :=
      fun h => absurd (hsb _ h) (Nat.lt_irrefl _)
    refine ⟨{ c with startedIdx := s.next_index :: c.startedIdx },
      check_cbs c s.next_index BlockKind.text hfin hsaw' hnmem,
      ?_, ?_, rfl, rfl, rfl⟩
    · refine ⟨hfin, hsaw, ?_, ?_, ?_, ?_, ?_, ?_⟩
      · intro i hi
        rcases List.mem_cons.mp hi with rfl | h
        · exact Nat.lt_succ_self _
        · exact Nat.lt_succ_of_lt (hsb i h)
      · intro i hi
        exact Nat.lt_succ_of_lt (hstb i hi)
      · intro i h
        have h2 : s.next_index = i := Option.some.inj h
        subst h2
        exact ⟨List.mem_cons_self _ _,
          fun hc => absurd (hstb _ hc) (Nat.lt_irrefl _)⟩
      · intro i h
        have h2 := hthink i h
        exact ⟨List.mem_cons_of_mem _ h2.1, h2.2⟩
      · intro p hp
        have hq := htools p hp
        refine ⟨fun h => List.mem_cons_of_mem _ (hq.1 h), ?_, hq.2.2.1, hq.2.2.2⟩
        intro h hin
        rcases List.mem_cons.mp hin with h2 | h2
        · exact absurd (hbound _ (toolBi_mem hp))
            (by rw [h2]; exact Nat.lt_irrefl _)
        · exact hq.2.1 h h2
      · intro i hin hnstop
        rcases List.mem_cons.mp hin with rfl | h2
        · exact Or.inl rfl
        · rcases hopen i h2 hnstop with h3 | h3 | h3
          · rw [hti] at h3; cases h3
          · exact Or.inr (Or.inl h3)
          · exact Or.inr (Or.inr h3)
    · refine WFStream_newBlock s _ ?_ rfl rfl ⟨hnodup, hbound, hkeys⟩
      show List.Perm ((some s.next_index).toList ++ s.thinking_block_index.toList ++
        s.tool_calls.map (fun p => p.2.block_index))
        (s.next_index :: blockIdxList s)
      unfold blockIdxList
      rw [hti]
      simp only [Option.toList_some, Option.toList_none, List.nil_append,
        List.singleton_append, List.cons_append]
      exact List.Perm.refl _

/-- `ensure_thinking_block` preserves the simulation; afterwards the
thinking block is open and registered with the scanner. -/
theorem ensure_thinking_ok (s : StreamState) (c : CheckSt)
    (hsim : Sim s c) (hwf : WFStream s) (hstart : s.started = true) :
    ∃ c', checkEventsFrom c (ensure_thinking_block s).2.2 = some c' ∧
      Sim (ensure_thinking_block s).1 c' ∧ WFStream (ensure_thinking_block s).1 ∧
      (ensure_thinking_block s).1.started = s.started ∧
      (ensure_thinking_block s).1.thinking_block_index =
        some (ensure_thinking_block s).2.1 ∧
      (ensure_thinking_block s).1.text_block_index = s.text_block_index := by
  obtain ⟨hfin, hsaw, hsb, hstb, htext, hthink, htools, hopen⟩ := hsim
  obtain ⟨hnodup, hbound, hkeys⟩ := hwf
  have hsaw' : c.sawStart = true := by rw [hsaw, hstart]
  unfold ensure_thinking_block
  cases hti : s.thinking_block_index with
  | some index =>
    dsimp only
    exact ⟨c, rfl, ⟨hfin, hsaw, hsb, hstb, htext, hthink, htools, hopen⟩,
      ⟨hnodup, hbound, hkeys⟩, rfl, hti, rfl⟩
  | none =>
    dsimp only
    have hnmem : s.next_index ∉ c.startedIdx :=
      fun h => absurd (hsb _ h) (Nat.lt_irrefl _)
    refine ⟨{ c with startedIdx := s.next_index :: c.startedIdx },
      check_cbs c s.next_index BlockKind.thinking hfin hsaw' hnmem,
      ?_, ?_, rfl, rfl, rfl⟩
    · refine ⟨hfin, hsaw, ?_, ?_, ?_, ?_, ?_, ?_⟩
      · intro i hi
        rcases List.mem_cons.mp hi with rfl | h
        · exact Nat.lt_succ_self _
        · exact Nat.lt_succ_of_lt (hsb i h)
      · intro i hi
        exact Nat.lt_succ_of_lt (hstb i hi)
      · intro i h
        have h2 := htext i h
        exact ⟨List.mem_cons_of_mem _ h2.1, h2.2⟩
      · intro i h
        have h2 : s.next_index = i := Option.some.inj h
        subst h2
        exact ⟨List.mem_cons_self _ _,
          fun hc => absurd (hstb _ hc) (Nat.lt_irrefl _)⟩
      · intro p hp
        have hq := htools p hp
        refine ⟨fun h => List.mem_cons_of_mem _ (hq.1 h), ?_, hq.2.2.1, hq.2.2.2⟩
        intro h hin
        rcases List.mem_cons.mp hin with h2 | h2
        · exact absurd (hbound _ (toolBi_mem hp))
            (by rw [h2]; exact Nat.lt_irrefl _)
        · exact hq.2.1 h h2
      · intro i hin hnstop
        rcases List.mem_cons.mp hin with rfl | h2
        · exact Or.inr (Or.inl rfl)
        · rcases hopen i h2 hnstop with h3 | h3 | h3
          · exact Or.inl h3
          · rw [hti] at h3; cases h3
          · exact Or.inr (Or.inr h3)
    · refine WFStream_newBlock s _ ?_ rfl rfl ⟨hnodup, hbound, hkeys⟩
      show List.Perm (s.text_block_index.toList ++ (some s.next_index).toList ++
        s.tool_calls.map (fun p => p.2.block_index))
        (s.next_index :: blockIdxList s)
      unfold blockIdxList
      rw [hti]
      simp only [Option.toList_some, Option.toList_none, List.append_nil,
        List.append_assoc, List.singleton_append]
      exact List.perm_middle

/-- The tool-call loop preserves the simulation. -/
theorem toolLoop_ok (calls : List OpenAIToolCallDelta) (s : StreamState)
    (c : CheckSt) (hsim : Sim s c) (hwf : WFStream s)
    (hstart : s.started = true) :
    ∃ c', checkEventsFrom c (toolCallLoop s calls).2 = some c' ∧
      Sim (toolCallLoop s calls).1 c' ∧ WFStream (toolCallLoop s calls).1 ∧
      (toolCallLoop s calls).1.started = s.started := by
  induction calls generalizing s c with
  | nil => exact ⟨c, rfl, hsim, hwf, rfl⟩
  | cons call rest ih =>
    rcases apply_ok s call c hsim hwf hstart with
      ⟨c1, hchk1, hsim1, hwf1, hst1, _, _⟩
    rcases ih (apply_tool_call_delta s call).1 c1 hsim1 hwf1
      (by rw [hst1]; exact hstart) with ⟨c2, hchk2, hsim2, hwf2, hst2⟩
    rw [toolCallLoop_cons]
    dsimp only
    refine ⟨c2, ?_, hsim2, hwf2, by rw [hst2, hst1]⟩
    rw [checkEventsFrom_append, hchk1]
    exact hchk2

/-- The message-start phase preserves the simulation and leaves the
state started. -/
theorem startStep_ok (parsed : OpenAIStreamChunk) (s : StreamState)
    (c : CheckSt) (hsim : Sim s c) (hwf : WFStream s) :
    ∃ c', checkEventsFrom c (startStep parsed s).2 = some c' ∧
      Sim (startStep parsed s).1 c' ∧ WFStream (startStep parsed s).1 ∧
      (startStep parsed s).1.started = true := by
  obtain ⟨hfin, hsaw, hsb, hstb, htext, hthink, htools, hopen⟩ := hsim
  unfold startStep
  by_cases hst : s.started = true
  · rw [if_neg (not_not_intro hst)]
    exact ⟨c, rfl, ⟨hfin, hsaw, hsb, hstb, htext, hthink, htools, hopen⟩,
      hwf, hst⟩
  · rw [if_pos hst]
    dsimp only
    have hsf : s.started = false := by
      cases h2 : s.started with
      | true => exact absurd h2 hst
      | false => rfl
    have hsawf : c.sawStart = false := by rw [hsaw, hsf]
    refine ⟨{ c with sawStart := true },
      check_message_start c (parsed.id.getD "msg_stream") hfin hsawf,
      ⟨hfin, rfl, hsb, hstb, htext, hthink, htools, hopen⟩, hwf, rfl⟩

/-- The text-content phase preserves the simulation. -/
theorem contentStep_ok (content : Option String) (s : StreamState)
    (c : CheckSt) (hsim : Sim s c) (hwf : WFStream s)
    (hstart : s.started = true) :
    ∃ c', checkEventsFrom c (contentStep content s).2 = some c' ∧
      Sim (contentStep content s).1 c' ∧ WFStream (contentStep content s).1 ∧
      (contentStep content s).1.started = s.started := by
  unfold contentStep
  cases content with
  | none => exact ⟨c, rfl, hsim, hwf, rfl⟩
  | some delta =>
    dsimp only
    by_cases hd : delta ≠ ""
    · rw [if_pos hd]
      dsimp only
      have hsim' : Sim { s with output_text := s.output_text ++ delta } c := hsim
      have hwf' : WFStream { s with output_text := s.output_text ++ delta } := hwf
      rcases ensure_text_ok { s with output_text := s.output_text ++ delta } c
        hsim' hwf' hstart with ⟨c1, hchk1, hsim1, hwf1, hst1, htx1, _⟩
      refine ⟨c1, ?_, hsim1, hwf1, hst1⟩
      rw [checkEventsFrom_append, hchk1]
      dsimp only
      obtain ⟨hfin1, hsaw1, _, _, htext1, _, _, _⟩ := hsim1
      exact check_cbd c1 _ _ hfin1 (by rw [hsaw1, hst1]; exact hstart)
        (htext1 _ htx1).1
    · rw [if_neg hd]
      exact ⟨c, rfl, hsim, hwf, rfl⟩

/-- The reasoning phase preserves the simulation. -/
theorem reasoningStep_ok (rc : Option ReasoningValue) (s : StreamState)
    (c : CheckSt) (hsim : Sim s c) (hwf : WFStream s)
    (hstart : s.started = true) :
    ∃ c', checkEventsFrom c (reasoningStep rc s).2 = some c' ∧
      Sim (reasoningStep rc s).1 c' ∧ WFStream (reasoningStep rc s).1 ∧
      (reasoningStep rc s).1.started = s.started := by
  unfold reasoningStep
  cases rc with
  | none => exact ⟨c, rfl, hsim, hwf, rfl⟩
  | some rv =>
    cases rv with
    | objBad => exact ⟨c, rfl, hsim, hwf, rfl⟩
    | otherKind => exact ⟨c, rfl, hsim, hwf, rfl⟩
    | str th =>
      dsimp only
      have hsim' : Sim { s with reasoning_text := s.reasoning_text ++ th } c := hsim
      have hwf' : WFStream { s with reasoning_text := s.reasoning_text ++ th } := hwf
      rcases ensure_thinking_ok { s with reasoning_text := s.reasoning_text ++ th }
        c hsim' hwf' hstart with ⟨c1, hchk1, hsim1, hwf1, hst1, hth1, _⟩
      refine ⟨c1, ?_, hsim1, hwf1, hst1⟩
      rw [checkEventsFrom_append, hchk1]
      dsimp only
      obtain ⟨hfin1, hsaw1, _, _, _, hthink1, _, _⟩ := hsim1
      exact check_cbd c1 _ _ hfin1 (by rw [hsaw1, hst1]; exact hstart)
        (hthink1 _ hth1).1
    | objOk thinking signature =>
      dsimp only
      rcases ensure_thinking_ok s c hsim hwf hstart with
        ⟨c1, hchk1, hsim1, hwf1, hst1, hth1, _⟩
      obtain ⟨hfin1, hsaw1, hsb1, hstb1, htext1, hthink1, htools1, hopen1⟩ := hsim1
      have hsaw1' : c1.sawStart = true := by rw [hsaw1, hst1]; exact hstart
      have hidx : (ensure_thinking_block s).2.1 ∈ c1.startedIdx :=
        (hthink1 _ hth1).1
      cases thinking with
      | some th =>
        cases signature with
        | some sig =>
          refine ⟨c1, ?_, ?_, hwf1, hst1⟩
          · rw [checkEventsFrom_append, checkEventsFrom_append, hchk1]
            dsimp only
            rw [check_cbd c1 _ _ hfin1 hsaw1' hidx]
            dsimp only
            exact check_cbd c1 _ _ hfin1 hsaw1' hidx
          · exact ⟨hfin1, hsaw1, hsb1, hstb1, htext1, hthink1, htools1, hopen1⟩
        | none =>
          refine ⟨c1, ?_, ?_, hwf1, hst1⟩
          · rw [checkEventsFrom_append, checkEventsFrom_append, hchk1]
            dsimp only
            rw [check_cbd c1 _ _ hfin1 hsaw1' hidx]
            rfl
          · exact ⟨hfin1, hsaw1, hsb1, hstb1, htext1, hthink1, htools1, hopen1⟩
      | none =>
        cases signature with
        | some sig =>
          refine ⟨c1, ?_, ?_, hwf1, hst1⟩
          · rw [checkEventsFrom_append, checkEventsFrom_append, hchk1]
            dsimp only
            exact check_cbd c1 _ _ hfin1 hsaw1' hidx
          · exact ⟨hfin1, hsaw1, hsb1, hstb1, htext1, hthink1, htools1, hopen1⟩
        | none =>
          refine ⟨c1, ?_, ?_, hwf1, hst1⟩
          · rw [checkEventsFrom_append, checkEventsFrom_append, hchk1]
            rfl
          · exact ⟨hfin1, hsaw1, hsb1, hstb1, htext1, hthink1, htools1, hopen1⟩

/-- The tool phase preserves the simulation. -/
theorem toolStep_ok (tcs : Option (List OpenAIToolCallDelta)) (s : StreamState)
    (c : CheckSt) (hsim : Sim s c) (hwf : WFStream s)
    (hstart : s.started = true) :
    ∃ c', checkEventsFrom c (toolStep tcs s).2 = some c' ∧
      Sim (toolStep tcs s).1 c' ∧ WFStream (toolStep tcs s).1 ∧
      (toolStep tcs s).1.started = s.started := by
  unfold toolStep
  cases tcs with
  | none => exact ⟨c, rfl, hsim, hwf, rfl⟩
  | some calls => exact toolLoop_ok calls s c hsim hwf hstart

theorem forall2_mem_right {α : Type} {R : α → α → Prop} {l l' : List α}
    (h : List.Forall₂ R l l') : ∀ b ∈ l', ∃ a ∈ l, R a b := by
  induction h with
  | nil => intro b hb; cases hb
  | cons hR _ ih =>
    intro b hb
    rcases List.mem_cons.mp hb with rfl | hb2
    · exact ⟨_, List.mem_cons_self _ _, hR⟩
    · rcases ih b hb2 with ⟨a, ha, hab⟩
      exact ⟨a, List.mem_cons_of_mem _ ha, hab⟩

theorem forall2_map_eq {α β : Type} {R : α → α → Prop} {f : α → β}
    {l l' : List α} (h : List.Forall₂ R l l')
    (hf : ∀ a b, R a b → f b = f a) : l'.map f = l.map f := by
  induction h with
  | nil => rfl
  | cons hR _ ih =>
    rw [List.map_cons, List.map_cons, ih, hf _ _ hR]

/-- The flush tool loop: the emitted `content_block_stop`s are accepted
by the scanner, and on success every sub-state's block is stopped and
recorded. -/
theorem flushTools_ok (tc : List (Nat × ToolCallState)) (c : CheckSt)
    (hfin : c.finished = false) (hsaw : c.sawStart = true)
    (hstopped : ∀ p ∈ tc,
      (p.2.stopped = true → p.2.block_index ∈ c.stoppedIdx) ∧
      (p.2.stopped = false → p.2.block_index ∉ c.stoppedIdx))
    (hbiNodup : (tc.map (fun p => p.2.block_index)).Nodup) :
    ∃ c', checkEventsFrom c (flushTools tc).2.1 = some c' ∧
      c'.finished = false ∧ c'.sawStart = c.sawStart ∧
      c'.startedIdx = c.startedIdx ∧
      (∀ i ∈ c.stoppedIdx, i ∈ c'.stoppedIdx) ∧
      (∀ i ∈ c'.stoppedIdx, i ∈ c.stoppedIdx ∨ ∃ p ∈ tc, p.2.block_index = i) ∧
      ((flushTools tc).2.2 = none →
        (∀ p ∈ tc, p.2.block_index ∈ c'.stoppedIdx) ∧
        List.Forall₂ (fun (p q : Nat × ToolCallState) => q.1 = p.1 ∧
          q.2.block_index = p.2.block_index ∧ q.2.started = p.2.started ∧
          q.2.stopped = true) tc (flushTools tc).1) := by
  induction tc generalizing c with
  | nil =>
    exact ⟨c, rfl, hfin, rfl, rfl, fun i h => h, fun i h => Or.inl h,
      fun _ => ⟨fun p hp => absurd hp (List.not_mem_nil p), List.Forall₂.nil⟩⟩
  | cons hd rest ih =>
    obtain ⟨k, t⟩ := hd
    by_cases h1 : (t.started : Prop) ∧ t.arguments = ""
    · simp only [flushTools]
      rw [if_pos h1]
      exact ⟨c, rfl, hfin, rfl, rfl, fun i h => h, fun i h => Or.inl h,
        fun h => Option.noConfusion h⟩
    · by_cases h2 : (t.started : Prop) ∧ ¬(jsonValid t.arguments : Prop)
      · simp only [flushTools]
        rw [if_neg h1, if_pos h2]
        exact ⟨c, rfl, hfin, rfl, rfl, fun i h => h, fun i h => Or.inl h,
          fun h => Option.noConfusion h⟩
      · simp only [flushTools]
        rw [if_neg h1, if_neg h2]
        dsimp only
        have hhead := hstopped (k, t) (List.mem_cons_self _ _)
        by_cases h3 : (t.stopped : Prop)
        · -- already stopped: no event for the head
          rw [if_neg (not_not_intro h3)]
          dsimp only
          rcases ih c hfin hsaw
            (fun p hp => hstopped p (List.mem_cons_of_mem _ hp))
            (List.Nodup.of_cons hbiNodup) with
            ⟨c', hchk, hfin', hsaw', hsi, hmono, hchar, hsucc⟩
          refine ⟨c', hchk, hfin', hsaw', hsi, hmono, ?_, ?_⟩
          · intro i hi
            rcases hchar i hi with h4 | ⟨p, hp, h4⟩
            · exact Or.inl h4
            · exact Or.inr ⟨p, List.mem_cons_of_mem _ hp, h4⟩
          · intro hnone
            rcases hsucc hnone with ⟨hall, hfa⟩
            refine ⟨?_, List.Forall₂.cons ⟨rfl, rfl, rfl, h3⟩ hfa⟩
            intro p hp
            rcases List.mem_cons.mp hp with rfl | hp2
            · exact hmono _ (hhead.1 h3)
            · exact hall p hp2
        · -- emit the stop for the head
          rw [if_pos h3]
          dsimp only
          have hsf : t.stopped = false := by
            cases h4 : t.stopped with
            | true => exact absurd h4 h3
            | false => rfl
          have hnmem : t.block_index ∉ c.stoppedIdx := hhead.2 hsf
          have hbihd : t.block_index ∉ rest.map (fun p => p.2.block_index) :=
            (List.nodup_cons.mp hbiNodup).1
          have hrest : ∀ p ∈ rest,
              (p.2.stopped = true →
                p.2.block_index ∈ t.block_index :: c.stoppedIdx) ∧
              (p.2.stopped = false →
                p.2.block_index ∉ t.block_index :: c.stoppedIdx) := by
            intro p hp
            have hq := hstopped p (List.mem_cons_of_mem _ hp)
            refine ⟨fun h => List.mem_cons_of_mem _ (hq.1 h), ?_⟩
            intro h hin
            rcases List.mem_cons.mp hin with h4 | h4
            · exact hbihd (h4 ▸ List.mem_map.mpr ⟨p, hp, rfl⟩)
            · exact hq.2 h h4
          rcases ih { c with stoppedIdx := t.block_index :: c.stoppedIdx }
            hfin hsaw hrest (List.Nodup.of_cons hbiNodup) with
            ⟨c', hchk, hfin', hsaw', hsi, hmono, hchar, hsucc⟩
          refine ⟨c', ?_, hfin', hsaw', hsi, ?_, ?_, ?_⟩
          · rw [checkEventsFrom_append,
              check_cbstop c t.block_index hfin hsaw hnmem]
            exact hchk
          · intro i hi
            exact hmono i (List.mem_cons_of_mem _ hi)
          · intro i hi
            rcases hchar i hi with h4 | ⟨p, hp, h4⟩
            · rcases List.mem_cons.mp h4 with rfl | h5
              · exact Or.inr ⟨(k, t), List.mem_cons_self _ _, rfl⟩
              · exact Or.inl h5
            · exact Or.inr ⟨p, List.mem_cons_of_mem _ hp, h4⟩
          · intro hnone
            rcases hsucc hnone with ⟨hall, hfa⟩
            refine ⟨?_, List.Forall₂.cons ⟨rfl, rfl, rfl, rfl⟩ hfa⟩
            intro p hp
            rcases List.mem_cons.mp hp with rfl | hp2
            · exact hmono _ (List.mem_cons_self _ _)
            · exact hall p hp2

/-- Closing the text block preserves the simulation and records the
stop. -/
theorem textFlush_ok (s : StreamState) (c : CheckSt)
    (hsim : Sim s c) (hwf : WFStream s) (hstart : s.started = true) :
    ∃ c', checkEventsFrom c (textFlush s).2 = some c' ∧
      Sim (textFlush s).1 c' ∧ WFStream (textFlush s).1 ∧
      (textFlush s).1.started = s.started ∧
      (textFlush s).1.text_block_index = none ∧
      (textFlush s).1.thinking_block_index = s.thinking_block_index ∧
      (textFlush s).1.tool_calls = s.tool_calls ∧
      (textFlush s).1.next_index = s.next_index ∧
      c'.startedIdx = c.startedIdx ∧
      (∀ x ∈ c.stoppedIdx, x ∈ c'.stoppedIdx) ∧
      (∀ x, s.text_block_index = some x → x ∈ c'.stoppedIdx) := by
  obtain ⟨hfin, hsaw, hsb, hstb, htext, hthink, htools, hopen⟩ := hsim
  obtain ⟨hnodup, hbound, hkeys⟩ := hwf
  have hsaw' : c.sawStart = true := by rw [hsaw, hstart]
  unfold textFlush
  cases hti : s.text_block_index with
  | none =>
    dsimp only
    exact ⟨c, rfl, ⟨hfin, hsaw, hsb, hstb, htext, hthink, htools, hopen⟩,
      ⟨hnodup, hbound, hkeys⟩, rfl, hti, rfl, rfl, rfl, rfl, fun x h => h,
      fun x h => Option.noConfusion h⟩
  | some index =>
    dsimp only
    have hl : blockIdxList s = index ::
        (s.thinking_block_index.toList ++
          s.tool_calls.map (fun p => p.2.block_index)) := by
      unfold blockIdxList
      rw [hti]
      rfl
    have hnotin : index ∉ s.thinking_block_index.toList ++
        s.tool_calls.map (fun p => p.2.block_index) := by
      rw [hl] at hnodup
      exact (List.nodup_cons.mp hnodup).1
    have hnstop : index ∉ c.stoppedIdx := (htext index hti).2
    refine ⟨{ c with stoppedIdx := index :: c.stoppedIdx },
      check_cbstop c index hfin hsaw' hnstop, ?_, ?_, rfl, rfl, rfl, rfl, rfl,
      rfl, fun x h => List.mem_cons_of_mem _ h, ?_⟩
    · refine ⟨hfin, hsaw, hsb, ?_, ?_, ?_, ?_, ?_⟩
      · intro i hi
        rcases List.mem_cons.mp hi with rfl | h
        · exact hbound _ (by rw [hl]; exact List.mem_cons_self _ _)
        · exact hstb i h
      · intro i h
        exact Option.noConfusion h
      · intro i h
        have h2 := hthink i h
        refine ⟨h2.1, ?_⟩
        intro hin
        rcases List.mem_cons.mp hin with h4 | h4
        · refine hnotin (List.mem_append_left _ ?_)
          have h5 : s.thinking_block_index = some i := h
          rw [h5, h4]
          simp
        · exact h2.2 h4
      · intro p hp
        have hq := htools p hp
        refine ⟨hq.1, hq.2.1, fun h => List.mem_cons_of_mem _ (hq.2.2.1 h), ?_⟩
        intro h hin
        rcases List.mem_cons.mp hin with h4 | h4
        · exact hnotin (h4 ▸ List.mem_append_right _
            (List.mem_map.mpr ⟨p, hp, rfl⟩))
        · exact hq.2.2.2 h h4
      · intro i hin hnstop2
        have hne : i ≠ index := fun h => hnstop2 (h ▸ List.mem_cons_self _ _)
        have hns : i ∉ c.stoppedIdx :=
          fun h => hnstop2 (List.mem_cons_of_mem _ h)
        rcases hopen i hin hns with h3 | h3 | h3
        · rw [hti] at h3
          exact absurd (Option.some.inj h3).symm hne
        · exact Or.inr (Or.inl h3)
        · exact Or.inr (Or.inr h3)
    · refine ⟨?_, ?_, hkeys⟩
      · have hl2 : blockIdxList { s with text_block_index := none } =
            s.thinking_block_index.toList ++
              s.tool_calls.map (fun p => p.2.block_index) := by
          unfold blockIdxList
          rfl
        rw [hl2]
        rw [hl] at hnodup
        exact (List.nodup_cons.mp hnodup).2
      · intro i hi
        have hi2 : i ∈ s.thinking_block_index.toList ++
            s.tool_calls.map (fun p => p.2.block_index) := hi
        exact hbound i (by rw [hl]; exact List.mem_cons_of_mem _ hi2)
    · intro x h
      have h2 : index = x := Option.some.inj h
      exact h2 ▸ List.mem_cons_self _ _

/-- Closing the thinking block preserves the simulation and records the
stop. -/
theorem thinkFlush_ok (s : StreamState) (c : CheckSt)
    (hsim : Sim s c) (hwf : WFStream s) (hstart : s.started = true) :
    ∃ c', checkEventsFrom c (thinkFlush s).2 = some c' ∧
      Sim (thinkFlush s).1 c' ∧ WFStream (thinkFlush s).1 ∧
      (thinkFlush s).1.started = s.started ∧
      (thinkFlush s).1.thinking_block_index = none ∧
      (thinkFlush s).1.text_block_index = s.text_block_index ∧
      (thinkFlush s).1.tool_calls = s.tool_calls ∧
      (thinkFlush s).1.next_index = s.next_index ∧
      c'.startedIdx = c.startedIdx ∧
      (∀ x ∈ c.stoppedIdx, x ∈ c'.stoppedIdx) ∧
      (∀ x, s.thinking_block_index = some x → x ∈ c'.stoppedIdx) := by
  obtain ⟨hfin, hsaw, hsb, hstb, htext, hthink, htools, hopen⟩ := hsim
  obtain ⟨hnodup, hbound, hkeys⟩ := hwf
  have hsaw' : c.sawStart = true := by rw [hsaw, hstart]
  unfold thinkFlush
  cases hti : s.thinking_block_index with
  | none =>
    dsimp only
    exact ⟨c, rfl, ⟨hfin, hsaw, hsb, hstb, htext, hthink, htools, hopen⟩,
      ⟨hnodup, hbound, hkeys⟩, rfl, hti, rfl, rfl, rfl, rfl, fun x h => h,
      fun x h => Option.noConfusion h⟩
  | some index =>
    dsimp only
    have hperm : List.Perm (blockIdxList s) (index ::
        (s.text_block_index.toList ++
          s.tool_calls.map (fun p => p.2.block_index))) := by
      unfold blockIdxList
      rw [hti]
      simp only [Option.toList_some, List.append_assoc, List.singleton_append]
      exact List.perm_middle
    have hnodup2 := hperm.nodup hnodup
    have hnotin : index ∉ s.text_block_index.toList ++
        s.tool_calls.map (fun p => p.2.block_index) :=
      (List.nodup_cons.mp hnodup2).1
    have hnstop : index ∉ c.stoppedIdx := (hthink index hti).2
    refine ⟨{ c with stoppedIdx := index :: c.stoppedIdx },
      check_cbstop c index hfin hsaw' hnstop, ?_, ?_, rfl, rfl, rfl, rfl, rfl,
      rfl, fun x h => List.mem_cons_of_mem _ h, ?_⟩
    · refine ⟨hfin, hsaw, hsb, ?_, ?_, ?_, ?_, ?_⟩
      · intro i hi
        rcases List.mem_cons.mp hi with rfl | h
        · exact hbound _ (hperm.mem_iff.mpr (List.mem_cons_self _ _))
        · exact hstb i h
      · intro i h
        have h2 := htext i h
        refine ⟨h2.1, ?_⟩
        intro hin
        rcases List.mem_cons.mp hin with h4 | h4
        · refine hnotin (List.mem_append_left _ ?_)
          have h5 : s.text_block_index = some i := h
          rw [h5, h4]
          simp
        · exact h2.2 h4
      · intro i h
        exact Option.noConfusion h
      · intro p hp
        have hq := htools p hp
        refine ⟨hq.1, hq.2.1, fun h => List.mem_cons_of_mem _ (hq.2.2.1 h), ?_⟩
        intro h hin
        rcases List.mem_cons.mp hin with h4 | h4
        · exact hnotin (h4 ▸ List.mem_append_right _
            (List.mem_map.mpr ⟨p, hp, rfl⟩))
        · exact hq.2.2.2 h h4
      · intro i hin hnstop2
        have hne : i ≠ index := fun h => hnstop2 (h ▸ List.mem_cons_self _ _)
        have hns : i ∉ c.stoppedIdx :=
          fun h => hnstop2 (List.mem_cons_of_mem _ h)
        rcases hopen i hin hns with h3 | h3 | h3
        · exact Or.inl h3
        · rw [hti] at h3
          exact absurd (Option.some.inj h3).symm hne
        · exact Or.inr (Or.inr h3)
    · refine ⟨?_, ?_, hkeys⟩
      · have hl2 : blockIdxList { s with thinking_block_index := none } =
            s.text_block_index.toList ++
              s.tool_calls.map (fun p => p.2.block_index) := by
          unfold blockIdxList
          simp only [Option.toList_none, List.append_nil]
        rw [hl2]
        exact (List.nodup_cons.mp hnodup2).2
      · intro i hi
        have hi2 : i ∈ s.text_block_index.toList ++
            s.tool_calls.map (fun p => p.2.block_index) := by
          have hl2 : blockIdxList { s with thinking_block_index := none } =
              s.text_block_index.toList ++
                s.tool_calls.map (fun p => p.2.block_index) := by
            unfold blockIdxList
            simp only [Option.toList_none, List.append_nil]
          rw [hl2] at hi
          exact hi
        exact hbound i (hperm.mem_iff.mpr (List.mem_cons_of_mem _ hi2))
    · intro x h
      have h2 : index = x := Option.some.inj h
      exact h2 ▸ List.mem_cons_self _ _

/-- `flush_open_blocks`: the emitted events are accepted by the scanner;
on success the simulation is re-established and every started block has
been stopped. -/
theorem flush_ok (s : StreamState) (c : CheckSt) (hsim : Sim s c)
    (hwf : WFStream s) (hstart : s.started = true) :
    ∃ c', checkEventsFrom c (flush_open_blocks s).2.1 = some c' ∧
      c'.finished = false ∧ c'.sawStart = true ∧
      ((flush_open_blocks s).2.2 = none →
        Sim (flush_open_blocks s).1 c' ∧ WFStream (flush_open_blocks s).1 ∧
        (flush_open_blocks s).1.started = s.started ∧
        (∀ i ∈ c'.startedIdx, i ∈ c'.stoppedIdx)) := by
  rcases textFlush_ok s c hsim hwf hstart with
    ⟨c1, hchk1, hsim1, hwf1, hst1, htx1, hth1, htc1, hnx1, hsi1, hmono1, hstop1⟩
  have hstart1 : (textFlush s).1.started = true := by rw [hst1]; exact hstart
  rcases thinkFlush_ok (textFlush s).1 c1 hsim1 hwf1 hstart1 with
    ⟨c2, hchk2, hsim2, hwf2, hst2, hth2, htx2, htc2, hnx2, hsi2, hmono2, hstop2⟩
  have hstart2 : (thinkFlush (textFlush s).1).1.started = true := by
    rw [hst2]; exact hstart1
  obtain ⟨hfin2, hsaw2, hsb2, hstb2, htext2, hthink2, htools2, hopen2⟩ := hsim2
  obtain ⟨hnodup2, hbound2, hkeys2⟩ := hwf2
  have hsaw2' : c2.sawStart = true := by rw [hsaw2]; exact hstart2
  have hbiN := toolBi_nodup
    (s := (thinkFlush (textFlush s).1).1) ⟨hnodup2, hbound2, hkeys2⟩
  rcases flushTools_ok (thinkFlush (textFlush s).1).1.tool_calls c2 hfin2 hsaw2'
    (fun p hp => ⟨(htools2 p hp).2.2.1, (htools2 p hp).2.2.2⟩) hbiN with
    ⟨c3, hchk3, hfin3, hsaw3, hsi3, hmono3, hchar3, hsucc3⟩
  have htxF : (thinkFlush (textFlush s).1).1.text_block_index = none := by
    rw [htx2, htx1]
  refine ⟨c3, ?_, hfin3, by rw [hsaw3]; exact hsaw2', ?_⟩
  · show checkEventsFrom c ((textFlush s).2 ++ (thinkFlush (textFlush s).1).2 ++
      (flushTools (thinkFlush (textFlush s).1).1.tool_calls).2.1) = some c3
    rw [checkEventsFrom_append, checkEventsFrom_append, hchk1]
    dsimp only
    rw [hchk2]
    dsimp only
    exact hchk3
  · intro hnone
    have hnone' :
        (flushTools (thinkFlush (textFlush s).1).1.tool_calls).2.2 = none :=
      hnone
    rcases hsucc3 hnone' with ⟨hall, hfa⟩
    have hsub : ∀ i ∈ c3.startedIdx, i ∈ c3.stoppedIdx := by
      intro i hi
      rw [hsi3] at hi
      by_cases hstp : i ∈ c2.stoppedIdx
      · exact hmono3 i hstp
      · rcases hopen2 i hi hstp with h3 | h3 | ⟨p, hp, hbi, hqs, hqstop⟩
        · rw [htxF] at h3; cases h3
        · rw [hth2] at h3; cases h3
        · rw [← hbi]; exact hall p hp
    refine ⟨?_, ?_, ?_, hsub⟩
    · refine ⟨hfin3, ?_, ?_, ?_, ?_, ?_, ?_, ?_⟩
      · rw [hsaw3]; exact hsaw2
      · intro i hi
        rw [hsi3] at hi
        exact hsb2 i hi
      · intro i hi
        rcases hchar3 i hi with h4 | ⟨p, hp, h4⟩
        · exact hstb2 i h4
        · rw [← h4]; exact hbound2 _ (toolBi_mem hp)
      · intro i h
        have h2 : (thinkFlush (textFlush s).1).1.text_block_index = some i := h
        rw [htxF] at h2; cases h2
      · intro i h
        have h2 : (thinkFlush (textFlush s).1).1.thinking_block_index =
          some i := h
        rw [hth2] at h2; cases h2
      · intro q hq
        have hq2 : q ∈
            (flushTools (thinkFlush (textFlush s).1).1.tool_calls).1 := hq
        rcases forall2_mem_right hfa q hq2 with ⟨p, hp, hk, hbi, hstq, hstopq⟩
        refine ⟨?_, ?_, ?_, ?_⟩
        · intro h
          rw [hstq] at h
          rw [hsi3, hbi]
          exact (htools2 p hp).1 h
        · intro h hin
          rw [hstq] at h
          rw [hsi3, hbi] at hin
          exact (htools2 p hp).2.1 h hin
        · intro _
          rw [hbi]
          exact hall p hp
        · intro h
          rw [hstopq] at h
          cases h
      · intro i hin hnstop
        exact absurd (hsub i hin) hnstop
    · have hmap_bi : (flushTools (thinkFlush (textFlush s).1).1.tool_calls).1.map
          (fun p => p.2.block_index) =
          (thinkFlush (textFlush s).1).1.tool_calls.map
            (fun p => p.2.block_index) :=
        forall2_map_eq hfa (fun a b hr => hr.2.1)
      have hmap_k : (flushTools (thinkFlush (textFlush s).1).1.tool_calls).1.map
          Prod.fst = (thinkFlush (textFlush s).1).1.tool_calls.map Prod.fst :=
        forall2_map_eq hfa (fun a b hr => hr.1)
      exact WFStream_congr (thinkFlush (textFlush s).1).1 _ rfl rfl rfl hmap_bi
        hmap_k ⟨hnodup2, hbound2, hkeys2⟩
    · show (thinkFlush (textFlush s).1).1.started = s.started
      rw [hst2, hst1]

theorem check_append_ok {a b : List Event} {c c1 c2 : CheckSt}
    (h1 : checkEventsFrom c a = some c1)
    (h2 : checkEventsFrom c1 b = some c2) :
    checkEventsFrom c (a ++ b) = some c2 := by
  rw [checkEventsFrom_append, h1]
  exact h2

/-- `handle_openai_chunk`: its events are accepted by the scanner; when
it reports no error the simulation is re-established. -/
theorem handle_ok (parsed : OpenAIStreamChunk) (s : StreamState) (c : CheckSt)
    (hsim : Sim s c) (hwf : WFStream s) :
    ∃ c', checkEventsFrom c (handle_openai_chunk parsed s).2.1 = some c' ∧
      c'.finished = false ∧
      ((handle_openai_chunk parsed s).2.2 = none →
        Sim (handle_openai_chunk parsed s).1 c' ∧
        WFStream (handle_openai_chunk parsed s).1 ∧
        (handle_openai_chunk parsed s).1.started = true) := by
  rcases startStep_ok parsed s c hsim hwf with ⟨c0, hchk0, hsim0, hwf0, hst0⟩
  unfold handle_openai_chunk
  cases hch : parsed.choices with
  | nil =>
    dsimp only
    obtain ⟨hfin0, hsaw0, hsb0, hstb0, htext0, hthink0, htools0, hopen0⟩ := hsim0
    exact ⟨c0, hchk0, hfin0, fun _ =>
      ⟨⟨hfin0, hsaw0, hsb0, hstb0, htext0, hthink0, htools0, hopen0⟩,
       hwf0, hst0⟩⟩
  | cons choice tail =>
    dsimp only
    rcases contentStep_ok choice.delta.content (startStep parsed s).1 c0
      hsim0 hwf0 hst0 with ⟨cA, hchkA, hsimA, hwfA, hstA⟩
    have hstA' : (contentStep choice.delta.content
        (startStep parsed s).1).1.started = true := by
      rw [hstA]; exact hst0
    rcases reasoningStep_ok choice.delta.reasoning_content
      (contentStep choice.delta.content (startStep parsed s).1).1 cA
      hsimA hwfA hstA' with ⟨cB, hchkB, hsimB, hwfB, hstB⟩
    have hstB' : (reasoningStep choice.delta.reasoning_content
        (contentStep choice.delta.content (startStep parsed s).1).1).1.started =
        true := by
      rw [hstB]; exact hstA'
    rcases toolStep_ok choice.delta.tool_calls
      (reasoningStep choice.delta.reasoning_content
        (contentStep choice.delta.content (startStep parsed s).1).1).1 cB
      hsimB hwfB hstB' with ⟨cC, hchkC, hsimC, hwfC, hstC⟩
    have hstC' : (toolStep choice.delta.tool_calls
        (reasoningStep choice.delta.reasoning_content
          (contentStep choice.delta.content (startStep parsed s).1).1).1).1.started =
        true := by
      rw [hstC]; exact hstB'
    cases hfr : choice.finish_reason with
    | none =>
      dsimp only
      obtain ⟨hfinC, hsawC, hsbC, hstbC, htextC, hthinkC, htoolsC, hopenC⟩ :=
        hsimC
      exact ⟨cC,
        check_append_ok (check_append_ok (check_append_ok hchk0 hchkA) hchkB)
          hchkC,
        hfinC, fun _ =>
        ⟨⟨hfinC, hsawC, hsbC, hstbC, htextC, hthinkC, htoolsC, hopenC⟩,
         hwfC, hstC'⟩⟩
    | some finish =>
      dsimp only
      rcases flush_ok (toolStep choice.delta.tool_calls
        (reasoningStep choice.delta.reasoning_content
          (contentStep choice.delta.content (startStep parsed s).1).1).1).1 cC
        hsimC hwfC hstC' with ⟨cD, hchkD, hfinD, hsawD, hsuccD⟩
      cases herr : (flush_open_blocks (toolStep choice.delta.tool_calls
        (reasoningStep choice.delta.reasoning_content
          (contentStep choice.delta.content
            (startStep parsed s).1).1).1).1).2.2 with
      | some e =>
        exact ⟨cD,
          check_append_ok (check_append_ok (check_append_ok
            (check_append_ok hchk0 hchkA) hchkB) hchkC) hchkD,
          hfinD, fun h => Option.noConfusion h⟩
      | none =>
        rcases hsuccD herr with ⟨hsimD, hwfD, hstD, _⟩
        refine ⟨cD,
          check_append_ok (check_append_ok (check_append_ok (check_append_ok
            (check_append_ok hchk0 hchkA) hchkB) hchkC) hchkD)
            (check_message_delta cD _ hfinD hsawD),
          hfinD, fun _ => ⟨hsimD, hwfD, ?_⟩⟩
        rw [hstD]
        exact hstC'

/-- The whole event loop produces a scanner-accepted event sequence. -/
theorem processItems_ok (items : List StreamItem) (s : StreamState)
    (c : CheckSt) (hsim : Sim s c) (hwf : WFStream s)
    (hinit : s.started = true ∨ (s = initStreamState ∧ c = CheckSt.init)) :
    (checkEventsFrom c (processItems items s)).isSome = true := by
  induction items generalizing s c with
  | nil => rfl
  | cons item rest ih =>
    obtain ⟨hfin, hsaw, hsb, hstb, htext, hthink, htools, hopen⟩ := hsim
    cases item with
    | ioError d =>
      simp only [processItems]
      rw [check_error c _ hfin]
      rfl
    | badJson d =>
      simp only [processItems]
      rw [check_error c _ hfin]
      rfl
    | done =>
      rcases hinit with hstart | ⟨rfl, rfl⟩
      · rcases flush_ok s c
          ⟨hfin, hsaw, hsb, hstb, htext, hthink, htools, hopen⟩ hwf hstart with
          ⟨cD, hchkD, hfinD, hsawD, hsuccD⟩
        simp only [processItems]
        cases herr : (flush_open_blocks s).2.2 with
        | some e =>
          rw [check_append_ok hchkD (check_error cD e hfinD)]
          rfl
        | none =>
          rcases hsuccD herr with ⟨_, _, _, hsubD⟩
          rw [check_append_ok hchkD (check_message_stop cD hfinD hsubD)]
          rfl
      · rfl
    | chunk ch =>
      rcases handle_ok ch s c
        ⟨hfin, hsaw, hsb, hstb, htext, hthink, htools, hopen⟩ hwf with
        ⟨c1, hchk1, hfin1, hsucc1⟩
      simp only [processItems]
      cases herr : (handle_openai_chunk ch s).2.2 with
      | some e =>
        rw [check_append_ok hchk1 (check_error c1 e hfin1)]
        rfl
      | none =>
        rcases hsucc1 herr with ⟨hsim1, hwf1, hst1⟩
        rw [checkEventsFrom_append, hchk1]
        dsimp only
        exact ih (handle_openai_chunk ch s).1 c1 hsim1 hwf1 (Or.inl hst1)

/-- Whole-stream scanner acceptance, from the initial states. -/
theorem streamEvents_check_isSome (items : List StreamItem) :
    (checkEventsFrom CheckSt.init (streamEvents items)).isSome = true := by
  have hsim : Sim initStreamState CheckSt.init :=
    ⟨rfl, rfl, fun i h => absurd h (List.not_mem_nil i),
     fun i h => absurd h (List.not_mem_nil i),
     fun i h => Option.noConfusion h, fun i h => Option.noConfusion h,
     fun p hp => absurd hp (List.not_mem_nil p),
     fun i h => absurd h (List.not_mem_nil i)⟩
  have hwf : WFStream initStreamState :=
    ⟨List.nodup_nil, fun i h => absurd h (List.not_mem_nil i), List.nodup_nil⟩
  exact processItems_ok items initStreamState CheckSt.init hsim hwf
    (Or.inr ⟨rfl, rfl⟩)

theorem checkStep_mono (c : CheckSt) (e : Event) (c1 : CheckSt)
    (h : checkStep c e = some c1) :
    (∀ i ∈ c.startedIdx, i ∈ c1.startedIdx) ∧
    (∀ i ∈ c.stoppedIdx, i ∈ c1.stoppedIdx) := by
  unfold checkStep at h
  split at h
  · exact Option.noConfusion h
  · cases e with
    | message_start id =>
      dsimp only at h
      split at h
      · exact Option.noConfusion h
      · injection h with h2
        subst h2
        exact ⟨fun i hi => hi, fun i hi => hi⟩
    | content_block_start i b =>
      dsimp only at h
      split at h
      · injection h with h2
        subst h2
        exact ⟨fun j hj => List.mem_cons_of_mem _ hj, fun j hj => hj⟩
      · exact Option.noConfusion h
    | content_block_delta i d =>
      dsimp only at h
      split at h
      · injection h with h2
        subst h2
        exact ⟨fun j hj => hj, fun j hj => hj⟩
      · exact Option.noConfusion h
    | content_block_stop i =>
      dsimp only at h
      split at h
      · injection h with h2
        subst h2
        exact ⟨fun j hj => hj, fun j hj => List.mem_cons_of_mem _ hj⟩
      · exact Option.noConfusion h
    | message_delta r =>
      dsimp only at h
      split at h
      · injection h with h2
        subst h2
        exact ⟨fun j hj => hj, fun j hj => hj⟩
      · exact Option.noConfusion h
    | message_stop =>
      dsimp only at h
      split at h
      · injection h with h2
        subst h2
        exact ⟨fun j hj => hj, fun j hj => hj⟩
      · exact Option.noConfusion h
    | errorEvent e2 =>
      dsimp only at h
      injection h with h2
      subst h2
      exact ⟨fun j hj => hj, fun j hj => hj⟩

theorem check_mono (evs : List Event) (c c' : CheckSt)
    (h : checkEventsFrom c evs = some c') :
    (∀ i ∈ c.startedIdx, i ∈ c'.startedIdx) ∧
    (∀ i ∈ c.stoppedIdx, i ∈ c'.stoppedIdx) := by
  induction evs generalizing c with
  | nil =>
    injection h with h2
    subst h2
    exact ⟨fun i hi => hi, fun i hi => hi⟩
  | cons e rest ih =>
    unfold checkEventsFrom at h
    cases hstep : checkStep c e with
    | none => rw [hstep] at h; exact Option.noConfusion h
    | some c1 =>
      rw [hstep] at h
      dsimp only at h
      have h1 := checkStep_mono c e c1 hstep
      have h2 := ih c1 h
      exact ⟨fun i hi => h2.1 i (h1.1 i hi), fun i hi => h2.2 i (h1.2 i hi)⟩

theorem check_countStarts (evs : List Event) (c c' : CheckSt)
    (h : checkEventsFrom c evs = some c') (i : Nat) :
    countStarts i evs =
      if i ∈ c'.startedIdx ∧ i ∉ c.startedIdx then 1 else 0 := by
  induction evs generalizing c with
  | nil =>
    injection h with h2
    subst h2
    rw [if_neg]
    · rfl
    · rintro ⟨h1, h2⟩
      exact h2 h1
  | cons e rest ih =>
    unfold checkEventsFrom at h
    cases hstep : checkStep c e with
    | none => rw [hstep] at h; exact Option.noConfusion h
    | some c1 =>
      rw [hstep] at h
      dsimp only at h
      have hmono := check_mono rest c1 c' h
      have hrest := ih c1 h
      unfold checkStep at hstep
      split at hstep
      · exact Option.noConfusion hstep
      · cases e with
        | content_block_start j b =>
          dsimp only at hstep
          split at hstep
          · rename_i hcond
            injection hstep with h2
            subst h2
            have hcnt : countStarts i (Event.content_block_start j b :: rest) =
                countStarts i rest + (if j = i then 1 else 0) := by
              simp [countStarts, List.countP_cons]
            by_cases hji : j = i
            · subst hji
              have h0 : countStarts j rest = 0 := by
                rw [hrest, if_neg]
                rintro ⟨_, hni⟩
                exact hni (List.mem_cons_self _ _)
              rw [hcnt, h0, if_pos rfl,
                if_pos ⟨hmono.1 j (List.mem_cons_self _ _), hcond.2⟩]
            · have hiff : (i ∈ c'.startedIdx ∧
                  i ∉ ({ c with startedIdx := j :: c.startedIdx } :
                    CheckSt).startedIdx) ↔
                  (i ∈ c'.startedIdx ∧ i ∉ c.startedIdx) := by
                refine and_congr_right fun _ => not_congr ?_
                refine ⟨fun h3 => ?_, List.mem_cons_of_mem _⟩
                rcases List.mem_cons.mp h3 with h4 | h4
                · exact absurd h4.symm hji
                · exact h4
              rw [hcnt, if_neg hji, Nat.add_zero, hrest,
                if_congr hiff rfl rfl]
          · exact Option.noConfusion hstep
        | message_start id =>
          dsimp only at hstep
          split at hstep
          · exact Option.noConfusion hstep
          · injection hstep with h2
            subst h2
            have hcnt : countStarts i (Event.message_start id :: rest) =
                countStarts i rest := by
              simp [countStarts, List.countP_cons]
            rw [hcnt]
            exact hrest
        | content_block_delta j d =>
          dsimp only at hstep
          split at hstep
          · injection hstep with h2
            subst h2
            have hcnt : countStarts i (Event.content_block_delta j d :: rest) =
                countStarts i rest := by
              simp [countStarts, List.countP_cons]
            rw [hcnt]
            exact hrest
          · exact Option.noConfusion hstep
        | content_block_stop j =>
          dsimp only at hstep
          split at hstep
          · injection hstep with h2
            subst h2
            have hcnt : countStarts i (Event.content_block_stop j :: rest) =
                countStarts i rest := by
              simp [countStarts, List.countP_cons]
            rw [hcnt]
            exact hrest
          · exact Option.noConfusion hstep
        | message_delta r =>
          dsimp only at hstep
          split at hstep
          · injection hstep with h2
            subst h2
            have hcnt : countStarts i (Event.message_delta r :: rest) =
                countStarts i rest := by
              simp [countStarts, List.countP_cons]
            rw [hcnt]
            exact hrest
          · exact Option.noConfusion hstep
        | message_stop =>
          dsimp only at hstep
          split at hstep
          · injection hstep with h2
            subst h2
            have hcnt : countStarts i (Event.message_stop :: rest) =
                countStarts i rest := by
              simp [countStarts, List.countP_cons]
            rw [hcnt]
            exact hrest
          · exact Option.noConfusion hstep
        | errorEvent e2 =>
          dsimp only at hstep
          injection hstep with h2
          subst h2
          have hcnt : countStarts i (Event.errorEvent e2 :: rest) =
              countStarts i rest := by
            simp [countStarts, List.countP_cons]
          rw [hcnt]
          exact hrest

theorem check_countStops (evs : List Event) (c c' : CheckSt)
    (h : checkEventsFrom c evs = some c') (i : Nat) :
    countStops i evs =
      if i ∈ c'.stoppedIdx ∧ i ∉ c.stoppedIdx then 1 else 0 := by
  induction evs generalizing c with
  | nil =>
    injection h with h2
    subst h2
    rw [if_neg]
    · rfl
    · rintro ⟨h1, h2⟩
      exact h2 h1
  | cons e rest ih =>
    unfold checkEventsFrom at h
    cases hstep : checkStep c e with
    | none => rw [hstep] at h; exact Option.noConfusion h
    | some c1 =>
      rw [hstep] at h
      dsimp only at h
      have hmono := check_mono rest c1 c' h
      have hrest := ih c1 h
      unfold checkStep at hstep
      split at hstep
      · exact Option.noConfusion hstep
      · cases e with
        | content_block_stop j =>
          dsimp only at hstep
          split at hstep
          · rename_i hcond
            injection hstep with h2
            subst h2
            have hcnt : countStops i (Event.content_block_stop j :: rest) =
                countStops i rest + (if j = i then 1 else 0) := by
              simp [countStops, List.countP_cons]
            by_cases hji : j = i
            · subst hji
              have h0 : countStops j rest = 0 := by
                rw [hrest, if_neg]
                rintro ⟨_, hni⟩
                exact hni (List.mem_cons_self _ _)
              rw [hcnt, h0, if_pos rfl,
                if_pos ⟨hmono.2 j (List.mem_cons_self _ _), hcond.2⟩]
            · have hiff : (i ∈ c'.stoppedIdx ∧
                  i ∉ ({ c with stoppedIdx := j :: c.stoppedIdx } :
                    CheckSt).stoppedIdx) ↔
                  (i ∈ c'.stoppedIdx ∧ i ∉ c.stoppedIdx) := by
                refine and_congr_right fun _ => not_congr ?_
                refine ⟨fun h3 => ?_, List.mem_cons_of_mem _⟩
                rcases List.mem_cons.mp h3 with h4 | h4
                · exact absurd h4.symm hji
                · exact h4
              rw [hcnt, if_neg hji, Nat.add_zero, hrest,
                if_congr hiff rfl rfl]
          · exact Option.noConfusion hstep
        | message_start id =>
          dsimp only at hstep
          split at hstep
          · exact Option.noConfusion hstep
          · injection hstep with h2
            subst h2
            have hcnt : countStops i (Event.message_start id :: rest) =
                countStops i rest := by
              simp [countStops, List.countP_cons]
            rw [hcnt]
            exact hrest
        | content_block_start j b =>
          dsimp only at hstep
          split at hstep
          · injection hstep with h2
            subst h2
            have hcnt : countStops i (Event.content_block_start j b :: rest) =
                countStops i rest := by
              simp [countStops, List.countP_cons]
            rw [hcnt]
            exact hrest
          · exact Option.noConfusion hstep
        | content_block_delta j d =>
          dsimp only at hstep
          split at hstep
          · injection hstep with h2
            subst h2
            have hcnt : countStops i (Event.content_block_delta j d :: rest) =
                countStops i rest := by
              simp [countStops, List.countP_cons]
            rw [hcnt]
            exact hrest
          · exact Option.noConfusion hstep
        | message_delta r =>
          dsimp only at hstep
          split at hstep
          · injection hstep with h2
            subst h2
            have hcnt : countStops i (Event.message_delta r :: rest) =
                countStops i rest := by
              simp [countStops, List.countP_cons]
            rw [hcnt]
            exact hrest
          · exact Option.noConfusion hstep
        | message_stop =>
          dsimp only at hstep
          split at hstep
          · injection hstep with h2
            subst h2
            have hcnt : countStops i (Event.message_stop :: rest) =
                countStops i rest := by
              simp [countStops, List.countP_cons]
            rw [hcnt]
            exact hrest
          · exact Option.noConfusion hstep
        | errorEvent e2 =>
          dsimp only at hstep
          injection hstep with h2
          subst h2
          have hcnt : countStops i (Event.errorEvent e2 :: rest) =
              countStops i rest := by
            simp [countStops, List.countP_cons]
          rw [hcnt]
          exact hrest

theorem check_last_mstop (evs : List Event) (c c' : CheckSt)
    (h : checkEventsFrom c evs = some c')
    (hlast : evs.getLast? = some Event.message_stop) :
    ∀ i ∈ c'.startedIdx, i ∈ c'.stoppedIdx := by
  induction evs generalizing c with
  | nil => exact Option.noConfusion hlast
  | cons e rest ih =>
    unfold checkEventsFrom at h
    cases hstep : checkStep c e with
    | none => rw [hstep] at h; exact Option.noConfusion h
    | some c1 =>
      rw [hstep] at h
      dsimp only at h
      cases hr : rest with
      | nil =>
        subst hr
        injection h with h2
        subst h2
        have he : e = Event.message_stop := by
          have h3 : [e].getLast? = some e := rfl
          rw [h3] at hlast
          exact (Option.some.inj hlast)
        subst he
        unfold checkStep at hstep
        split at hstep
        · exact Option.noConfusion hstep
        · dsimp only at hstep
          split at hstep
          · rename_i hcond
            injection hstep with h2
            subst h2
            exact hcond
          · exact Option.noConfusion hstep
      | cons e2 rest2 =>
        subst hr
        rw [List.getLast?_cons_cons] at hlast
        exact ih c1 h hlast

/-- Counterexample to claim C1 as stated: the stream that sends text
content and reasoning content in one chunk produces an event sequence
that neither matches the claimed grammar
`message_start (content_block_start content_block_delta* content_block_stop)*
message_delta? message_stop` (the text and thinking blocks are opened
before either is stopped, interleaving their events) nor ends with a
terminal error event. -/
theorem C1_counterexample :
    matchesClaimGrammar (streamEvents
      [StreamItem.chunk exMixedChunk, StreamItem.done]) = false ∧
    endsWithError (streamEvents
      [StreamItem.chunk exMixedChunk, StreamItem.done]) = false := by
  exact ⟨rfl, rfl⟩

/-- C1 (amended): for every finite upstream stream, the downstream event
sequence satisfies the block discipline: nothing follows a terminal
event (`message_stop` or `error`); `message_start` is emitted at most
once and precedes every `content_block_*` and `message_delta` event;
each index gets at most one `content_block_start`; every
`content_block_delta` refers to an index started earlier; each index
gets at most one `content_block_stop`; and `message_stop` is emitted
only when every started index has been stopped.  The original claim's
grammar (blocks strictly sequential, a single optional `message_delta`
directly before `message_stop`) does not hold — blocks interleave, a
never-started tool block can receive a bare `content_block_stop`, and a
bare `[DONE]` yields `message_stop` with no `message_start`. -/
theorem C1_stream_event_discipline (items : List StreamItem) :
    wellFormedEvents (streamEvents items) = true :=
  streamEvents_check_isSome items

/-- Counterexample to claim C2 as stated: a started tool-use block with
empty accumulated arguments and a finish reason in the same chunk
reaches completion on the terminal-error path, yet the started block
index 0 never receives a `content_block_stop`. -/
theorem C2_counterexample :
    endsWithError (streamEvents [StreamItem.chunk exEmptyToolChunk]) = true ∧
    countStarts 0 (streamEvents [StreamItem.chunk exEmptyToolChunk]) = 1 ∧
    countStops 0 (streamEvents [StreamItem.chunk exEmptyToolChunk]) = 0 := by
  exact ⟨rfl, rfl, rfl⟩

/-- C2 (amended): for every stream whose downstream sequence ends with
`message_stop` (the non-error completion), every content block index is
started at most once and stopped at most once, and every started block
is stopped exactly once.  On terminal-error paths the original claim
fails: a flush abort skips `content_block_stop` for blocks of the
offending and the remaining tool sub-states. -/
theorem C2_every_started_block_stopped_once (items : List StreamItem)
    (i : Nat)
    (hlast : (streamEvents items).getLast? = some Event.message_stop) :
    countStarts i (streamEvents items) ≤ 1 ∧
    countStops i (streamEvents items) ≤ 1 ∧
    (countStarts i (streamEvents items) = 1 →
      countStops i (streamEvents items) = 1) := by
  have hws := streamEvents_check_isSome items
  obtain ⟨c', hc'⟩ := Option.isSome_iff_exists.mp hws
  have hstarts := check_countStarts _ CheckSt.init c' hc' i
  have hstops := check_countStops _ CheckSt.init c' hc' i
  have hsub := check_last_mstop _ CheckSt.init c' hc' hlast
  have hs1 : countStarts i (streamEvents items) =
      if i ∈ c'.startedIdx then 1 else 0 := by
    rw [hstarts]
    refine if_congr ?_ rfl rfl
    constructor
    · exact fun h => h.1
    · exact fun h => ⟨h, fun hx => absurd hx (List.not_mem_nil i)⟩
  have hs2 : countStops i (streamEvents items) =
      if i ∈ c'.stoppedIdx then 1 else 0 := by
    rw [hstops]
    refine if_congr ?_ rfl rfl
    constructor
    · exact fun h => h.1
    · exact fun h => ⟨h, fun hx => absurd hx (List.not_mem_nil i)⟩
  refine ⟨?_, ?_, ?_⟩
  · rw [hs1]
    split
    · exact Nat.le_refl 1
    · exact Nat.zero_le 1
  · rw [hs2]
    split
    · exact Nat.le_refl 1
    · exact Nat.zero_le 1
  · intro h1
    rw [hs1] at h1
    rw [hs2]
    by_cases hi : i ∈ c'.startedIdx
    · rw [if_pos (hsub i hi)]
    · rw [if_neg hi] at h1
      exact absurd h1.symm Nat.one_ne_zero

/-- Witness for the amended C2 on a concrete stream: one text chunk then
`[DONE]`; the sequence ends with `message_stop` and block 0 is started
and stopped exactly once. -/
theorem C2_every_started_block_stopped_once_witness :
    (streamEvents [StreamItem.chunk (exChunk (exTextDelta "Hi") none),
      StreamItem.done]).getLast? = some Event.message_stop ∧
    (countStarts 0 (streamEvents
        [StreamItem.chunk (exChunk (exTextDelta "Hi") none),
         StreamItem.done]) ≤ 1 ∧
     countStops 0 (streamEvents
        [StreamItem.chunk (exChunk (exTextDelta "Hi") none),
         StreamItem.done]) ≤ 1 ∧
     (countStarts 0 (streamEvents
        [StreamItem.chunk (exChunk (exTextDelta "Hi") none),
         StreamItem.done]) = 1 →
      countStops 0 (streamEvents
        [StreamItem.chunk (exChunk (exTextDelta "Hi") none),
         StreamItem.done]) = 1)) :=
  ⟨rfl, C2_every_started_block_stopped_once
    [StreamItem.chunk (exChunk (exTextDelta "Hi") none), StreamItem.done]
    0 rfl⟩

theorem countMessageDeltas_append (a b : List Event) :
    countMessageDeltas (a ++ b) =
      countMessageDeltas a + countMessageDeltas b := by
  unfold countMessageDeltas
  rw [List.countP_append]

theorem ensure_text_mdeltas (s : StreamState) :
    countMessageDeltas (ensure_text_block s).2.2 = 0 := by
  unfold ensure_text_block
  cases s.text_block_index <;> rfl

theorem ensure_think_mdeltas (s : StreamState) :
    countMessageDeltas (ensure_thinking_block s).2.2 = 0 := by
  unfold ensure_thinking_block
  cases s.thinking_block_index <;> rfl

theorem startStep_mdeltas (parsed : OpenAIStreamChunk) (s : StreamState) :
    countMessageDeltas (startStep parsed s).2 = 0 := by
  unfold startStep
  split <;> rfl

theorem contentStep_mdeltas (content : Option String) (s : StreamState) :
    countMessageDeltas (contentStep content s).2 = 0 := by
  unfold contentStep
  cases content with
  | none => rfl
  | some d =>
    dsimp only
    split
    · rw [countMessageDeltas_append, ensure_text_mdeltas]
      rfl
    · rfl

theorem reasoningStep_mdeltas (rc : Option ReasoningValue) (s : StreamState) :
    countMessageDeltas (reasoningStep rc s).2 = 0 := by
  unfold reasoningStep
  cases rc with
  | none => rfl
  | some rv =>
    cases rv with
    | objBad => rfl
    | otherKind => rfl
    | str th =>
      dsimp only
      rw [countMessageDeltas_append, ensure_think_mdeltas]
      rfl
    | objOk thinking signature =>
      dsimp only
      cases thinking <;> cases signature <;>
        simp only [countMessageDeltas_append, ensure_think_mdeltas] <;> rfl

theorem toolEntry_mdeltas (e : ToolCallState) (call : OpenAIToolCallDelta) :
    countMessageDeltas (toolEntryStep e call).2 = 0 := by
  rcases toolEntryStep_shape e call with ⟨_, _, h | h | h⟩
  · unfold countMessageDeltas
    rw [List.countP_eq_zero]
    intro ev hev
    rcases h.2.2 ev hev with ⟨d, rfl⟩
    simp
  · rw [h.2.2]
    rfl
  · rcases h.2.2 with ⟨b, rest, hev, hrest⟩
    rw [hev]
    unfold countMessageDeltas
    rw [List.countP_cons]
    have h0 : List.countP (fun ev =>
        match ev with
        | Event.message_delta _ => true
        | _ => false) rest = 0 := by
      rw [List.countP_eq_zero]
      intro ev hev2
      rcases hrest ev hev2 with ⟨d, rfl⟩
      simp
    rw [h0]
    rfl

theorem apply_mdeltas (s : StreamState) (call : OpenAIToolCallDelta) :
    countMessageDeltas (apply_tool_call_delta s call).2 = 0 := by
  cases hfind : findTool s.tool_calls call.index with
  | some e =>
    rw [apply_eq_of_found s call e hfind]
    exact toolEntry_mdeltas e call
  | none =>
    rw [apply_eq_of_fresh s call hfind]
    exact toolEntry_mdeltas _ call

theorem toolLoop_mdeltas (calls : List OpenAIToolCallDelta) (s : StreamState) :
    countMessageDeltas (toolCallLoop s calls).2 = 0 := by
  induction calls generalizing s with
  | nil => rfl
  | cons call rest ih =>
    rw [toolCallLoop_cons]
    dsimp only
    rw [countMessageDeltas_append, apply_mdeltas, ih]

theorem toolStep_mdeltas (tcs : Option (List OpenAIToolCallDelta))
    (s : StreamState) :
    countMessageDeltas (toolStep tcs s).2 = 0 := by
  unfold toolStep
  cases tcs with
  | none => rfl
  | some calls => exact toolLoop_mdeltas calls s

theorem textFlush_mdeltas (s : StreamState) :
    countMessageDeltas (textFlush s).2 = 0 := by
  unfold textFlush
  cases s.text_block_index <;> rfl

theorem thinkFlush_mdeltas (s : StreamState) :
    countMessageDeltas (thinkFlush s).2 = 0 := by
  unfold thinkFlush
  cases s.thinking_block_index <;> rfl

theorem flushTools_mdeltas (tc : List (Nat × ToolCallState)) :
    countMessageDeltas (flushTools tc).2.1 = 0 := by
  induction tc with
  | nil => rfl
  | cons hd rest ih =>
    obtain ⟨k, t⟩ := hd
    by_cases h1 : (t.started : Prop) ∧ t.arguments = ""
    · simp only [flushTools]
      rw [if_pos h1]
      rfl
    · by_cases h2 : (t.started : Prop) ∧ ¬(jsonValid t.arguments : Prop)
      · simp only [flushTools]
        rw [if_neg h1, if_pos h2]
        rfl
      · simp only [flushTools]
        rw [if_neg h1, if_neg h2]
        dsimp only
        rw [countMessageDeltas_append, ih]
        split <;> rfl

theorem textFlush_tool_calls (s : StreamState) :
    (textFlush s).1.tool_calls = s.tool_calls := by
  unfold textFlush
  cases s.text_block_index <;> rfl

theorem thinkFlush_tool_calls (s : StreamState) :
    (thinkFlush s).1.tool_calls = s.tool_calls := by
  unfold thinkFlush
  cases s.thinking_block_index <;> rfl

/-- The flush tool loop fails exactly on the first offending sub-state
in iteration order, with that sub-state's message. -/
theorem flushTools_err (tc : List (Nat × ToolCallState)) :
    (flushTools tc).2.2 =
      Option.map (fun t => AppError.invalid_request (offenderMessage t))
        (firstOffender tc) := by
  induction tc with
  | nil => rfl
  | cons hd rest ih =>
    obtain ⟨k, t⟩ := hd
    by_cases h1 : (t.started : Prop) ∧ t.arguments = ""
    · simp only [flushTools]
      rw [if_pos h1]
      have hoff : toolOffends t = true := by
        simp [toolOffends, h1.1, h1.2]
      have hoff2 : (fun q : Nat × ToolCallState => toolOffends q.2) (k, t) =
        true := hoff
      unfold firstOffender
      rw [List.find?_cons_of_pos
        (p := fun q : Nat × ToolCallState => toolOffends q.2) rest hoff2]
      simp [offenderMessage, h1.2]
    · by_cases h2 : (t.started : Prop) ∧ ¬(jsonValid t.arguments : Prop)
      · simp only [flushTools]
        rw [if_neg h1, if_pos h2]
        have hjv : jsonValid t.arguments = false := by
          cases hj : jsonValid t.arguments
          · rfl
          · exact absurd hj h2.2
        have hoff : toolOffends t = true := by
          simp [toolOffends, h2.1, hjv]
        have hoff2 : (fun q : Nat × ToolCallState => toolOffends q.2) (k, t) =
          true := hoff
        unfold firstOffender
        rw [List.find?_cons_of_pos
          (p := fun q : Nat × ToolCallState => toolOffends q.2) rest hoff2]
        have hargs : ¬(t.arguments = "") := fun he => h1 ⟨h2.1, he⟩
        simp [offenderMessage, hargs]
      · simp only [flushTools]
        rw [if_neg h1, if_neg h2]
        dsimp only
        have hoff : toolOffends t = false := by
          cases hst : t.started
          · simp [toolOffends, hst]
          · have hargs : ¬(t.arguments = "") := fun he => h1 ⟨hst, he⟩
            have hjv : jsonValid t.arguments = true := by
              cases hj : jsonValid t.arguments
              · exact absurd ⟨hst, fun hc => by rw [hj] at hc; cases hc⟩ h2
              · rfl
            simp [toolOffends, hst, hargs, hjv]
        have hoff2 : ¬((fun q : Nat × ToolCallState => toolOffends q.2) (k, t) =
          true) := by simp [hoff]
        unfold firstOffender
        rw [List.find?_cons_of_neg
          (p := fun q : Nat × ToolCallState => toolOffends q.2) rest hoff2]
        exact ih

/-- A chunk with no finish reason never reports an error and never emits
`message_delta`. -/
theorem handle_noFinish (ch : OpenAIStreamChunk) (s : StreamState)
    (h : noFinish ch = true) :
    (handle_openai_chunk ch s).2.2 = none ∧
    countMessageDeltas (handle_openai_chunk ch s).2.1 = 0 := by
  unfold handle_openai_chunk
  cases hch : ch.choices with
  | nil =>
    dsimp only
    exact ⟨rfl, startStep_mdeltas ch s⟩
  | cons choice tail =>
    dsimp only
    have hfr : choice.finish_reason = none := by
      unfold noFinish at h
      rw [hch] at h
      dsimp only at h
      exact Option.isNone_iff_eq_none.mp h
    rw [hfr]
    dsimp only
    refine ⟨rfl, ?_⟩
    rw [countMessageDeltas_append, countMessageDeltas_append,
      countMessageDeltas_append, startStep_mdeltas, contentStep_mdeltas,
      reasoningStep_mdeltas, toolStep_mdeltas]

/-- Finish-free chunks contribute only message-delta-free events, and the
state at the remaining items is `runChunks`. -/
theorem processItems_noFinish (cs : List OpenAIStreamChunk) (s : StreamState)
    (rest : List StreamItem)
    (h : ∀ ch ∈ cs, noFinish ch = true) :
    ∃ evs, processItems (cs.map StreamItem.chunk ++ rest) s =
      evs ++ processItems rest (runChunks cs s) ∧
      countMessageDeltas evs = 0 := by
  induction cs generalizing s with
  | nil =>
    refine ⟨[], ?_, rfl⟩
    rw [List.map_nil, List.nil_append]
    rfl
  | cons ch rest ih =>
    rcases handle_noFinish ch s (h ch (List.mem_cons_self _ _)) with
      ⟨herr, hcnt⟩
    rcases ih (handle_openai_chunk ch s).1
      (fun c2 hc => h c2 (List.mem_cons_of_mem _ hc)) with ⟨evs', heq', hcnt'⟩
    refine ⟨(handle_openai_chunk ch s).2.1 ++ evs', ?_, ?_⟩
    · rw [List.map_cons, List.cons_append]
      simp only [processItems]
      rw [herr]
      dsimp only
      rw [heq', List.append_assoc]
      rfl
    · rw [countMessageDeltas_append, hcnt, hcnt']

/-- The events of a flush contain no `message_delta`. -/
theorem flush_mdeltas (s : StreamState) :
    countMessageDeltas (flush_open_blocks s).2.1 = 0 := by
  show countMessageDeltas ((textFlush s).2 ++
    (thinkFlush (textFlush s).1).2 ++
    (flushTools (thinkFlush (textFlush s).1).1.tool_calls).2.1) = 0
  rw [countMessageDeltas_append, countMessageDeltas_append,
    textFlush_mdeltas, thinkFlush_mdeltas, flushTools_mdeltas]

/-- The delta phases of a chunk contribute no `message_delta`. -/
theorem handleDeltas_mdeltas (parsed : OpenAIStreamChunk)
    (choice : OpenAIStreamChoice) (s : StreamState) :
    countMessageDeltas (handleDeltas parsed choice s).2 = 0 := by
  unfold handleDeltas
  dsimp only
  rw [countMessageDeltas_append, countMessageDeltas_append,
    countMessageDeltas_append, startStep_mdeltas, contentStep_mdeltas,
    reasoningStep_mdeltas, toolStep_mdeltas]

/-- A chunk carrying a finish reason whose flush meets an offending tool
sub-state fails with the first offender's message; the chunk's events are
its delta events followed by the flush's `content_block_stop`s, none of
them a `message_delta`. -/
theorem handle_finish_err (parsed : OpenAIStreamChunk)
    (choice : OpenAIStreamChoice) (tail : List OpenAIStreamChoice)
    (f : String) (s : StreamState) (t : ToolCallState)
    (hch : parsed.choices = choice :: tail)
    (hfr : choice.finish_reason = some f)
    (hoff : firstOffender (handleDeltas parsed choice s).1.tool_calls =
      some t) :
    (handle_openai_chunk parsed s).2.2 =
      some (AppError.invalid_request (offenderMessage t)) ∧
    (handle_openai_chunk parsed s).2.1 =
      (handleDeltas parsed choice s).2 ++
        (flush_open_blocks (handleDeltas parsed choice s).1).2.1 ∧
    countMessageDeltas (handle_openai_chunk parsed s).2.1 = 0 := by
  have herr : (flush_open_blocks (handleDeltas parsed choice s).1).2.2 =
      some (AppError.invalid_request (offenderMessage t)) := by
    show (flushTools (thinkFlush (textFlush
      (handleDeltas parsed choice s).1).1).1.tool_calls).2.2 = _
    rw [thinkFlush_tool_calls, textFlush_tool_calls, flushTools_err, hoff]
    rfl
  have hdm := handleDeltas_mdeltas parsed choice s
  have hfm := flush_mdeltas (handleDeltas parsed choice s).1
  unfold handleDeltas at herr hfm
  dsimp only at herr hfm
  unfold handle_openai_chunk
  rw [hch]
  dsimp only
  rw [hfr]
  dsimp only
  rw [herr]
  dsimp only
  refine ⟨rfl, ?_, ?_⟩
  · unfold handleDeltas
    dsimp only
  · rw [countMessageDeltas_append, countMessageDeltas_append,
      countMessageDeltas_append, countMessageDeltas_append,
      startStep_mdeltas, contentStep_mdeltas, reasoningStep_mdeltas,
      toolStep_mdeltas, hfm]

/-- The `[DONE]` flush on a state with an offending tool sub-state emits
only `content_block_stop`s and a terminal error event carrying the first
offender's message. -/
theorem processItems_done_offender (s : StreamState) (t : ToolCallState)
    (hoff : firstOffender s.tool_calls = some t) :
    processItems [StreamItem.done] s =
      (flush_open_blocks s).2.1 ++
        [Event.errorEvent (AppError.invalid_request (offenderMessage t))] ∧
    countMessageDeltas (flush_open_blocks s).2.1 = 0 := by
  have htc : (thinkFlush (textFlush s).1).1.tool_calls = s.tool_calls := by
    rw [thinkFlush_tool_calls, textFlush_tool_calls]
  have herr : (flush_open_blocks s).2.2 =
      some (AppError.invalid_request (offenderMessage t)) := by
    show (flushTools (thinkFlush (textFlush s).1).1.tool_calls).2.2 = _
    rw [htc, flushTools_err, hoff]
    rfl
  constructor
  · simp only [processItems]
    rw [herr]
  · show countMessageDeltas ((textFlush s).2 ++
      (thinkFlush (textFlush s).1).2 ++
      (flushTools (thinkFlush (textFlush s).1).1.tool_calls).2.1) = 0
    rw [countMessageDeltas_append, countMessageDeltas_append,
      textFlush_mdeltas, thinkFlush_mdeltas, flushTools_mdeltas]

/-- Counterexample to claim C4 as stated: after an early finish-reason
chunk (which emits `message_delta`) and a chunk starting two tool calls —
the first with non-JSON arguments `"x"`, the second with empty
arguments — the `[DONE]` flush fails with the FIRST offender's message
`"tool_use arguments invalid json"` even though a started sub-state with
empty arguments exists (the claim promises `"tool_use arguments empty"`
in that case), and a `message_delta` HAS been emitted (the claim promises
none). -/
theorem C4_counterexample :
    ((runChunks [exFinishChunk "stop", exTwoToolsChunk]
        initStreamState).tool_calls.any
      (fun p => p.2.started && p.2.arguments == "")) = true ∧
    (streamEvents exC4Items).getLast? =
      some (Event.errorEvent
        (AppError.invalid_request "tool_use arguments invalid json")) ∧
    countMessageDeltas (streamEvents exC4Items) = 1 := by
  exact ⟨rfl, rfl, rfl⟩

/-- C4 (amended): when the first failing flush runs — triggered either by
`[DONE]` or by the first chunk that carries a finish reason — after
chunks that carry no finish reason, and the state at the flush has an
offending started tool sub-state (empty or non-JSON accumulated
arguments, JSON validity being `serde_json::from_str::<Value>`), the
flush fails with `invalid_request` carrying the FIRST offender's message
in iteration order — `"tool_use arguments empty"` when that offender's
arguments are empty, `"tool_use arguments invalid json"` otherwise — the
downstream sequence ends with that error event, and no `message_delta`
is emitted.  For a finish-reason-triggered flush the offender is sought
in the state after the chunk's own delta phases (`handleDeltas`).  (The
original claim keyed the message on the existence of any empty-argument
offender and promised no `message_delta` even when an earlier
finish-reason chunk had already emitted one.) -/
theorem C4_flush_error_on_bad_tool_arguments (cs : List OpenAIStreamChunk)
    (t : ToolCallState)
    (hnf : ∀ ch ∈ cs, noFinish ch = true) :
    (firstOffender (runChunks cs initStreamState).tool_calls = some t →
      (streamEvents (cs.map StreamItem.chunk ++ [StreamItem.done])).getLast? =
        some (Event.errorEvent (AppError.invalid_request (offenderMessage t))) ∧
      countMessageDeltas
        (streamEvents (cs.map StreamItem.chunk ++ [StreamItem.done])) = 0) ∧
    (∀ (fch : OpenAIStreamChunk) (choice : OpenAIStreamChoice)
        (tail : List OpenAIStreamChoice) (f : String),
      fch.choices = choice :: tail →
      choice.finish_reason = some f →
      firstOffender
        (handleDeltas fch choice (runChunks cs initStreamState)).1.tool_calls =
        some t →
      (streamEvents (cs.map StreamItem.chunk ++
          [StreamItem.chunk fch])).getLast? =
        some (Event.errorEvent (AppError.invalid_request (offenderMessage t))) ∧
      countMessageDeltas
        (streamEvents (cs.map StreamItem.chunk ++
          [StreamItem.chunk fch])) = 0) ∧
    (offenderMessage t = "tool_use arguments empty" ∨
     offenderMessage t = "tool_use arguments invalid json") := by
  refine ⟨fun hoff => ?_, fun fch choice tail f hch hfr hoff2 => ?_, ?_⟩
  · rcases processItems_noFinish cs initStreamState [StreamItem.done] hnf with
      ⟨evs, heq, hcnt⟩
    rcases processItems_done_offender (runChunks cs initStreamState) t hoff with
      ⟨heq2, hcnt2⟩
    unfold streamEvents
    rw [heq, heq2]
    constructor
    · rw [← List.append_assoc, List.getLast?_concat]
    · rw [countMessageDeltas_append, countMessageDeltas_append, hcnt, hcnt2]
      rfl
  · rcases processItems_noFinish cs initStreamState [StreamItem.chunk fch]
      hnf with ⟨evs, heq, hcnt⟩
    rcases handle_finish_err fch choice tail f (runChunks cs initStreamState) t
      hch hfr hoff2 with ⟨herr, hevs, hcnt2⟩
    have hone : processItems [StreamItem.chunk fch]
        (runChunks cs initStreamState) =
        (handle_openai_chunk fch (runChunks cs initStreamState)).2.1 ++
          [Event.errorEvent (AppError.invalid_request (offenderMessage t))] := by
      simp only [processItems]
      rw [herr]
    unfold streamEvents
    rw [heq, hone]
    constructor
    · rw [← List.append_assoc, List.getLast?_concat]
    · rw [countMessageDeltas_append, countMessageDeltas_append, hcnt, hcnt2]
      rfl
  · unfold offenderMessage
    split
    · exact Or.inl rfl
    · exact Or.inr rfl

/-- Witness for the amended C4: one chunk starting a tool call with no
arguments and no finish reason; both the `[DONE]` flush and the flush of
a following finish-reason chunk fail with `"tool_use arguments empty"`
and no `message_delta` is emitted. -/
theorem C4_flush_error_on_bad_tool_arguments_witness :
    (∀ ch ∈ [exEmptyArgsNoFinishChunk], noFinish ch = true) ∧
    firstOffender (runChunks [exEmptyArgsNoFinishChunk]
      initStreamState).tool_calls = some exOffenderTool ∧
    ((streamEvents ([exEmptyArgsNoFinishChunk].map StreamItem.chunk ++
        [StreamItem.done])).getLast? =
      some (Event.errorEvent
        (AppError.invalid_request (offenderMessage exOffenderTool))) ∧
     countMessageDeltas (streamEvents
       ([exEmptyArgsNoFinishChunk].map StreamItem.chunk ++
        [StreamItem.done])) = 0) ∧
    ((streamEvents ([exEmptyArgsNoFinishChunk].map StreamItem.chunk ++
        [StreamItem.chunk (exFinishChunk "tool_calls")])).getLast? =
      some (Event.errorEvent
        (AppError.invalid_request (offenderMessage exOffenderTool))) ∧
     countMessageDeltas (streamEvents
       ([exEmptyArgsNoFinishChunk].map StreamItem.chunk ++
        [StreamItem.chunk (exFinishChunk "tool_calls")])) = 0) ∧
    (offenderMessage exOffenderTool = "tool_use arguments empty" ∨
     offenderMessage exOffenderTool = "tool_use arguments invalid json") := by
  have h := C4_flush_error_on_bad_tool_arguments [exEmptyArgsNoFinishChunk]
    exOffenderTool
    (fun ch hch => by rcases List.mem_singleton.mp hch with rfl; rfl)
  exact ⟨fun ch hch => by rcases List.mem_singleton.mp hch with rfl; rfl,
    rfl, h.1 rfl,
    h.2.1 (exFinishChunk "tool_calls") exFinishChoice [] "tool_calls" rfl rfl
      rfl,
    h.2.2⟩

end LlmGateway
